import Mathlib

/-!
Verification of the partial-evaluation and tracing engine of
`jax/interpreters/partial_eval.py` against its natural-language specification.

The development shallowly embeds the data model and the operations of the
source file.  Machinery the source imports from `jax/core.py`,
`jax/util.py` and `jax/linear_util.py` (abstract values, the lattice join on
abstract values, graph evaluation, topological sorting) is not part of the
provided sources; those pieces are modelled from the specification and each
such definition is marked `Modelled from the spec:` in its doc comment.
-/

namespace JaxPE

/-! ## Concrete values

Modelled from the spec: concrete numeric values handled by the engine.  A
`base` value is an atomic array-like value; its first field is the numeric
content visible to `==`-style comparison of abstract values, the second field
is a provenance tag standing for Python object identity, which two distinct
host objects with equal numeric contents have.  `tuple` is a JaxTuple-like
structured value; the special value `unit` of the source is the empty tuple. -/
inductive Val : Type where
  | base  : Nat → Nat → Val
  | tuple : List Val → Val

/-- The source's `core.unit` value (the empty JaxTuple). -/
def unitVal : Val := Val.tuple []

/-- Modelled from the spec: abstract values ("shape/dtype metadata describing
a value", Glossary), with the concrete-array level of the abstraction lattice
that `core.concrete_aval` produces: a `concrete` abstract value carries the
numeric content of the value it came from (the comment on `join_pvals` in the
source reads "both pvals known, equal constants" when the two abstract values
compare equal, so equality of concrete abstract values compares contents).
`shaped` is the content-free level, `atuple` is `core.AbstractTuple`. -/
inductive AbstractVal : Type where
  | shaped   : AbstractVal
  | concrete : Nat → AbstractVal
  | atuple   : List AbstractVal → AbstractVal

mutual
/-- Structural equality test on abstract values, the model of Python `==` on
avals (`ConcreteArray.__eq__` compares contents, `AbstractTuple` compares
componentwise). -/
def aEq : AbstractVal → AbstractVal → Bool
  | AbstractVal.shaped, AbstractVal.shaped => true
  | AbstractVal.concrete n, AbstractVal.concrete m => n == m
  | AbstractVal.atuple l, AbstractVal.atuple m => aEqList l m
  | _, _ => false

/-- Componentwise `aEq` on lists of abstract values. -/
def aEqList : List AbstractVal → List AbstractVal → Bool
  | [], [] => true
  | a :: as_, b :: bs => aEq a b && aEqList as_ bs
  | _, _ => false
end

mutual
/-- Modelled from the spec: `core.concrete_aval` / `core.get_aval` on a
concrete value: the concrete abstract value recording the numeric content
(but not the provenance tag) of a base value, an `AbstractTuple` of the
components' abstract values on a tuple. -/
def concrete_aval : Val → AbstractVal
  | Val.base n _ => AbstractVal.concrete n
  | Val.tuple l => AbstractVal.atuple (concrete_aval_list l)

/-- Componentwise `concrete_aval`. -/
def concrete_aval_list : List Val → List AbstractVal
  | [] => []
  | v :: vs => concrete_aval v :: concrete_aval_list vs
end

mutual
/-- Modelled from the spec: `core.lattice_join`, the least upper bound of two
abstract values ("returns an `Unknown` PartialValue at the least-upper-bound
abstract type").  Two equal concrete values join to themselves, two different
concrete contents join to the content-free `shaped` level, tuples join
componentwise; a structural mismatch is a `TypeError` in the source, hence
`none` here. -/
def lattice_join : AbstractVal → AbstractVal → Option AbstractVal
  | AbstractVal.shaped, AbstractVal.shaped => some AbstractVal.shaped
  | AbstractVal.shaped, AbstractVal.concrete _ => some AbstractVal.shaped
  | AbstractVal.concrete _, AbstractVal.shaped => some AbstractVal.shaped
  | AbstractVal.concrete n, AbstractVal.concrete m =>
      some (if n == m then AbstractVal.concrete n else AbstractVal.shaped)
  | AbstractVal.atuple l, AbstractVal.atuple m =>
      (lattice_join_list l m).map AbstractVal.atuple
  | _, _ => none

/-- Componentwise `lattice_join` on lists of abstract values. -/
def lattice_join_list : List AbstractVal → List AbstractVal → Option (List AbstractVal)
  | [], [] => some []
  | a :: as_, b :: bs =>
      match lattice_join a b, lattice_join_list as_ bs with
      | some c, some cs => some (c :: cs)
      | _, _ => none
  | _, _ => none
end

/-- The descriptor component of a `PartialVal` (source `valid_pv_types`):
`known` is the Python `None` descriptor (value fully known, carried in the
second component), `unknown` is an `AbstractValue` descriptor (shape/dtype
known, value not), `ttuple` is a `JaxprTracerTuple` of component
descriptors. -/
inductive PV : Type where
  | known   : PV
  | unknown : AbstractVal → PV
  | ttuple  : List PV → PV

/-- A `PartialVal` is a pair of a descriptor and a carried value
(source class `PartialVal`). -/
abbrev PartialVal := PV × Val

/-- `abstractify` (source line 383): `PartialVal((core.concrete_aval(x), unit))`. -/
def abstractify (x : Val) : PartialVal :=
  (PV.unknown (concrete_aval x), unitVal)

/-- Is a descriptor an `AbstractValue` (the `isinstance(pv, AbstractValue)`
test of the source)? -/
def isAbstractPV : PV → Bool
  | PV.unknown _ => true
  | _ => false

/-- Extract the abstract values of a list of descriptors when all of them are
`AbstractValue` descriptors (`all(isinstance(pv, AbstractValue) for pv in Ls)`
followed by `AbstractTuple(Ls)` in the source); `none` when some descriptor
is not abstract. -/
def avalsOfUnknowns : List PV → Option (List AbstractVal)
  | [] => some []
  | PV.unknown a :: ps => (avalsOfUnknowns ps).map (fun as_ => a :: as_)
  | _ => none

/-- Iterating a descriptor, as the tuple branch of `join_pvals` does with
`zip(pv, const)`: a `JaxprTracerTuple` yields its components, an
`AbstractTuple` yields its component avals (as abstract descriptors); any
other descriptor is not iterable (a `TypeError` in the source). -/
def pvComponents : PV → Option (List PV)
  | PV.ttuple l => some l
  | PV.unknown (AbstractVal.atuple l) => some (l.map PV.unknown)
  | _ => none

/-- Iterating a carried value: only tuple values are iterable. -/
def valComponents : Val → Option (List Val)
  | Val.tuple l => some l
  | _ => none

mutual
/-- Size of an abstract value, used in the termination measure of
`join_pvals`. -/
def avSize : AbstractVal → Nat
  | AbstractVal.shaped => 1
  | AbstractVal.concrete _ => 1
  | AbstractVal.atuple l => 1 + avSizeList l + l.length

/-- Sum of `avSize` over a list. -/
def avSizeList : List AbstractVal → Nat
  | [] => 0
  | a :: as_ => avSize a + avSizeList as_
end

mutual
/-- Size of a descriptor, the termination measure for `join_pvals`.  The
`known` descriptor has size zero so that the `[None] * len(pv2)` replacement
performed by the source does not increase the measure. -/
def pvSize : PV → Nat
  | PV.known => 0
  | PV.unknown a => avSize a
  | PV.ttuple l => 1 + pvSizeList l + l.length

/-- Sum of `pvSize` over a list. -/
def pvSizeList : List PV → Nat
  | [] => 0
  | p :: ps => pvSize p + pvSizeList ps
end

theorem pvSizeList_replicate_known (n : Nat) :
    pvSizeList (List.replicate n PV.known) = 0 := by
  induction n with
  | zero => rfl
  | succ n ih => simpa [List.replicate, pvSizeList, pvSize] using ih

theorem pvSizeList_map_unknown (l : List AbstractVal) :
    pvSizeList (l.map PV.unknown) = avSizeList l := by
  induction l with
  | nil => rfl
  | cons a as_ ih => simp [List.map, pvSizeList, pvSize, avSizeList, ih]

/-- Reassembly of the componentwise join results in the tuple branch of
`join_pvals`: when every joined component descriptor is an `AbstractValue`
the result is an `AbstractTuple` descriptor, otherwise a `JaxprTracerTuple`
descriptor; in both cases the carried value is the tuple of joined carried
values. -/
def joinRebuild (rs : List PartialVal) : PartialVal :=
  match avalsOfUnknowns (rs.map Prod.fst) with
  | some avs => (PV.unknown (AbstractVal.atuple avs), Val.tuple (rs.map Prod.snd))
  | none => (PV.ttuple (rs.map Prod.fst), Val.tuple (rs.map Prod.snd))

mutual
/-- `join_pvals` (source lines 322-351).  Total in the source up to raised
`TypeError` / failed `safe_zip` and `safe_map` length assertions and raised
`lattice_join` errors, all of which are `none` here.  Two fully known values
whose abstract values compare equal join to the first operand; known/unknown
and unknown/unknown pairs join to an `Unknown` descriptor; pairs involving a
`JaxprTracerTuple` (after replacing a fully-known side by `[None] * len` of
the other side, zipped with its carried components) join componentwise. -/
def join_pvals : PartialVal → PartialVal → Option PartialVal
  | (PV.known, c1), (PV.known, c2) =>
      if aEq (concrete_aval c1) (concrete_aval c2) then
        some (PV.known, c1)
      else
        (lattice_join (concrete_aval c1) (concrete_aval c2)).map
          (fun a => (PV.unknown a, unitVal))
  | (PV.known, _), (PV.unknown a2, _) => some (PV.unknown a2, unitVal)
  | (PV.unknown a1, _), (PV.known, _) => some (PV.unknown a1, unitVal)
  | (PV.unknown a1, _), (PV.unknown a2, _) =>
      (lattice_join a1 a2).map (fun a => (PV.unknown a, unitVal))
  | (PV.known, c1), (PV.ttuple m, c2) =>
      match valComponents c1, valComponents c2 with
      | some xs, some ys =>
          (join_pvals_list (List.replicate m.length PV.known) xs m ys).map joinRebuild
      | _, _ => none
  | (PV.ttuple l, c1), (PV.known, c2) =>
      match valComponents c1, valComponents c2 with
      | some xs, some ys =>
          (join_pvals_list l xs (List.replicate l.length PV.known) ys).map joinRebuild
      | _, _ => none
  | (PV.unknown (AbstractVal.atuple zs), c1), (PV.ttuple m, c2) =>
      match valComponents c1, valComponents c2 with
      | some xs, some ys =>
          (join_pvals_list (zs.map PV.unknown) xs m ys).map joinRebuild
      | _, _ => none
  | (PV.unknown _, _), (PV.ttuple _, _) => none
  | (PV.ttuple l, c1), (PV.unknown (AbstractVal.atuple ws), c2) =>
      match valComponents c1, valComponents c2 with
      | some xs, some ys =>
          (join_pvals_list l xs (ws.map PV.unknown) ys).map joinRebuild
      | _, _ => none
  | (PV.ttuple _, _), (PV.unknown _, _) => none
  | (PV.ttuple l, c1), (PV.ttuple m, c2) =>
      match valComponents c1, valComponents c2 with
      | some xs, some ys =>
          (join_pvals_list l xs m ys).map joinRebuild
      | _, _ => none
termination_by p q => pvSize p.1 + pvSize q.1
decreasing_by
  all_goals simp only [pvSize, avSize, pvSizeList_replicate_known,
    pvSizeList_map_unknown, List.length_replicate, List.length_map]
  all_goals omega

/-- Componentwise `join_pvals` over zipped descriptors and carried-value
components; `none` when the lists are ragged (a failed `safe_zip` /
`safe_map` length assertion in the source). -/
def join_pvals_list : List PV → List Val → List PV → List Val →
    Option (List PartialVal)
  | [], [], [], [] => some []
  | p :: ps, c :: cs, q :: qs, d :: ds =>
      match join_pvals (p, c) (q, d), join_pvals_list ps cs qs ds with
      | some r, some rs => some (r :: rs)
      | _, _ => none
  | _, _, _, _ => none
termination_by ps _ qs _ => pvSizeList ps + pvSizeList qs + ps.length
decreasing_by
  all_goals simp only [pvSize, pvSizeList, List.length_cons]
  all_goals omega
end

mutual
theorem aEq_eq_true_iff : ∀ a b : AbstractVal, aEq a b = true ↔ a = b
  | AbstractVal.shaped, AbstractVal.shaped => by simp [aEq]
  | AbstractVal.shaped, AbstractVal.concrete _ => by simp [aEq]
  | AbstractVal.shaped, AbstractVal.atuple _ => by simp [aEq]
  | AbstractVal.concrete _, AbstractVal.shaped => by simp [aEq]
  | AbstractVal.concrete n, AbstractVal.concrete m => by simp [aEq]
  | AbstractVal.concrete _, AbstractVal.atuple _ => by simp [aEq]
  | AbstractVal.atuple _, AbstractVal.shaped => by simp [aEq]
  | AbstractVal.atuple _, AbstractVal.concrete _ => by simp [aEq]
  | AbstractVal.atuple l, AbstractVal.atuple m => by
      simp [aEq, aEqList_eq_true_iff l m]

theorem aEqList_eq_true_iff : ∀ l m : List AbstractVal, aEqList l m = true ↔ l = m
  | [], [] => by simp [aEqList]
  | [], _ :: _ => by simp [aEqList]
  | _ :: _, [] => by simp [aEqList]
  | a :: as_, b :: bs => by
      simp [aEqList, aEq_eq_true_iff a b, aEqList_eq_true_iff as_ bs]
end

theorem aEq_symm (a b : AbstractVal) : aEq a b = aEq b a := by
  by_cases h : a = b
  · subst h; rfl
  · have h1 : aEq a b = false := by
      cases he : aEq a b with
      | true => exact absurd ((aEq_eq_true_iff a b).1 he) h
      | false => rfl
    have h2 : aEq b a = false := by
      cases he : aEq b a with
      | true => exact absurd ((aEq_eq_true_iff b a).1 he).symm h
      | false => rfl
    rw [h1, h2]

mutual
theorem lattice_join_comm : ∀ a b : AbstractVal, lattice_join a b = lattice_join b a
  | AbstractVal.shaped, AbstractVal.shaped => rfl
  | AbstractVal.shaped, AbstractVal.concrete _ => by simp [lattice_join]
  | AbstractVal.shaped, AbstractVal.atuple _ => by simp [lattice_join]
  | AbstractVal.concrete _, AbstractVal.shaped => by simp [lattice_join]
  | AbstractVal.concrete n, AbstractVal.concrete m => by
      by_cases h : n = m
      · subst h; rfl
      · have h1 : (n == m) = false := by simpa using h
        have h2 : (m == n) = false := by simpa using (Ne.symm h)
        simp [lattice_join, h1, h2]
  | AbstractVal.concrete _, AbstractVal.atuple _ => by simp [lattice_join]
  | AbstractVal.atuple _, AbstractVal.shaped => by simp [lattice_join]
  | AbstractVal.atuple _, AbstractVal.concrete _ => by simp [lattice_join]
  | AbstractVal.atuple l, AbstractVal.atuple m => by
      simp [lattice_join, lattice_join_list_comm l m]

theorem lattice_join_list_comm : ∀ l m : List AbstractVal,
    lattice_join_list l m = lattice_join_list m l
  | [], [] => rfl
  | [], _ :: _ => by simp [lattice_join_list]
  | _ :: _, [] => by simp [lattice_join_list]
  | a :: as_, b :: bs => by
      simp [lattice_join_list, lattice_join_comm a b, lattice_join_list_comm as_ bs]
end

theorem concrete_aval_list_eq_map : ∀ xs : List Val,
    concrete_aval_list xs = xs.map concrete_aval
  | [] => rfl
  | v :: vs => by simp [concrete_aval_list, concrete_aval_list_eq_map vs]

/-- Observational equality of the reassembled tuple joins follows from
pointwise equality of the component descriptors and of the component carried
values' abstract values. -/
theorem joinRebuild_congr (rs rs' : List PartialVal)
    (h1 : rs.map Prod.fst = rs'.map Prod.fst)
    (h2 : rs.map (fun x => concrete_aval x.2) = rs'.map (fun x => concrete_aval x.2)) :
    (joinRebuild rs).1 = (joinRebuild rs').1 ∧
    concrete_aval (joinRebuild rs).2 = concrete_aval (joinRebuild rs').2 := by
  have hv : concrete_aval (Val.tuple (rs.map Prod.snd))
      = concrete_aval (Val.tuple (rs'.map Prod.snd)) := by
    simp only [concrete_aval, concrete_aval_list_eq_map, List.map_map]
    exact congrArg AbstractVal.atuple (by simpa [Function.comp] using h2)
  unfold joinRebuild
  rw [← h1]
  cases h : avalsOfUnknowns (rs.map Prod.fst) <;> simp [hv, h1]

mutual
/-- Auxiliary commutativity of `join_pvals`, mutually with its componentwise
list version: swapping the operands preserves definedness, gives the same
descriptor, and gives an observationally equal carried value. -/
theorem join_pvals_comm_aux : ∀ p q r : PartialVal, join_pvals p q = some r →
    ∃ r', join_pvals q p = some r' ∧ r.1 = r'.1 ∧
      concrete_aval r.2 = concrete_aval r'.2
  | (PV.known, c1), (PV.known, c2), r, h => by
      by_cases he : aEq (concrete_aval c1) (concrete_aval c2) = true
      · have he' : aEq (concrete_aval c2) (concrete_aval c1) = true := by
          rw [aEq_symm]; exact he
        simp only [join_pvals, he, he', if_true] at h ⊢
        exact ⟨(PV.known, c2), rfl, by simp [← Option.some.inj h],
          by rw [← Option.some.inj h]; exact ((aEq_eq_true_iff _ _).1 he).symm ▸ rfl⟩
      · have hf : aEq (concrete_aval c1) (concrete_aval c2) = false :=
          Bool.eq_false_iff.2 he
        have hf' : aEq (concrete_aval c2) (concrete_aval c1) = false := by
          rw [aEq_symm]; exact hf
        simp only [join_pvals, hf, hf', Bool.false_eq_true, if_false] at h ⊢
        rw [lattice_join_comm (concrete_aval c2) (concrete_aval c1)]
        exact ⟨r, h, rfl, rfl⟩
  | (PV.known, c1), (PV.unknown a2, c2), r, h => by
      simp only [join_pvals] at h ⊢
      exact ⟨(PV.unknown a2, unitVal), rfl, by simp [← Option.some.inj h],
        by simp [← Option.some.inj h]⟩
  | (PV.unknown a1, c1), (PV.known, c2), r, h => by
      simp only [join_pvals] at h ⊢
      exact ⟨(PV.unknown a1, unitVal), rfl, by simp [← Option.some.inj h],
        by simp [← Option.some.inj h]⟩
  | (PV.unknown a1, c1), (PV.unknown a2, c2), r, h => by
      simp only [join_pvals] at h ⊢
      rw [lattice_join_comm a2 a1]
      exact ⟨r, h, rfl, rfl⟩
  | (PV.known, c1), (PV.ttuple m, c2), r, h => by
      cases hc1 : valComponents c1 with
      | none => simp [join_pvals, hc1] at h
      | some xs =>
        cases hc2 : valComponents c2 with
        | none => simp [join_pvals, hc1, hc2] at h
        | some ys =>
          simp only [join_pvals, hc1, hc2] at h
          cases hl : join_pvals_list (List.replicate m.length PV.known) xs m ys with
          | none => simp [hl] at h
          | some rs =>
            simp only [hl, Option.map_some'] at h
            obtain ⟨rs', hrs', hfst, hsnd⟩ :=
              join_pvals_list_comm_aux (List.replicate m.length PV.known) xs m ys rs hl
            refine ⟨joinRebuild rs', ?_, ?_, ?_⟩
            · simp [join_pvals, hc1, hc2, hrs']
            · rw [← Option.some.inj h]
              exact (joinRebuild_congr rs rs' hfst hsnd).1
            · rw [← Option.some.inj h]
              exact (joinRebuild_congr rs rs' hfst hsnd).2
  | (PV.ttuple l, c1), (PV.known, c2), r, h => by
      cases hc1 : valComponents c1 with
      | none => simp [join_pvals, hc1] at h
      | some xs =>
        cases hc2 : valComponents c2 with
        | none => simp [join_pvals, hc1, hc2] at h
        | some ys =>
          simp only [join_pvals, hc1, hc2] at h
          cases hl : join_pvals_list l xs (List.replicate l.length PV.known) ys with
          | none => simp [hl] at h
          | some rs =>
            simp only [hl, Option.map_some'] at h
            obtain ⟨rs', hrs', hfst, hsnd⟩ :=
              join_pvals_list_comm_aux l xs (List.replicate l.length PV.known) ys rs hl
            refine ⟨joinRebuild rs', ?_, ?_, ?_⟩
            · simp [join_pvals, hc1, hc2, hrs']
            · rw [← Option.some.inj h]
              exact (joinRebuild_congr rs rs' hfst hsnd).1
            · rw [← Option.some.inj h]
              exact (joinRebuild_congr rs rs' hfst hsnd).2
  | (PV.unknown (AbstractVal.atuple zs), c1), (PV.ttuple m, c2), r, h => by
      cases hc1 : valComponents c1 with
      | none => simp [join_pvals, hc1] at h
      | some xs =>
        cases hc2 : valComponents c2 with
        | none => simp [join_pvals, hc1, hc2] at h
        | some ys =>
          simp only [join_pvals, hc1, hc2] at h
          cases hl : join_pvals_list (zs.map PV.unknown) xs m ys with
          | none => simp [hl] at h
          | some rs =>
            simp only [hl, Option.map_some'] at h
            obtain ⟨rs', hrs', hfst, hsnd⟩ :=
              join_pvals_list_comm_aux (zs.map PV.unknown) xs m ys rs hl
            refine ⟨joinRebuild rs', ?_, ?_, ?_⟩
            · simp [join_pvals, hc1, hc2, hrs']
            · rw [← Option.some.inj h]
              exact (joinRebuild_congr rs rs' hfst hsnd).1
            · rw [← Option.some.inj h]
              exact (joinRebuild_congr rs rs' hfst hsnd).2
  | (PV.unknown AbstractVal.shaped, _), (PV.ttuple _, _), r, h => by
      simp only [join_pvals] at h
      exact Option.noConfusion h
  | (PV.unknown (AbstractVal.concrete _), _), (PV.ttuple _, _), r, h => by
      simp only [join_pvals] at h
      exact Option.noConfusion h
  | (PV.ttuple l, c1), (PV.unknown (AbstractVal.atuple ws), c2), r, h => by
      cases hc1 : valComponents c1 with
      | none => simp [join_pvals, hc1] at h
      | some xs =>
        cases hc2 : valComponents c2 with
        | none => simp [join_pvals, hc1, hc2] at h
        | some ys =>
          simp only [join_pvals, hc1, hc2] at h
          cases hl : join_pvals_list l xs (ws.map PV.unknown) ys with
          | none => simp [hl] at h
          | some rs =>
            simp only [hl, Option.map_some'] at h
            obtain ⟨rs', hrs', hfst, hsnd⟩ :=
              join_pvals_list_comm_aux l xs (ws.map PV.unknown) ys rs hl
            refine ⟨joinRebuild rs', ?_, ?_, ?_⟩
            · simp [join_pvals, hc1, hc2, hrs']
            · rw [← Option.some.inj h]
              exact (joinRebuild_congr rs rs' hfst hsnd).1
            · rw [← Option.some.inj h]
              exact (joinRebuild_congr rs rs' hfst hsnd).2
  | (PV.ttuple _, _), (PV.unknown AbstractVal.shaped, _), r, h => by
      simp only [join_pvals] at h
      exact Option.noConfusion h
  | (PV.ttuple _, _), (PV.unknown (AbstractVal.concrete _), _), r, h => by
      simp only [join_pvals] at h
      exact Option.noConfusion h
  | (PV.ttuple l, c1), (PV.ttuple m, c2), r, h => by
      cases hc1 : valComponents c1 with
      | none => simp [join_pvals, hc1] at h
      | some xs =>
        cases hc2 : valComponents c2 with
        | none => simp [join_pvals, hc1, hc2] at h
        | some ys =>
          simp only [join_pvals, hc1, hc2] at h
          cases hl : join_pvals_list l xs m ys with
          | none => simp [hl] at h
          | some rs =>
            simp only [hl, Option.map_some'] at h
            obtain ⟨rs', hrs', hfst, hsnd⟩ :=
              join_pvals_list_comm_aux l xs m ys rs hl
            refine ⟨joinRebuild rs', ?_, ?_, ?_⟩
            · simp [join_pvals, hc1, hc2, hrs']
            · rw [← Option.some.inj h]
              exact (joinRebuild_congr rs rs' hfst hsnd).1
            · rw [← Option.some.inj h]
              exact (joinRebuild_congr rs rs' hfst hsnd).2

termination_by p q _ _ => pvSize p.1 + pvSize q.1
decreasing_by
  all_goals simp only [pvSize, avSize, pvSizeList, pvSizeList_replicate_known,
    pvSizeList_map_unknown, List.length_replicate, List.length_map, List.length_cons]
  all_goals omega

/-- Componentwise commutativity for `join_pvals_list`. -/
theorem join_pvals_list_comm_aux : ∀ (ps : List PV) (cs : List Val) (qs : List PV)
    (ds : List Val) (rs : List PartialVal),
    join_pvals_list ps cs qs ds = some rs →
    ∃ rs', join_pvals_list qs ds ps cs = some rs' ∧
      rs.map Prod.fst = rs'.map Prod.fst ∧
      rs.map (fun x => concrete_aval x.2) = rs'.map (fun x => concrete_aval x.2)
  | [], [], [], [], rs, h => by
      simp only [join_pvals_list, Option.some.injEq] at h
      subst h
      exact ⟨[], by simp [join_pvals_list], rfl, rfl⟩
  | p :: ps, c :: cs, q :: qs, d :: ds, rs, h => by
      cases h1 : join_pvals (p, c) (q, d) with
      | none => simp [join_pvals_list, h1] at h
      | some r0 =>
        cases h2 : join_pvals_list ps cs qs ds with
        | none => simp [join_pvals_list, h1, h2] at h
        | some rs0 =>
          simp only [join_pvals_list, h1, h2] at h
          obtain ⟨r', hr', hf1, hs1⟩ := join_pvals_comm_aux (p, c) (q, d) r0 h1
          obtain ⟨rs0', hrs', hf2, hs2⟩ := join_pvals_list_comm_aux ps cs qs ds rs0 h2
          refine ⟨r' :: rs0', by simp [join_pvals_list, hr', hrs'], ?_, ?_⟩ <;>
            simp [← Option.some.inj h, hf1, hs1, hf2, hs2]
  | [], [], [], _ :: _, rs, h => by simp [join_pvals_list.eq_def] at h
  | [], [], _ :: _, [], rs, h => by simp [join_pvals_list.eq_def] at h
  | [], [], _ :: _, _ :: _, rs, h => by simp [join_pvals_list.eq_def] at h
  | [], _ :: _, [], [], rs, h => by simp [join_pvals_list.eq_def] at h
  | [], _ :: _, [], _ :: _, rs, h => by simp [join_pvals_list.eq_def] at h
  | [], _ :: _, _ :: _, [], rs, h => by simp [join_pvals_list.eq_def] at h
  | [], _ :: _, _ :: _, _ :: _, rs, h => by simp [join_pvals_list.eq_def] at h
  | _ :: _, [], [], [], rs, h => by simp [join_pvals_list.eq_def] at h
  | _ :: _, [], [], _ :: _, rs, h => by simp [join_pvals_list.eq_def] at h
  | _ :: _, [], _ :: _, [], rs, h => by simp [join_pvals_list.eq_def] at h
  | _ :: _, [], _ :: _, _ :: _, rs, h => by simp [join_pvals_list.eq_def] at h
  | _ :: _, _ :: _, [], [], rs, h => by simp [join_pvals_list.eq_def] at h
  | _ :: _, _ :: _, [], _ :: _, rs, h => by simp [join_pvals_list.eq_def] at h
  | _ :: _, _ :: _, _ :: _, [], rs, h => by simp [join_pvals_list.eq_def] at h
termination_by ps _ qs _ _ _ => pvSizeList ps + pvSizeList qs + ps.length
decreasing_by
  all_goals simp only [pvSize, avSize, pvSizeList, pvSizeList_replicate_known,
    pvSizeList_map_unknown, List.length_replicate, List.length_map, List.length_cons]
  all_goals omega
end

/-- **C8.**  `join_pvals` is commutative up to observational equality:
whenever `join_pvals pv1 pv2` is defined, so is `join_pvals pv2 pv1`, the two
results have the same known/unknown descriptor, and their carried values are
observationally equal (equal abstract values, i.e. equal contents up to host
object identity). -/
theorem C8_join_commutative (p q r : PartialVal) (h : join_pvals p q = some r) :
    ∃ r', join_pvals q p = some r' ∧ r.1 = r'.1 ∧
      concrete_aval r.2 = concrete_aval r'.2 :=
  join_pvals_comm_aux p q r h

/-- Witness for C8 on two fully-known operands with equal contents and
distinct provenance tags. -/
theorem C8_witness :
    ∃ r', join_pvals ((PV.known, Val.base 1 9) : PartialVal) (PV.known, Val.base 1 4)
        = some r' ∧
      ((PV.known, Val.base 1 4) : PartialVal).1 = r'.1 ∧
      concrete_aval ((PV.known, Val.base 1 4) : PartialVal).2 = concrete_aval r'.2 :=
  C8_join_commutative (PV.known, Val.base 1 4) (PV.known, Val.base 1 9)
    (PV.known, Val.base 1 4) (by simp [join_pvals, aEq, concrete_aval])

/-- **C6.**  In `join_pvals` on two fully-known `PartialVal`s: if the carried
values' abstract values compare equal, the result is a fully-known
`PartialVal` (the first operand, even when the two carried values differ as
host objects); if the abstract values differ and their lattice join is
defined, the result is an `Unknown` `PartialVal` at the lattice-join abstract
value, with the unit carried value. -/
theorem C6_join_known_known (c1 c2 : Val) :
    (aEq (concrete_aval c1) (concrete_aval c2) = true →
      join_pvals (PV.known, c1) (PV.known, c2) = some (PV.known, c1)) ∧
    (∀ a : AbstractVal, aEq (concrete_aval c1) (concrete_aval c2) = false →
      lattice_join (concrete_aval c1) (concrete_aval c2) = some a →
      join_pvals (PV.known, c1) (PV.known, c2) = some (PV.unknown a, unitVal)) := by
  constructor
  · intro h; simp [join_pvals, h]
  · intro a h hj; simp [join_pvals, h, hj]

/-- Witness for C6: values `base 2 0` and `base 2 1` differ (distinct
provenance) yet have equal abstract values, and join to the fully-known first
operand; `base 2 0` and `base 3 0` have different abstract values and join to
an `Unknown` at the lattice join `shaped`. -/
theorem C6_witness :
    join_pvals (PV.known, Val.base 2 0) (PV.known, Val.base 2 1)
      = some (PV.known, Val.base 2 0) ∧
    join_pvals (PV.known, Val.base 2 0) (PV.known, Val.base 3 0)
      = some (PV.unknown AbstractVal.shaped, unitVal) :=
  ⟨(C6_join_known_known (Val.base 2 0) (Val.base 2 1)).1 rfl,
   (C6_join_known_known (Val.base 2 0) (Val.base 3 0)).2 AbstractVal.shaped rfl rfl⟩

/-- **C7 counterexample.**  `abstractify` on the concrete value `base 3 0`
does not produce the fully-known (`None`) descriptor: its descriptor is the
abstract value `core.concrete_aval(x)`, contradicting the claim that the
result "marks the value as fully known (the None descriptor, carrying the
value directly)". -/
theorem C7_counterexample : (abstractify (Val.base 3 0)).1 ≠ PV.known :=
  fun h => PV.noConfusion h

/-- **C7 (amended).**  For every concrete value `v`, `abstractify v` is the
`PartialVal` whose descriptor is the abstract value `concrete_aval v` (an
abstract descriptor, not the fully-known `None` descriptor) and whose carried
value is `unit`. -/
theorem C7_abstractify_abstract (v : Val) :
    abstractify v = (PV.unknown (concrete_aval v), unitVal) := rfl

/-- **C10.**  When both operands of `join_pvals` are fully known and their
carried values' abstract values compare equal, the result is exactly the
first operand's pair — the first operand's constant is kept, never the
second's. -/
theorem C10_join_tiebreak_first (c1 c2 : Val)
    (h : aEq (concrete_aval c1) (concrete_aval c2) = true) :
    join_pvals (PV.known, c1) (PV.known, c2) = some (PV.known, c1) := by
  simp [join_pvals, h]

/-- Witness for C10 at values with equal content but distinct provenance
tags: the join keeps the first operand's value `base 1 0`, not `base 1 7`. -/
theorem C10_witness :
    join_pvals (PV.known, Val.base 1 0) (PV.known, Val.base 1 7)
      = some (PV.known, Val.base 1 0) :=
  C10_join_tiebreak_first (Val.base 1 0) (Val.base 1 7) rfl

/-! ## Graph representation

`Var` objects of the source (class `Var`, allocated by `gensym`) are opaque
identity-based identifiers; they are modelled as natural numbers.  The
distinguished `core.unitvar` is `0`; `gensym` counters allocate from `1`. -/
abbrev VarId := Nat

/-- Modelled from the spec: the source's `core.unitvar`, the distinguished
variable standing for the unit value. -/
def unitvar : VarId := 0

/-- Primitive identifiers.  `identity` is `core.identity_p` (used with the
`destructure` flag for unpacking), `pack` is `core.pack_p`, and `op c` is a
catalog primitive with code `c` (the catalog itself is an external
collaborator). -/
inductive Prim : Type where
  | identity : Prim
  | pack     : Prim
  | op       : Nat → Prim
deriving DecidableEq

/-- `core.JaxprEqn` in the final (extracted) form, restricted to the
first-order fragment the claims are about: the `bound_subjaxprs` component is
always the empty tuple and is omitted.  `invars` are the equation's input
variable references, `outvars` its output variables, then the primitive, the
`restructure` and `destructure` flags, and an opaque static-parameter
payload. -/
structure JaxprEqn : Type where
  invars      : List VarId
  outvars     : List VarId
  primitive   : Prim
  restructure : Bool
  destructure : Bool
  params      : Nat
deriving DecidableEq

/-- `core.Jaxpr`: constant variables, free (environment) variables, explicit
input variables, the single output reference, and the equation list. -/
structure Jaxpr : Type where
  constvars : List VarId
  freevars  : List VarId
  invars    : List VarId
  outvar    : VarId
  eqns      : List JaxprEqn

/-- `_unpack_eqn` (source lines 607-608): a destructuring identity equation
unpacking `invar` into `outvars`. -/
def unpack_eqn (invar : VarId) (outvars : List VarId) : JaxprEqn :=
  ⟨[invar], outvars, Prim.identity, false, true, 0⟩

/-- `_pack_eqn` (source lines 610-611): a pack equation collecting `invars`
into the tuple `outvar`. -/
def pack_eqn (invars : List VarId) (outvar : VarId) : JaxprEqn :=
  ⟨invars, [outvar], Prim.pack, false, false, 0⟩

/-- `_closure_convert_jaxpr` (source lines 598-605).  The source draws the
synthesized leading input from a gensym; the model receives that fresh
variable as the argument `consts_var`. -/
def closure_convert_jaxpr (jaxpr : Jaxpr) (consts_var : VarId) : Jaxpr :=
  { jaxpr with
    constvars := []
    invars := consts_var :: jaxpr.invars
    eqns := unpack_eqn consts_var jaxpr.constvars :: jaxpr.eqns }

/-- **C3.**  `_closure_convert_jaxpr` empties the constant-variable list,
prepends the synthesized variable to the explicit inputs, prepends exactly
one destructuring identity equation unpacking that variable into the original
constant variables, and leaves the output reference and the remaining fields
(free variables) unchanged. -/
theorem C3_closure_convert (j : Jaxpr) (v : VarId) :
    (closure_convert_jaxpr j v).constvars = [] ∧
    (closure_convert_jaxpr j v).invars = v :: j.invars ∧
    (closure_convert_jaxpr j v).eqns = unpack_eqn v j.constvars :: j.eqns ∧
    unpack_eqn v j.constvars =
      ⟨[v], j.constvars, Prim.identity, false, true, 0⟩ ∧
    (closure_convert_jaxpr j v).outvar = j.outvar ∧
    (closure_convert_jaxpr j v).freevars = j.freevars :=
  ⟨rfl, rfl, rfl, rfl, rfl, rfl⟩

/-! ## Trace levels and constant lifting (C9) -/

/-- The data of a `JaxprTrace` relevant to `new_const`: its `level`. -/
structure TraceCtx : Type where
  level : Nat

/-- A Python value passed to `JaxprTrace.pure` / `lift`: either a concrete
value or a `Tracer` belonging to a trace at the given level
(`val.trace.level`). -/
inductive TraceVal : Type where
  | conc   : Val → TraceVal
  | tracer : Nat → TraceVal

/-- The observable data of a constructed `JaxprTracer`: its trace's level and
its `PartialVal` whose carried slot may hold a concrete value or a
lower-level tracer; the recipe of a `new_const` tracer is always `unit`. -/
structure CTracer : Type where
  level : Nat
  pv    : PV
  const : TraceVal

/-- The `JaxprTracer.__init__` assertion (source lines 240-247): when the
carried constant is itself a `Tracer`, its trace's level must be strictly
below the constructing trace's level. -/
def mkJaxprTracer (lvl : Nat) (pv : PV) (const : TraceVal) :
    Except String CTracer :=
  match const with
  | TraceVal.tracer l =>
      if l < lvl then Except.ok ⟨lvl, pv, const⟩
      else Except.error "JaxprTracer level assertion"
  | TraceVal.conc _ => Except.ok ⟨lvl, pv, const⟩

/-- `JaxprTrace.new_const` (source lines 45-48): raises when the value is a
`Tracer` whose trace has the same level as this trace, otherwise wraps the
value in a fully-known constant tracer (recipe `unit`). -/
def new_const (tr : TraceCtx) (v : TraceVal) : Except String CTracer :=
  match v with
  | TraceVal.tracer l =>
      if l == tr.level then Except.error "Exception"
      else mkJaxprTracer tr.level PV.known v
  | TraceVal.conc _ => mkJaxprTracer tr.level PV.known v

/-- `JaxprTrace.pure` (source lines 36-37): delegates to `new_const`. -/
def tracePure (tr : TraceCtx) (v : TraceVal) : Except String CTracer :=
  new_const tr v

/-- `JaxprTrace.lift` (source lines 39-40): delegates to `new_const`. -/
def traceLift (tr : TraceCtx) (v : TraceVal) : Except String CTracer :=
  new_const tr v

/-- **C9.**  Calling `pure` or `lift` on a value that is itself a `Tracer`
belonging to a trace at the same level raises an error instead of returning a
tracer. -/
theorem C9_same_level_lift_raises (tr : TraceCtx) :
    tracePure tr (TraceVal.tracer tr.level) = Except.error "Exception" ∧
    traceLift tr (TraceVal.tracer tr.level) = Except.error "Exception" := by
  constructor <;> simp [tracePure, traceLift, new_const]

/-! ## Tracer arena

`JaxprTracer` objects form an object graph linked by their recipes and
memoized by Python object identity (`id(t)`); following the spec's own
suggested re-architecture, tracers live in an arena (a list of nodes) and are
addressed by their index ("handle").  The modelled fragment is first-order:
recipe equations carry no `bound_subjaxprs` and never set `restructure`. -/

/-- A `JaxprEqn` used as a tracer recipe, before variable allocation: its
`invars` are tracer handles; the source stores `None` (single output) or
`[None] * n` (destructuring) as the outvars placeholder, of which only the
count `noutvars` is observable (`0` encodes `None`). -/
structure EqnRecipe : Type where
  invars      : List Nat
  primitive   : Prim
  destructure : Bool
  noutvars    : Nat
  params      : Nat

/-- Tracer recipes: an equation, a lambda binding, a free variable, a lifted
constant, a destructuring reference `Destructuring(i, eqn, key)`, or the
`unit` recipe of `new_const` tracers. -/
inductive Recipe : Type where
  | eqnR   : EqnRecipe → Recipe
  | lamB   : Recipe
  | freeV  : Val → Recipe
  | constV : Val → Recipe
  | destr  : Nat → EqnRecipe → Nat → Recipe
  | unitR  : Recipe

/-- One tracer: its `PartialVal` and its recipe. -/
structure TNode : Type where
  pval   : PartialVal
  recipe : Recipe

/-- The tracer arena; a handle is an index into it. -/
abbrev Store := List TNode

/-- `JaxprTrace.new_instantiated_const` (source lines 50-51): a fresh tracer
with `PartialVal((get_aval(val), unit))` and a `ConstVar` recipe. -/
def new_instantiated_const (store : Store) (v : Val) : Store × Nat :=
  (store ++ [⟨(PV.unknown (concrete_aval v), unitVal), Recipe.constV v⟩], store.length)

/-- A fresh constant tracer as produced by `full_raise` on a concrete value
(`JaxprTrace.pure`, hence `new_const`): fully-known `PartialVal` and the
`unit` recipe. -/
def newConstNode (store : Store) (v : Val) : Store × Nat :=
  (store ++ [⟨(PV.known, v), Recipe.unitR⟩], store.length)

/-- `pack_pvals` (source lines 371-379): fully known when every component is,
an `AbstractTuple` descriptor when every component is abstract, otherwise a
`JaxprTracerTuple`; the carried value is the packed tuple of components. -/
def pack_pvals (pvals : List PartialVal) : PartialVal :=
  let pvs := pvals.map Prod.fst
  let consts := pvals.map Prod.snd
  if pvs.all (fun p => match p with | PV.known => true | _ => false) then
    (PV.known, Val.tuple consts)
  else
    match avalsOfUnknowns pvs with
    | some avs => (PV.unknown (AbstractVal.atuple avs), Val.tuple consts)
    | none => (PV.ttuple pvs, Val.tuple consts)

/-- `JaxprTrace.pack` (source lines 80-83): one `pack_p` equation over the
given tracers, output `PartialVal` by `pack_pvals`. -/
def tracePack (store : Store) (hs : List Nat) : Option (Store × Nat) := do
  let pvals ← hs.mapM (fun h => (store[h]?).map TNode.pval)
  let eqn : EqnRecipe := ⟨hs, Prim.pack, false, 0, 0⟩
  some (store ++ [⟨pack_pvals pvals, Recipe.eqnR eqn⟩], store.length)

/-- Children construction inside `JaxprTracer.unpack`: each component whose
descriptor is fully known is immediately `full_lower`ed to its carried value
(the constructed tracer is discarded unreferenced, so it is not stored); any
other component becomes a stored tracer with a `Destructuring(i, eqn, key)`
recipe. -/
def unpackChildren (e : EqnRecipe) (key : Nat) :
    Store → Nat → List PV → List Val → Option (Store × List (Sum Nat Val))
  | st, _, [], [] => some (st, [])
  | st, i, p :: ps, c :: cs =>
      match p with
      | PV.known =>
          (unpackChildren e key st (i + 1) ps cs).map
            (fun r => (r.1, Sum.inr c :: r.2))
      | _ =>
          let hnew := st.length
          let st1 := st ++ [⟨(p, c), Recipe.destr i e key⟩]
          (unpackChildren e key st1 (i + 1) ps cs).map
            (fun r => (r.1, Sum.inl hnew :: r.2))
  | _, _, _, _ => none

/-- `JaxprTracer.unpack` (source lines 277-292).  For a `JaxprTracerTuple`
descriptor the carried components pair with the descriptor components; for an
`AbstractTuple` descriptor the carried components are `unit`s; a fully-known
tracer just returns its carried components.  The shared destructuring `eqn`
has all the children's handles deduplicated through the fresh `key` (the
`object()` of the source, modelled by the store length, which is distinct for
every call that stores at least one child). -/
def unpackTracer (store : Store) (h : Nat) : Option (Store × List (Sum Nat Val)) := do
  let nd ← store[h]?
  match nd.pval with
  | (PV.ttuple l, c) => do
      let cs ← valComponents c
      let e : EqnRecipe := ⟨[h], Prim.identity, true, l.length, 0⟩
      unpackChildren e store.length store 0 l cs
  | (PV.unknown (AbstractVal.atuple xs), _) =>
      let e : EqnRecipe := ⟨[h], Prim.identity, true, xs.length, 0⟩
      unpackChildren e store.length store 0 (xs.map PV.unknown)
        (List.replicate xs.length unitVal)
  | (PV.unknown _, _) => none
  | (PV.known, c) => (valComponents c).map (fun cs => (store, cs.map Sum.inr))

mutual
/-- `JaxprTrace.instantiate_const` (source lines 57-66), fuelled for
termination (the fuel strictly bounds the tuple-nesting depth of the
descriptor; see `instantiate_const` for the bound used).  An abstract tracer
is returned unchanged; a `JaxprTracerTuple` tracer is unpacked, its children
instantiated and re-packed; a fully-known tracer becomes an instantiated
constant. -/
def instantiate_const_fuel : Nat → Store → Nat → Option (Store × Nat)
  | 0, _, _ => none
  | fuel + 1, store, h => do
      let nd ← store[h]?
      match nd.pval.1 with
      | PV.unknown _ => some (store, h)
      | PV.ttuple _ => do
          let (st1, children) ← unpackTracer store h
          let (st2, hs) ← instChildrenFuel fuel st1 children
          tracePack st2 hs
      | PV.known => some (new_instantiated_const store nd.pval.2)
termination_by fuel _ _ => (fuel, 0)

/-- Instantiate each unpack child: raw values are `full_raise`d to fresh
constant tracers first (`trace.pure`), then instantiated. -/
def instChildrenFuel : Nat → Store → List (Sum Nat Val) → Option (Store × List Nat)
  | _, st, [] => some (st, [])
  | fuel, st, Sum.inl ch :: rest => do
      let (st1, h1) ← instantiate_const_fuel fuel st ch
      let (st2, hs) ← instChildrenFuel fuel st1 rest
      some (st2, h1 :: hs)
  | fuel, st, Sum.inr v :: rest => do
      let p := newConstNode st v
      let (st1, h1) ← instantiate_const_fuel fuel p.1 p.2
      let (st2, hs) ← instChildrenFuel fuel st1 rest
      some (st2, h1 :: hs)
termination_by fuel _ children => (fuel, children.length + 1)
end

/-- Fuel bound for `instantiate_const`: one more than the descriptor size of
the tracer, which strictly exceeds its tuple-nesting depth. -/
def instFuel (store : Store) (h : Nat) : Nat :=
  match store[h]? with
  | some nd => pvSize nd.pval.1 + 1
  | none => 1

/-- `JaxprTrace.instantiate_const` at its natural fuel. -/
def instantiate_const (store : Store) (h : Nat) : Option (Store × Nat) :=
  instantiate_const_fuel (instFuel store h) store h

/-- `map(self.instantiate_const, tracers)` threading the arena. -/
def instList : Store → List Nat → Option (Store × List Nat)
  | st, [] => some (st, [])
  | st, h :: hs => do
      let (st1, h1) ← instantiate_const st h
      let (st2, hs1) ← instList st1 hs
      some (st2, h1 :: hs1)

/-- The primitive catalog, an external collaborator: per primitive code, a
concrete implementation and the declared abstract-evaluation rule (spec §6,
"Consumed - Primitive Catalog"). -/
structure PrimCatalog : Type where
  impl          : Nat → Nat → List Val → Option Val
  abstract_eval : Nat → Nat → List AbstractVal → Option AbstractVal

/-- The registry `custom_partial_eval_rules` of the source (line 689), which
is empty: no primitive carries a custom partial-evaluation rule in src. -/
def custom_peval_rules : List Prim := []

/-- The catalog dispatch of `primitive.abstract_eval`: only catalog
primitives carry a declared abstract-evaluation rule in the modelled
fragment. -/
def primAbstractEval (cat : PrimCatalog) : Prim → Nat → List AbstractVal → Option AbstractVal
  | Prim.op c, params, avals => cat.abstract_eval c params avals
  | _, _, _ => none

mutual
/-- `partial_val_aval` (source lines 361-369): the abstract value of a
`PartialVal`. -/
def pval_aval : PV → Val → Option AbstractVal
  | PV.unknown a, _ => some a
  | PV.ttuple l, c => do
      let cs ← valComponents c
      let as_ ← pval_aval_list l cs
      some (AbstractVal.atuple as_)
  | PV.known, c => some (concrete_aval c)

/-- Componentwise `pval_aval` (ragged lists are a failed `safe_map`). -/
def pval_aval_list : List PV → List Val → Option (List AbstractVal)
  | [], [] => some []
  | p :: ps, c :: cs => do
      let a ← pval_aval p c
      let as_ ← pval_aval_list ps cs
      some (a :: as_)
  | _, _ => none
end

/-- `JaxprTracer.aval` (source lines 252-255). -/
def tracerAval (store : Store) (h : Nat) : Option AbstractVal := do
  let nd ← store[h]?
  pval_aval nd.pval.1 nd.pval.2

/-- `JaxprTrace.process_primitive` (source lines 68-78).  The custom-rule
registry is empty in src, so the default path always applies: instantiate
every input tracer, predict the output abstract value with the primitive's
abstract-evaluation rule, and store a new output tracer whose `PartialVal` is
`(out_aval, unit)` (unknown at the predicted abstract value, with no concrete
value) and whose recipe is the equation of the instantiated inputs, the
primitive and its parameters. -/
def process_primitive (cat : PrimCatalog) (store : Store) (primitive : Prim)
    (tracers : List Nat) (params : Nat) : Option (Store × Nat) :=
  if primitive ∈ custom_peval_rules then
    none
  else do
    let (st1, hs) ← instList store tracers
    let avals ← hs.mapM (tracerAval st1)
    let out_aval ← primAbstractEval cat primitive params avals
    let eqn : EqnRecipe := ⟨hs, primitive, false, 0, params⟩
    some (st1 ++ [⟨(PV.unknown out_aval, unitVal), Recipe.eqnR eqn⟩], st1.length)

theorem getElem?_append_left_tn {l t : List TNode} {i : Nat} {x : TNode}
    (h : l[i]? = some x) : (l ++ t)[i]? = some x := by
  have hi : i < l.length := by
    by_contra hge
    rw [List.getElem?_eq_none (Nat.le_of_not_lt hge)] at h
    cases h
  rw [List.getElem?_append_left hi]; exact h

theorem instantiate_const_unknown (store : Store) (h : Nat) (nd : TNode)
    (a : AbstractVal) (hget : store[h]? = some nd) (hpv : nd.pval.1 = PV.unknown a) :
    instantiate_const store h = some (store, h) := by
  unfold instantiate_const instFuel
  rw [hget]
  simp [instantiate_const_fuel, hget, hpv]

theorem instantiate_const_known (store : Store) (h : Nat) (nd : TNode)
    (hget : store[h]? = some nd) (hpv : nd.pval.1 = PV.known) :
    instantiate_const store h = some (new_instantiated_const store nd.pval.2) := by
  unfold instantiate_const instFuel
  rw [hget]
  simp [instantiate_const_fuel, hget, hpv]

/-- Observable specification of "instantiate the input tracer as a constant"
for non-tuple descriptors: an abstract input is returned unchanged, a
fully-known input becomes a fresh `ConstVar` tracer whose `PartialVal` is the
input's abstract value with the unit payload. -/
def InstSpec (store st1 : Store) (h h' : Nat) : Prop :=
  (∃ nd, store[h]? = some nd ∧ isAbstractPV nd.pval.1 = true ∧ h' = h) ∨
  (∃ nd, store[h]? = some nd ∧ nd.pval.1 = PV.known ∧
    st1[h']? = some ⟨(PV.unknown (concrete_aval nd.pval.2), unitVal),
      Recipe.constV nd.pval.2⟩)

theorem instList_nontuple (store : Store) : ∀ (tracers : List Nat) (st : Store),
    (∃ t0, st = store ++ t0) →
    (∀ h ∈ tracers, ∃ nd, store[h]? = some nd ∧
        (isAbstractPV nd.pval.1 = true ∨ nd.pval.1 = PV.known)) →
    ∃ st1 hs, instList st tracers = some (st1, hs) ∧ (∃ t1, st1 = st ++ t1) ∧
      ∀ (i h : Nat), tracers[i]? = some h →
        ∃ h', hs[i]? = some h' ∧ InstSpec store st1 h h'
  | [], st, _, _ => ⟨st, [], rfl, ⟨[], by simp⟩, by intro i h hi; cases i <;> cases hi⟩
  | h :: rest, st, ⟨t0, hst⟩, hin => by
      obtain ⟨nd, hget, hcase⟩ := hin h (List.mem_cons_self h rest)
      have hgetst : st[h]? = some nd := by
        subst hst; exact getElem?_append_left_tn hget
      cases hcase with
      | inl habs =>
          obtain ⟨a, ha⟩ : ∃ a, nd.pval.1 = PV.unknown a := by
            cases hp : nd.pval.1 <;> simp [isAbstractPV, hp] at habs ⊢
          have hic := instantiate_const_unknown st h nd a hgetst ha
          obtain ⟨st1, hs, hrest, ⟨t1, ht1⟩, hspec⟩ :=
            instList_nontuple store rest st ⟨t0, hst⟩
              (fun x hx => hin x (List.mem_cons_of_mem h hx))
          refine ⟨st1, h :: hs, ?_, ⟨t1, by rw [ht1, hst]⟩, ?_⟩
          · simp [instList, hic, hrest]
          · intro i x hi
            cases i with
            | zero =>
                obtain rfl : h = x := by simpa using hi
                exact ⟨h, by simp, Or.inl ⟨nd, hget, habs, rfl⟩⟩
            | succ i =>
                obtain ⟨h', hh', hsp⟩ := hspec i x (by simpa using hi)
                exact ⟨h', by simpa using hh', hsp⟩
      | inr hk =>
          have hic := instantiate_const_known st h nd hgetst hk
          have hmid : (∃ t0', st ++ [⟨(PV.unknown (concrete_aval nd.pval.2), unitVal),
              Recipe.constV nd.pval.2⟩] = store ++ t0') :=
            ⟨t0 ++ [⟨(PV.unknown (concrete_aval nd.pval.2), unitVal),
              Recipe.constV nd.pval.2⟩], by rw [hst, List.append_assoc]⟩
          obtain ⟨st1, hs, hrest, ⟨t1, ht1⟩, hspec⟩ :=
            instList_nontuple store rest
              (st ++ [⟨(PV.unknown (concrete_aval nd.pval.2), unitVal),
                Recipe.constV nd.pval.2⟩]) hmid
              (fun x hx => hin x (List.mem_cons_of_mem h hx))
          refine ⟨st1, st.length :: hs, ?_, ?_, ?_⟩
          · simp [instList, hic, new_instantiated_const, hrest]
          · exact ⟨[⟨(PV.unknown (concrete_aval nd.pval.2), unitVal),
              Recipe.constV nd.pval.2⟩] ++ t1, by rw [ht1, List.append_assoc]⟩
          · intro i x hi
            cases i with
            | zero =>
                obtain rfl : h = x := by simpa using hi
                refine ⟨st.length, by simp, Or.inr ⟨nd, hget, hk, ?_⟩⟩
                rw [ht1]
                exact getElem?_append_left_tn (by simp)
            | succ i =>
                obtain ⟨h', hh', hsp⟩ := hspec i x (by simpa using hi)
                exact ⟨h', by simpa using hh', hsp⟩

/-- **C4.**  With the (empty) custom-rule registry not containing the
primitive, `process_primitive` instantiates every input tracer, calls the
primitive's abstract-evaluation rule on the instantiated tracers' abstract
values, and stores a new output tracer whose `PartialVal` is exactly
`(out_aval, unit)` — unknown at the predicted abstract value, with no
concrete value — and whose recipe is the equation of the instantiated input
handles, the primitive, and its parameters. -/
theorem C4_process_primitive_default (cat : PrimCatalog) (store : Store)
    (tracers : List Nat) (c params : Nat) (st1 : Store) (hs : List Nat)
    (avals : List AbstractVal) (out_aval : AbstractVal)
    (hinst : instList store tracers = some (st1, hs))
    (havals : hs.mapM (tracerAval st1) = some avals)
    (heval : cat.abstract_eval c params avals = some out_aval)
    (hnt : ∀ h ∈ tracers, ∃ nd, store[h]? = some nd ∧
        (isAbstractPV nd.pval.1 = true ∨ nd.pval.1 = PV.known)) :
    process_primitive cat store (Prim.op c) tracers params =
      some (st1 ++ [⟨(PV.unknown out_aval, unitVal),
        Recipe.eqnR ⟨hs, Prim.op c, false, 0, params⟩⟩], st1.length) ∧
    (st1 ++ [⟨(PV.unknown out_aval, unitVal),
        Recipe.eqnR ⟨hs, Prim.op c, false, 0, params⟩⟩])[st1.length]? =
      some ⟨(PV.unknown out_aval, unitVal),
        Recipe.eqnR ⟨hs, Prim.op c, false, 0, params⟩⟩ ∧
    ∀ (i h : Nat), tracers[i]? = some h →
      ∃ h', hs[i]? = some h' ∧ InstSpec store st1 h h' := by
  refine ⟨?_, ?_, ?_⟩
  · unfold process_primitive
    rw [if_neg (by simp [custom_peval_rules])]
    rw [hinst]
    simp only [Option.bind_eq_bind, Option.some_bind]
    rw [havals]
    simp only [Option.some_bind, primAbstractEval, heval]
  · simp
  · obtain ⟨st1', hs', hrest, _, hspec⟩ :=
      instList_nontuple store tracers store ⟨[], by simp⟩ hnt
    rw [hinst] at hrest
    obtain ⟨rfl, rfl⟩ : st1 = st1' ∧ hs = hs' := by
      simpa using Option.some.inj hrest
    exact hspec

/-- Witness data for C4: an abstract lambda-bound tracer and a fully-known
constant tracer. -/
def c4n0 : TNode := ⟨(PV.unknown AbstractVal.shaped, unitVal), Recipe.lamB⟩

def c4n1 : TNode := ⟨(PV.known, Val.base 5 0), Recipe.unitR⟩

def c4Store : Store := [c4n0, c4n1]

def c4Cat : PrimCatalog := ⟨fun _ _ _ => none, fun _ _ _ => some AbstractVal.shaped⟩

def c4NewNode : TNode :=
  ⟨(PV.unknown (AbstractVal.concrete 5), unitVal), Recipe.constV (Val.base 5 0)⟩

/-- Witness for C4 at a two-input primitive call with one abstract and one
fully-known input. -/
theorem C4_witness :
    process_primitive c4Cat c4Store (Prim.op 0) [0, 1] 0 =
      some ((c4Store ++ [c4NewNode]) ++ [⟨(PV.unknown AbstractVal.shaped, unitVal),
        Recipe.eqnR ⟨[0, 2], Prim.op 0, false, 0, 0⟩⟩], (c4Store ++ [c4NewNode]).length) ∧
    ((c4Store ++ [c4NewNode]) ++ [⟨(PV.unknown AbstractVal.shaped, unitVal),
        Recipe.eqnR ⟨[0, 2], Prim.op 0, false, 0, 0⟩⟩])[(c4Store ++ [c4NewNode]).length]? =
      some ⟨(PV.unknown AbstractVal.shaped, unitVal),
        Recipe.eqnR ⟨[0, 2], Prim.op 0, false, 0, 0⟩⟩ ∧
    ∀ (i h : Nat), [0, 1][i]? = some h →
      ∃ h', [0, 2][i]? = some h' ∧ InstSpec c4Store (c4Store ++ [c4NewNode]) h h' := by
  have h0 : instantiate_const c4Store 0 = some (c4Store, 0) :=
    instantiate_const_unknown c4Store 0 c4n0 AbstractVal.shaped rfl rfl
  have h1 : instantiate_const c4Store 1 = some (c4Store ++ [c4NewNode], 2) :=
    instantiate_const_known c4Store 1 c4n1 rfl rfl
  have hinst : instList c4Store [0, 1] = some (c4Store ++ [c4NewNode], [0, 2]) := by
    simp [instList, h0, h1]
  exact C4_process_primitive_default c4Cat c4Store [0, 1] 0 0
    (c4Store ++ [c4NewNode]) [0, 2] [AbstractVal.shaped, AbstractVal.concrete 5]
    AbstractVal.shaped hinst rfl rfl
    (by
      intro h hm
      rcases hm with _ | ⟨_, hm⟩
      · exact ⟨c4n0, rfl, Or.inl rfl⟩
      · rcases hm with _ | ⟨_, hm⟩
        · exact ⟨c4n1, rfl, Or.inr rfl⟩
        · cases hm)

/-! ## Graph extraction: `tracers_to_jaxpr` (source lines 434-472)

The source threads mutable state (the `t_to_var` defaultdict backed by a
`gensym`, the equation list, the `env`, `consts` and `destructuring_vars`
dictionaries); the model threads it explicitly.  `util.toposort` is not under
src; it is modelled from the spec by quantifying over any list of handles
satisfying the topological-order contract (`validTopo`): every handle is a
valid store index and all its recipe parents occur earlier. -/

/-- The mutable state of one `tracers_to_jaxpr` pass. -/
structure SinkSt : Type where
  t2v    : List (Nat × VarId)
  next   : VarId
  eqns   : List JaxprEqn
  env    : List (VarId × Val)
  consts : List (VarId × Val)
  dvars  : List (Nat × List VarId)

/-- `var = lambda t: t_to_var[id(t)]`: the memoized variable of a tracer,
freshly allocated by the `gensym` on first use (the defaultdict). -/
def sinkVar (st : SinkSt) (h : Nat) : SinkSt × VarId :=
  match st.t2v.lookup h with
  | some v => (st, v)
  | none => ({ st with t2v := (h, st.next) :: st.t2v, next := st.next + 1 }, st.next)

/-- `map(var, hs)` threading the state. -/
def sinkVars : SinkSt → List Nat → SinkSt × List VarId
  | st, [] => (st, [])
  | st, h :: hs =>
      let p := sinkVar st h
      let q := sinkVars p.1 hs
      (q.1, p.2 :: q.2)

/-- `[newvar() for _ in eqn.outvars]`. -/
def freshVars : SinkSt → Nat → SinkSt × List VarId
  | st, 0 => (st, [])
  | st, n + 1 =>
      let q := freshVars { st with next := st.next + 1 } n
      (q.1, st.next :: q.2)

/-- `eqn_tracer_to_var` (source lines 421-431) in the first-order fragment
(no `restructure`, no bound subjaxprs): translate the recipe's tracer inputs
to their variables and attach the given output variables. -/
def eqn_tracer_to_var (st : SinkSt) (outvars : List VarId) (e : EqnRecipe) :
    SinkSt × JaxprEqn :=
  let p := sinkVars st e.invars
  (p.1, ⟨p.2, outvars, e.primitive, false, e.destructure, e.params⟩)

/-- One iteration of the `for t in sorted_tracers` loop of
`tracers_to_jaxpr`, by recipe kind. -/
def sinkStep (store : Store) (st : SinkSt) (h : Nat) : Option SinkSt := do
  let nd ← store[h]?
  match nd.recipe with
  | Recipe.eqnR e =>
      let p := sinkVar st h
      let q := eqn_tracer_to_var p.1 [p.2] e
      some { q.1 with eqns := q.1.eqns ++ [q.2] }
  | Recipe.lamB => some st
  | Recipe.freeV v =>
      let p := sinkVar st h
      some { p.1 with env := p.1.env ++ [(p.2, v)] }
  | Recipe.constV v =>
      let p := sinkVar st h
      some { p.1 with consts := p.1.consts ++ [(p.2, v)] }
  | Recipe.destr i e key =>
      match st.dvars.lookup key with
      | none =>
          let p := freshVars st e.noutvars
          let q := eqn_tracer_to_var p.1 p.2 e
          let st3 := { q.1 with eqns := q.1.eqns ++ [q.2], dvars := q.1.dvars ++ [(key, p.2)] }
          (p.2[i]?).map (fun v => { st3 with t2v := (h, v) :: st3.t2v })
      | some outs =>
          (outs[i]?).map (fun v => { st with t2v := (h, v) :: st.t2v })
  | Recipe.unitR => some { st with t2v := (h, unitvar) :: st.t2v }

/-- The full loop over the sorted tracers. -/
def sinkAll (store : Store) : SinkSt → List Nat → Option SinkSt
  | st, [] => some st
  | st, h :: rest => do
      let st1 ← sinkStep store st h
      sinkAll store st1 rest

/-- The initial state: empty memo table, `gensym` counter starting above the
distinguished `unitvar`. -/
def sinkInit : SinkSt := ⟨[], 1, [], [], [], []⟩

/-- `tracers_to_jaxpr` (source lines 434-472): allocate variables for the
input tracers, process every tracer in topological order, read off the output
variable, and assemble the `Jaxpr` together with the constant and
environment values. -/
def tracers_to_jaxpr (store : Store) (in_tracers : List Nat) (sorted : List Nat)
    (out_tracer : Nat) : Option (Jaxpr × List Val × List Val) := do
  let p := sinkVars sinkInit in_tracers
  let st1 ← sinkAll store p.1 sorted
  let q := sinkVar st1 out_tracer
  some (⟨q.1.consts.map Prod.fst, q.1.env.map Prod.fst, p.2, q.2, q.1.eqns⟩,
        q.1.consts.map Prod.snd, q.1.env.map Prod.snd)

/-- The recipe parents of a tracer (`JaxprTracer.parents`, source lines
257-264, with `eqn_parents` restricted to the first-order fragment). -/
def recipeParents : Recipe → List Nat
  | Recipe.eqnR e => e.invars
  | Recipe.destr _ e _ => e.invars
  | _ => []

/-- Modelled from the spec: the contract of `util.toposort` (spec §4.4 step
1) — every listed handle denotes a stored tracer and all its recipe parents
appear earlier in the list. -/
def validTopoAux (store : Store) : List Nat → List Nat → Bool
  | _, [] => true
  | seen, h :: rest =>
      match store[h]? with
      | none => false
      | some nd =>
          (recipeParents nd.recipe).all (fun p => seen.contains p) &&
          validTopoAux store (h :: seen) rest

/-- A valid topological order of reachable tracers. -/
def validTopo (store : Store) (sorted : List Nat) : Bool :=
  validTopoAux store [] sorted

/-- Scoping check for an equation list: every input variable of every
equation is bound earlier — in the initial binder list or as an output of an
earlier equation. -/
def scopedEqns (bound : List VarId) : List JaxprEqn → Bool
  | [] => true
  | e :: rest =>
      e.invars.all (fun v => bound.contains v) && scopedEqns (bound ++ e.outvars) rest

/-- The Graph well-formedness invariant of the spec (§3): every variable an
equation references as input is bound earlier, as a constant variable, a
free/environment variable, an explicit input, or an output of an earlier
equation. -/
def wellScoped (j : Jaxpr) : Bool :=
  scopedEqns (j.constvars ++ j.freevars ++ j.invars) j.eqns

/-- Every lambda-bound tracer of the sorted list is an input tracer (trace
entry provides all lambda bindings as `in_tracers`). -/
def lamCovered (store : Store) (in_tracers sorted : List Nat) : Bool :=
  sorted.all (fun h =>
    match store[h]? with
    | some nd => match nd.recipe with
        | Recipe.lamB => in_tracers.contains h
        | _ => true
    | none => false)

/-- No equation input is a `unit`-recipe tracer: the trace discipline
guarantees this because `process_primitive` instantiates every input
(`instantiate_const` turns fully-known tracers into `ConstVar` tracers). -/
def noUnitParents (store : Store) (sorted : List Nat) : Bool :=
  sorted.all (fun h =>
    match store[h]? with
    | some nd =>
        (recipeParents nd.recipe).all (fun p =>
          match store[p]? with
          | some ndp => match ndp.recipe with
              | Recipe.unitR => false
              | _ => true
          | none => false)
    | none => false)

/-- All output variables declared by an equation list. -/
def outsOf (eqns : List JaxprEqn) : List VarId :=
  eqns.foldr (fun e acc => e.outvars ++ acc) []

/-- The variables bound anywhere in a sink state, relative to the input
variables `invs`: constant variables, environment variables, inputs, and
every equation output. -/
def boundList (invs : List VarId) (st : SinkSt) : List VarId :=
  st.consts.map Prod.fst ++ st.env.map Prod.fst ++ invs ++ outsOf st.eqns

theorem outsOf_append (a b : List JaxprEqn) :
    outsOf (a ++ b) = outsOf a ++ outsOf b := by
  induction a with
  | nil => rfl
  | cons e rest ih => simp [outsOf, List.foldr_append] at ih ⊢; simp [ih, List.append_assoc]

theorem scopedEqns_mono {bound bound' : List VarId} (hsub : ∀ v ∈ bound, v ∈ bound') :
    ∀ eqns : List JaxprEqn, scopedEqns bound eqns = true → scopedEqns bound' eqns = true := by
  intro eqns
  induction eqns generalizing bound bound' with
  | nil => intro; rfl
  | cons e rest ih =>
      intro hsc
      simp only [scopedEqns, Bool.and_eq_true, List.all_eq_true] at hsc ⊢
      refine ⟨fun v hv => ?_, ?_⟩
      · have := hsc.1 v hv
        simp only [List.elem_iff] at this ⊢
        exact hsub v this
      · refine ih ?_ hsc.2
        intro v hv
        rcases List.mem_append.1 hv with hv | hv
        · exact List.mem_append.2 (Or.inl (hsub v hv))
        · exact List.mem_append.2 (Or.inr hv)

theorem scopedEqns_append_one {bound : List VarId} {eqns : List JaxprEqn}
    {e : JaxprEqn} (hsc : scopedEqns bound eqns = true)
    (hin : ∀ v ∈ e.invars, v ∈ bound ++ outsOf eqns) :
    scopedEqns bound (eqns ++ [e]) = true := by
  induction eqns generalizing bound with
  | nil =>
      simp only [List.nil_append, scopedEqns, Bool.and_eq_true, List.all_eq_true]
      refine ⟨fun v hv => ?_, by trivial⟩
      have := hin v hv
      simp only [outsOf, List.foldr, List.append_nil] at this
      simpa [List.elem_iff] using this
  | cons e0 rest ih =>
      simp only [scopedEqns, Bool.and_eq_true, List.all_eq_true] at hsc
      simp only [List.cons_append, scopedEqns, Bool.and_eq_true, List.all_eq_true]
      refine ⟨hsc.1, ?_⟩
      refine ih hsc.2 ?_
      intro v hv
      have := hin v hv
      simp only [outsOf, List.foldr] at this ⊢
      rcases List.mem_append.1 this with hb | hb
      · exact List.mem_append.2 (Or.inl (List.mem_append.2 (Or.inl hb)))
      · rcases List.mem_append.1 hb with hb | hb
        · exact List.mem_append.2 (Or.inl (List.mem_append.2 (Or.inr hb)))
        · exact List.mem_append.2 (Or.inr hb)

theorem lookup_isSome_mono {st : SinkSt} {h : Nat} {e : Nat × VarId} :
    (List.lookup h st.t2v).isSome = true →
    (List.lookup h (e :: st.t2v)).isSome = true := by
  intro hs
  simp only [List.lookup]
  cases hbe : h == e.1
  · simp only [hbe]; exact hs
  · simp [hbe]

theorem sinkVar_lookup_some {st : SinkSt} {h : Nat} {v : VarId}
    (hl : st.t2v.lookup h = some v) : sinkVar st h = (st, v) := by
  simp [sinkVar, hl]

/-- `sinkVar` never changes the equations, environment, constants or
destructuring map, and it assigns the handle it was called on. -/
theorem sinkVar_fields (st : SinkSt) (h : Nat) :
    (sinkVar st h).1.eqns = st.eqns ∧ (sinkVar st h).1.env = st.env ∧
    (sinkVar st h).1.consts = st.consts ∧ (sinkVar st h).1.dvars = st.dvars ∧
    ((sinkVar st h).1.t2v.lookup h) = some (sinkVar st h).2 ∧
    (∀ x w, st.t2v.lookup x = some w → (sinkVar st h).1.t2v.lookup x = some w) := by
  unfold sinkVar
  cases hl : st.t2v.lookup h with
  | some v => exact ⟨rfl, rfl, rfl, rfl, hl, fun x w hw => hw⟩
  | none =>
      refine ⟨rfl, rfl, rfl, rfl, by simp [List.lookup], fun x w hw => ?_⟩
      by_cases hx : x = h
      · rw [hx] at hw; rw [hw] at hl; cases hl
      · have hbe : (x == h) = false := by simp [hx]
        simpa [List.lookup, hbe] using hw

/-- `sinkVars` never changes the equations, environment, constants or
destructuring map; it preserves existing assignments and returns only
variables that are assigned in the final map. -/
theorem sinkVars_fields : ∀ (hs : List Nat) (st : SinkSt),
    (sinkVars st hs).1.eqns = st.eqns ∧ (sinkVars st hs).1.env = st.env ∧
    (sinkVars st hs).1.consts = st.consts ∧ (sinkVars st hs).1.dvars = st.dvars ∧
    (∀ x w, st.t2v.lookup x = some w → (sinkVars st hs).1.t2v.lookup x = some w) ∧
    (∀ v ∈ (sinkVars st hs).2, ∃ x ∈ hs, (sinkVars st hs).1.t2v.lookup x = some v)
  | [], st => ⟨rfl, rfl, rfl, rfl, fun _ _ hw => hw, by intro v hv; cases hv⟩
  | h :: hs, st => by
      obtain ⟨e1, e2, e3, e4, hself, hpres1⟩ := sinkVar_fields st h
      obtain ⟨f1, f2, f3, f4, hpres2, hmem⟩ := sinkVars_fields hs (sinkVar st h).1
      refine ⟨?_, ?_, ?_, ?_, ?_, ?_⟩
      · simp only [sinkVars]; rw [f1, e1]
      · simp only [sinkVars]; rw [f2, e2]
      · simp only [sinkVars]; rw [f3, e3]
      · simp only [sinkVars]; rw [f4, e4]
      · intro x w hw
        simp only [sinkVars]
        exact hpres2 x w (hpres1 x w hw)
      · intro v hv
        simp only [sinkVars] at hv
        rcases List.mem_cons.1 hv with hv | hv
        · refine ⟨h, List.mem_cons_self h hs, ?_⟩
          simp only [sinkVars]
          subst hv
          exact hpres2 h _ hself
        · obtain ⟨x, hx, hlx⟩ := hmem v hv
          refine ⟨x, List.mem_cons_of_mem h hx, ?_⟩
          simp only [sinkVars]
          exact hlx

theorem getElem?_mem_list {α : Type _} : ∀ {l : List α} {i : Nat} {x : α},
    l[i]? = some x → x ∈ l
  | [], i, x, h => by cases i <;> cases h
  | a :: l, 0, x, h => by
      obtain rfl : a = x := by simpa using h
      exact List.mem_cons_self a l
  | a :: l, i + 1, x, h =>
      List.mem_cons_of_mem a (getElem?_mem_list (by simpa using h))

theorem lookup_append_some {β : Type _} : ∀ {l1 l2 : List (Nat × β)} {k : Nat} {v : β},
    (l1 ++ l2).lookup k = some v → l1.lookup k = some v ∨ l2.lookup k = some v
  | [], l2, k, v, h => Or.inr h
  | e :: l1, l2, k, v, h => by
      simp only [List.cons_append, List.lookup] at h ⊢
      cases hbe : k == e.1
      · simp only [hbe] at h ⊢
        exact lookup_append_some h
      · simp only [hbe] at h ⊢
        exact Or.inl h

/-- When every handle in the list already has an assigned variable,
`sinkVars` changes nothing and returns only assigned variables. -/
theorem sinkVars_assigned : ∀ (hs : List Nat) (st : SinkSt),
    (∀ x ∈ hs, (st.t2v.lookup x).isSome = true) →
    (sinkVars st hs).1 = st ∧
      ∀ v ∈ (sinkVars st hs).2, ∃ x ∈ hs, st.t2v.lookup x = some v
  | [], st, _ => ⟨rfl, by intro v hv; cases hv⟩
  | h :: hs, st, hass => by
      obtain ⟨v0, hv0⟩ := Option.isSome_iff_exists.1 (hass h (List.mem_cons_self h hs))
      have hsv : sinkVar st h = (st, v0) := sinkVar_lookup_some hv0
      obtain ⟨ih1, ih2⟩ :=
        sinkVars_assigned hs st (fun x hx => hass x (List.mem_cons_of_mem h hx))
      constructor
      · simp only [sinkVars, hsv]
        exact ih1
      · intro v hv
        simp only [sinkVars, hsv] at hv
        rcases List.mem_cons.1 hv with hv | hv
        · exact ⟨h, List.mem_cons_self h hs, hv ▸ hv0⟩
        · obtain ⟨x, hx, hlx⟩ := ih2 v hv
          exact ⟨x, List.mem_cons_of_mem h hx, hlx⟩

theorem freshVars_fields : ∀ (n : Nat) (st : SinkSt),
    (freshVars st n).1.t2v = st.t2v ∧ (freshVars st n).1.eqns = st.eqns ∧
    (freshVars st n).1.env = st.env ∧ (freshVars st n).1.consts = st.consts ∧
    (freshVars st n).1.dvars = st.dvars
  | 0, st => ⟨rfl, rfl, rfl, rfl, rfl⟩
  | n + 1, st => by
      obtain ⟨a, b, c, d, e⟩ := freshVars_fields n { st with next := st.next + 1 }
      exact ⟨by simpa [freshVars] using a, by simpa [freshVars] using b,
        by simpa [freshVars] using c, by simpa [freshVars] using d,
        by simpa [freshVars] using e⟩

/-- The invariant of the `tracers_to_jaxpr` loop: every assigned variable is
bound (or belongs to a `unit`-recipe tracer), the accumulated equations are
well scoped over the accumulated binders, and every memoized destructuring
output variable is bound. -/
structure SinkInv (store : Store) (invs : List VarId) (st : SinkSt) : Prop where
  goodMap : ∀ h v, st.t2v.lookup h = some v →
      (∃ nd, store[h]? = some nd ∧ nd.recipe = Recipe.unitR) ∨ v ∈ boundList invs st
  scopedE : scopedEqns (st.consts.map Prod.fst ++ st.env.map Prod.fst ++ invs)
      st.eqns = true
  dvarsB : ∀ k outs, st.dvars.lookup k = some outs → ∀ v ∈ outs, v ∈ boundList invs st

theorem boundList_mono {invs : List VarId} {st st' : SinkSt}
    (hc : ∀ v, v ∈ st.consts.map Prod.fst → v ∈ st'.consts.map Prod.fst)
    (he : ∀ v, v ∈ st.env.map Prod.fst → v ∈ st'.env.map Prod.fst)
    (ho : ∀ v, v ∈ outsOf st.eqns → v ∈ outsOf st'.eqns) :
    ∀ v ∈ boundList invs st, v ∈ boundList invs st' := by
  intro v hv
  simp only [boundList, List.mem_append] at hv ⊢
  tauto

theorem lookup_cons_cases {β : Type _} {t : List (Nat × β)} {k h : Nat} {v0 v : β} :
    List.lookup k ((h, v0) :: t) = some v → (k = h ∧ v = v0) ∨ List.lookup k t = some v := by
  intro hl
  simp only [List.lookup] at hl
  cases hbe : k == h
  · simp only [hbe] at hl; exact Or.inr hl
  · simp only [hbe] at hl
    exact Or.inl ⟨by simpa using hbe, (Option.some.inj hl).symm⟩

/-- The translated input variables of a recipe equation whose parent tracers
are all assigned and none of which has a `unit` recipe are bound; the
variable allocation for them is a no-op. -/
theorem parents_after_sinkVar {store : Store} {invs : List VarId} {st : SinkSt}
    (h : Nat) (hinv : SinkInv store invs st) {ps : List Nat}
    (hA : ∀ p ∈ ps, (st.t2v.lookup p).isSome = true)
    (hU : ∀ p ∈ ps, ∃ ndp, store[p]? = some ndp ∧ ndp.recipe ≠ Recipe.unitR) :
    (sinkVars (sinkVar st h).1 ps).1 = (sinkVar st h).1 ∧
    ∀ v ∈ (sinkVars (sinkVar st h).1 ps).2, v ∈ boundList invs st := by
  have hpres := (sinkVar_fields st h).2.2.2.2.2
  have hA1 : ∀ p ∈ ps, (((sinkVar st h).1.t2v.lookup p)).isSome = true := by
    intro p hp
    obtain ⟨w, hw⟩ := Option.isSome_iff_exists.1 (hA p hp)
    rw [hpres p w hw]; rfl
  obtain ⟨heq, hv⟩ := sinkVars_assigned ps (sinkVar st h).1 hA1
  refine ⟨heq, fun v hv' => ?_⟩
  obtain ⟨x, hx, hlx⟩ := hv v hv'
  obtain ⟨w, hw⟩ := Option.isSome_iff_exists.1 (hA x hx)
  have hw1 := hpres x w hw
  obtain rfl : v = w := by rw [hlx] at hw1; exact Option.some.inj hw1
  rcases hinv.goodMap x v hw with hunit | hb
  · obtain ⟨ndp, hndp, hrecp⟩ := hunit
    obtain ⟨ndp', hndp', hne⟩ := hU x hx
    rw [hndp] at hndp'
    exact absurd ((Option.some.inj hndp') ▸ hrecp) hne
  · exact hb

/-- The same for a state whose variable map coincides with `st`'s (used for
the fresh-variable allocation of the destructuring case). -/
theorem parents_no_sinkVar {store : Store} {invs : List VarId} {st st0 : SinkSt}
    (hinv : SinkInv store invs st) (ht : st0.t2v = st.t2v) {ps : List Nat}
    (hA : ∀ p ∈ ps, (st.t2v.lookup p).isSome = true)
    (hU : ∀ p ∈ ps, ∃ ndp, store[p]? = some ndp ∧ ndp.recipe ≠ Recipe.unitR) :
    (sinkVars st0 ps).1 = st0 ∧
    ∀ v ∈ (sinkVars st0 ps).2, v ∈ boundList invs st := by
  have hA1 : ∀ p ∈ ps, ((st0.t2v.lookup p)).isSome = true := by
    intro p hp; rw [ht]; exact hA p hp
  obtain ⟨heq, hv⟩ := sinkVars_assigned ps st0 hA1
  refine ⟨heq, fun v hv' => ?_⟩
  obtain ⟨x, hx, hlx⟩ := hv v hv'
  rw [ht] at hlx
  rcases hinv.goodMap x v hlx with hunit | hb
  · obtain ⟨ndp, hndp, hrecp⟩ := hunit
    obtain ⟨ndp', hndp', hne⟩ := hU x hx
    rw [hndp] at hndp'
    exact absurd ((Option.some.inj hndp') ▸ hrecp) hne
  · exact hb

theorem outsOf_append_one (eqns : List JaxprEqn) (e : JaxprEqn) :
    outsOf (eqns ++ [e]) = outsOf eqns ++ e.outvars := by
  rw [outsOf_append]; simp [outsOf]

/-- One loop iteration preserves the sink invariant, assigns the processed
handle a variable, and preserves all existing assignments. -/
theorem sinkStep_inv {store : Store} {invs : List VarId} {st st' : SinkSt} {h : Nat}
    {nd : TNode} (hnd : store[h]? = some nd)
    (hstep : sinkStep store st h = some st')
    (hpar : ∀ p ∈ recipeParents nd.recipe, (st.t2v.lookup p).isSome = true)
    (hparU : ∀ p ∈ recipeParents nd.recipe,
        ∃ ndp, store[p]? = some ndp ∧ ndp.recipe ≠ Recipe.unitR)
    (hlamA : nd.recipe = Recipe.lamB → (st.t2v.lookup h).isSome = true)
    (hinv : SinkInv store invs st) :
    SinkInv store invs st' ∧ (st'.t2v.lookup h).isSome = true ∧
      (∀ x, (st.t2v.lookup x).isSome = true → (st'.t2v.lookup x).isSome = true) := by
  simp only [sinkStep, hnd, Option.bind_eq_bind, Option.some_bind] at hstep
  cases hrec : nd.recipe with
  | eqnR e =>
      simp only [hrec, recipeParents] at hstep hpar hparU
      obtain ⟨heq, hbnd⟩ := parents_after_sinkVar h hinv hpar hparU
      simp only [eqn_tracer_to_var] at hstep
      rw [heq] at hstep
      obtain rfl := Option.some.inj hstep
      have hfields := sinkVar_fields st h
      refine ⟨⟨?_, ?_, ?_⟩, ?_, ?_⟩
      · -- goodMap
        intro x v hl
        simp only at hl
        have hmono : v ∈ boundList invs st →
            (∃ nd, store[x]? = some nd ∧ nd.recipe = Recipe.unitR) ∨ v ∈ boundList invs
              { t2v := (sinkVar st h).1.t2v, next := (sinkVar st h).1.next,
                eqns := (sinkVar st h).1.eqns ++
                  [⟨(sinkVars (sinkVar st h).1 e.invars).2, [(sinkVar st h).2],
                    e.primitive, false, e.destructure, e.params⟩],
                env := (sinkVar st h).1.env, consts := (sinkVar st h).1.consts,
                dvars := (sinkVar st h).1.dvars } := by
          intro hb
          refine Or.inr ?_
          simp only [boundList, outsOf_append_one, hfields.1, hfields.2.1,
            hfields.2.2.1] at hb ⊢
          simp only [List.mem_append] at hb ⊢
          tauto
        cases hl0 : st.t2v.lookup h with
        | some v0 =>
            have hp1 : sinkVar st h = (st, v0) := sinkVar_lookup_some hl0
            rw [hp1] at hl
            rcases hinv.goodMap x v hl with hu | hb
            · exact Or.inl hu
            · exact hmono hb
        | none =>
            have hp1 : (sinkVar st h).1.t2v = (h, st.next) :: st.t2v ∧
                (sinkVar st h).2 = st.next := by
              simp [sinkVar, hl0]
            rw [hp1.1] at hl
            rcases lookup_cons_cases hl with ⟨rfl, rfl⟩ | hold
            · refine Or.inr ?_
              simp only [boundList, outsOf_append_one, hfields.1,
                hfields.2.1, hfields.2.2.1]
              simp only [List.mem_append, hp1.2]
              simp
            · rcases hinv.goodMap x v hold with hu | hb
              · exact Or.inl hu
              · exact hmono hb
      · -- scoped
        simp only [heq, hfields.1, hfields.2.1, hfields.2.2.1]
        refine scopedEqns_append_one hinv.scopedE ?_
        intro v hv
        simp only at hv
        have := hbnd v hv
        simpa [boundList, List.append_assoc] using this
      · -- dvars
        intro k outs hk v hv
        simp only [heq, hfields.2.2.2.1] at hk
        have := hinv.dvarsB k outs hk v hv
        refine boundList_mono (fun u hu => ?_) (fun u hu => ?_) (fun u hu => ?_) v this
        · simp only [heq, hfields.2.2.1]; exact hu
        · simp only [heq, hfields.2.1]; exact hu
        · simp only [heq, outsOf_append_one, hfields.1]
          exact List.mem_append.2 (Or.inl hu)
      · -- h assigned
        simp only [heq]
        rw [hfields.2.2.2.2.1]; rfl
      · -- monotone
        intro x hx
        obtain ⟨w, hw⟩ := Option.isSome_iff_exists.1 hx
        simp only [heq]
        rw [hfields.2.2.2.2.2 x w hw]; rfl
  | lamB =>
      simp only [hrec] at hstep
      obtain rfl := Option.some.inj hstep
      exact ⟨hinv, hlamA hrec, fun x hx => hx⟩
  | freeV v =>
      simp only [hrec] at hstep
      obtain rfl := Option.some.inj hstep
      have hfields := sinkVar_fields st h
      refine ⟨⟨?_, ?_, ?_⟩, ?_, ?_⟩
      · intro x w hl
        simp only at hl
        have hmono : ∀ u, u ∈ boundList invs st →
            u ∈ boundList invs { (sinkVar st h).1 with
              env := (sinkVar st h).1.env ++ [((sinkVar st h).2, v)] } := by
          intro u hu
          refine boundList_mono (fun a ha => ?_) (fun a ha => ?_) (fun a ha => ?_) u hu
          · rw [hfields.2.2.1] at *; exact ha
          · simp only [List.map_append]
            rw [hfields.2.1]
            exact List.mem_append.2 (Or.inl ha)
          · rw [hfields.1] at *; exact ha
        cases hl0 : st.t2v.lookup h with
        | some v0 =>
            have hp1 : sinkVar st h = (st, v0) := sinkVar_lookup_some hl0
            rw [hp1] at hl
            rcases hinv.goodMap x w hl with hu | hb
            · exact Or.inl hu
            · exact Or.inr (hmono w hb)
        | none =>
            have hp1 : (sinkVar st h).1.t2v = (h, st.next) :: st.t2v ∧
                (sinkVar st h).2 = st.next := by
              simp [sinkVar, hl0]
            rw [hp1.1] at hl
            rcases lookup_cons_cases hl with ⟨rfl, rfl⟩ | hold
            · refine Or.inr ?_
              simp only [boundList, List.map_append, hfields.2.1, hfields.2.2.1,
                hfields.1]
              simp [hp1.2]
            · rcases hinv.goodMap x w hold with hu | hb
              · exact Or.inl hu
              · exact Or.inr (hmono w hb)
      · simp only [hfields.1, hfields.2.2.1, List.map_append]
        refine scopedEqns_mono (fun w hw => ?_) st.eqns hinv.scopedE
        simp only [hfields.2.1, List.map_cons, List.map_nil, List.mem_append] at hw ⊢
        tauto
      · intro k outs hk w hw
        simp only [hfields.2.2.2.1] at hk
        have := hinv.dvarsB k outs hk w hw
        refine boundList_mono (fun a ha => ?_) (fun a ha => ?_) (fun a ha => ?_) w this
        · simp only [hfields.2.2.1]; exact ha
        · simp only [List.map_append]
          rw [hfields.2.1]
          exact List.mem_append.2 (Or.inl ha)
        · simp only [hfields.1]; exact ha
      · simp only []
        rw [hfields.2.2.2.2.1]; rfl
      · intro x hx
        obtain ⟨w, hw⟩ := Option.isSome_iff_exists.1 hx
        simp only []
        rw [hfields.2.2.2.2.2 x w hw]; rfl
  | constV v =>
      simp only [hrec] at hstep
      obtain rfl := Option.some.inj hstep
      have hfields := sinkVar_fields st h
      refine ⟨⟨?_, ?_, ?_⟩, ?_, ?_⟩
      · intro x w hl
        simp only at hl
        have hmono : ∀ u, u ∈ boundList invs st →
            u ∈ boundList invs { (sinkVar st h).1 with
              consts := (sinkVar st h).1.consts ++ [((sinkVar st h).2, v)] } := by
          intro u hu
          refine boundList_mono (fun a ha => ?_) (fun a ha => ?_) (fun a ha => ?_) u hu
          · simp only [List.map_append]
            rw [hfields.2.2.1]
            exact List.mem_append.2 (Or.inl ha)
          · rw [hfields.2.1] at *; exact ha
          · rw [hfields.1] at *; exact ha
        cases hl0 : st.t2v.lookup h with
        | some v0 =>
            have hp1 : sinkVar st h = (st, v0) := sinkVar_lookup_some hl0
            rw [hp1] at hl
            rcases hinv.goodMap x w hl with hu | hb
            · exact Or.inl hu
            · exact Or.inr (hmono w hb)
        | none =>
            have hp1 : (sinkVar st h).1.t2v = (h, st.next) :: st.t2v ∧
                (sinkVar st h).2 = st.next := by
              simp [sinkVar, hl0]
            rw [hp1.1] at hl
            rcases lookup_cons_cases hl with ⟨rfl, rfl⟩ | hold
            · refine Or.inr ?_
              simp only [boundList, List.map_append, hfields.2.1, hfields.2.2.1,
                hfields.1]
              simp [hp1.2]
            · rcases hinv.goodMap x w hold with hu | hb
              · exact Or.inl hu
              · exact Or.inr (hmono w hb)
      · simp only [hfields.1, hfields.2.1, List.map_append]
        refine scopedEqns_mono (fun w hw => ?_) st.eqns hinv.scopedE
        simp only [hfields.2.2.1, List.map_cons, List.map_nil, List.mem_append] at hw ⊢
        tauto
      · intro k outs hk w hw
        simp only [hfields.2.2.2.1] at hk
        have := hinv.dvarsB k outs hk w hw
        refine boundList_mono (fun a ha => ?_) (fun a ha => ?_) (fun a ha => ?_) w this
        · simp only [List.map_append]
          rw [hfields.2.2.1]
          exact List.mem_append.2 (Or.inl ha)
        · simp only [hfields.2.1]; exact ha
        · simp only [hfields.1]; exact ha
      · simp only []
        rw [hfields.2.2.2.2.1]; rfl
      · intro x hx
        obtain ⟨w, hw⟩ := Option.isSome_iff_exists.1 hx
        simp only []
        rw [hfields.2.2.2.2.2 x w hw]; rfl
  | destr i e key =>
      simp only [hrec, recipeParents] at hstep hpar hparU
      cases hkey : st.dvars.lookup key with
      | some outs =>
          simp only [hkey] at hstep
          cases hgi : outs[i]? with
          | none => rw [hgi] at hstep; cases hstep
          | some v =>
              rw [hgi] at hstep
              obtain rfl := Option.some.inj hstep
              refine ⟨⟨?_, hinv.scopedE, hinv.dvarsB⟩, ?_, ?_⟩
              · intro x w hl
                simp only at hl
                rcases lookup_cons_cases hl with ⟨rfl, rfl⟩ | hold
                · exact Or.inr (hinv.dvarsB key outs hkey w (getElem?_mem_list hgi))
                · exact hinv.goodMap x w hold
              · simp [List.lookup]
              · intro x hx
                exact lookup_isSome_mono hx
      | none =>
          simp only [hkey] at hstep
          have hff := freshVars_fields e.noutvars st
          obtain ⟨heq, hbnd⟩ := parents_no_sinkVar hinv hff.1 hpar hparU
          simp only [eqn_tracer_to_var] at hstep
          rw [heq] at hstep
          cases hgi : (freshVars st e.noutvars).2[i]? with
          | none => rw [hgi] at hstep; cases hstep
          | some v =>
              rw [hgi] at hstep
              obtain rfl := Option.some.inj hstep
              refine ⟨⟨?_, ?_, ?_⟩, ?_, ?_⟩
              · intro x w hl
                simp only at hl
                have hmono : ∀ u, u ∈ boundList invs st →
                    u ∈ boundList invs { (freshVars st e.noutvars).1 with
                      eqns := (freshVars st e.noutvars).1.eqns ++
                        [⟨(sinkVars (freshVars st e.noutvars).1 e.invars).2,
                          (freshVars st e.noutvars).2, e.primitive, false,
                          e.destructure, e.params⟩],
                      dvars := (freshVars st e.noutvars).1.dvars ++
                        [(key, (freshVars st e.noutvars).2)],
                      t2v := (h, v) :: (freshVars st e.noutvars).1.t2v } := by
                  intro u hu
                  refine boundList_mono (fun a ha => ?_) (fun a ha => ?_)
                    (fun a ha => ?_) u hu
                  · simp only [hff.2.2.2.1]; exact ha
                  · simp only [hff.2.2.1]; exact ha
                  · simp only [outsOf_append_one, hff.2.1]
                    exact List.mem_append.2 (Or.inl ha)
                rcases lookup_cons_cases hl with ⟨rfl, rfl⟩ | hold
                · refine Or.inr ?_
                  simp only [boundList, outsOf_append_one, hff.2.1, hff.2.2.1,
                    hff.2.2.2.1]
                  have hmm : w ∈ (freshVars st e.noutvars).2 := getElem?_mem_list hgi
                  simp only [List.mem_append]
                  tauto
                · rw [hff.1] at hold
                  rcases hinv.goodMap x w hold with hu | hb
                  · exact Or.inl hu
                  · exact Or.inr (hmono w hb)
              · simp only [hff.2.1, hff.2.2.1, hff.2.2.2.1]
                refine scopedEqns_append_one hinv.scopedE ?_
                intro w hw
                simp only at hw
                have := hbnd w hw
                simpa [boundList, List.append_assoc] using this
              · intro k outs' hk w hw
                simp only [hff.2.2.2.2] at hk
                rcases lookup_append_some hk with hold | hnew
                · have := hinv.dvarsB k outs' hold w hw
                  refine boundList_mono (fun a ha => ?_) (fun a ha => ?_)
                    (fun a ha => ?_) w this
                  · simp only [hff.2.2.2.1]; exact ha
                  · simp only [hff.2.2.1]; exact ha
                  · simp only [outsOf_append_one, hff.2.1]
                    exact List.mem_append.2 (Or.inl ha)
                · rcases lookup_cons_cases hnew with ⟨rfl, rfl⟩ | habs
                  · simp only [boundList, outsOf_append_one]
                    simp only [List.mem_append]
                    tauto
                  · simp [List.lookup] at habs
              · simp [List.lookup]
              · intro x hx
                obtain ⟨w, hw⟩ := Option.isSome_iff_exists.1 hx
                have : List.lookup x (freshVars st e.noutvars).1.t2v = some w := by
                  rw [hff.1]; exact hw
                simp only []
                exact lookup_isSome_mono (by simp [this])
  | unitR =>
      simp only [hrec] at hstep
      obtain rfl := Option.some.inj hstep
      refine ⟨⟨?_, hinv.scopedE, hinv.dvarsB⟩, ?_, ?_⟩
      · intro x w hl
        simp only at hl
        rcases lookup_cons_cases hl with ⟨rfl, rfl⟩ | hold
        · exact Or.inl ⟨nd, hnd, hrec⟩
        · exact hinv.goodMap x w hold
      · simp [List.lookup]
      · intro x hx
        exact lookup_isSome_mono hx

/-- After `sinkVar`, any assignment is either an old one or the fresh one. -/
theorem sinkVar_entry_vals {st : SinkSt} {h x : Nat} {v : VarId}
    (hl : (sinkVar st h).1.t2v.lookup x = some v) :
    st.t2v.lookup x = some v ∨ v = (sinkVar st h).2 := by
  cases hl0 : st.t2v.lookup h with
  | some v0 =>
      rw [sinkVar_lookup_some hl0] at hl ⊢
      exact Or.inl hl
  | none =>
      have hp1 : (sinkVar st h).1.t2v = (h, st.next) :: st.t2v ∧
          (sinkVar st h).2 = st.next := by
        simp [sinkVar, hl0]
      rw [hp1.1] at hl
      rcases lookup_cons_cases hl with ⟨rfl, rfl⟩ | hold
      · exact Or.inr hp1.2.symm
      · exact Or.inl hold

/-- After `sinkVars`, any assignment is either an old one or among the
returned variables. -/
theorem sinkVars_entry_vals : ∀ (hs : List Nat) (st : SinkSt) (x : Nat) (v : VarId),
    (sinkVars st hs).1.t2v.lookup x = some v →
    st.t2v.lookup x = some v ∨ v ∈ (sinkVars st hs).2
  | [], st, x, v, hl => Or.inl hl
  | h :: hs, st, x, v, hl => by
      simp only [sinkVars] at hl ⊢
      rcases sinkVars_entry_vals hs (sinkVar st h).1 x v hl with h1 | h2
      · rcases sinkVar_entry_vals h1 with h3 | h3
        · exact Or.inl h3
        · exact Or.inr (by rw [h3]; exact List.mem_cons_self _ _)
      · exact Or.inr (List.mem_cons_of_mem _ h2)

/-- `sinkVars` assigns a variable to every handle it visits. -/
theorem sinkVars_assigns_all : ∀ (hs : List Nat) (st : SinkSt),
    ∀ x ∈ hs, ((sinkVars st hs).1.t2v.lookup x).isSome = true
  | [], _, x, hx => by cases hx
  | h :: hs, st, x, hx => by
      rcases List.mem_cons.1 hx with rfl | hx
      · have hself := (sinkVar_fields st x).2.2.2.2.1
        obtain ⟨f1, f2, f3, f4, hpres, _⟩ := sinkVars_fields hs (sinkVar st x).1
        simp only [sinkVars]
        rw [hpres x _ hself]; rfl
      · simp only [sinkVars]
        exact sinkVars_assigns_all hs (sinkVar st h).1 x hx

theorem validTopo_head {store : Store} {seen : List Nat} {h : Nat} {rest : List Nat}
    (hv : validTopoAux store seen (h :: rest) = true) :
    ∃ nd, store[h]? = some nd ∧
      (∀ p ∈ recipeParents nd.recipe, p ∈ seen) ∧
      validTopoAux store (h :: seen) rest = true := by
  simp only [validTopoAux] at hv
  cases hnd : store[h]? with
  | none => rw [hnd] at hv; cases hv
  | some nd =>
      rw [hnd] at hv
      simp only [Bool.and_eq_true, List.all_eq_true] at hv
      refine ⟨nd, rfl, fun p hp => ?_, hv.2⟩
      have := hv.1 p hp
      simpa using this

theorem noUnit_head {store : Store} {h : Nat} {rest : List Nat} {nd : TNode}
    (hnd : store[h]? = some nd)
    (hnu : noUnitParents store (h :: rest) = true) :
    (∀ p ∈ recipeParents nd.recipe,
        ∃ ndp, store[p]? = some ndp ∧ ndp.recipe ≠ Recipe.unitR) ∧
    noUnitParents store rest = true := by
  simp only [noUnitParents, List.all_cons, Bool.and_eq_true] at hnu
  refine ⟨fun p hp => ?_, hnu.2⟩
  have h1 := hnu.1
  rw [hnd] at h1
  simp only [List.all_eq_true] at h1
  have h2 := h1 p hp
  cases hndp : store[p]? with
  | none => rw [hndp] at h2; cases h2
  | some ndp =>
      rw [hndp] at h2
      refine ⟨ndp, rfl, ?_⟩
      intro habs
      simp only [habs] at h2
      exact Bool.noConfusion h2

theorem lam_head {store : Store} {inT : List Nat} {h : Nat} {rest : List Nat}
    {nd : TNode} (hnd : store[h]? = some nd)
    (hl : lamCovered store inT (h :: rest) = true) :
    (nd.recipe = Recipe.lamB → h ∈ inT) ∧ lamCovered store inT rest = true := by
  simp only [lamCovered, List.all_cons, Bool.and_eq_true] at hl
  refine ⟨fun hrec => ?_, hl.2⟩
  have h1 := hl.1
  rw [hnd] at h1
  simp only [hrec] at h1
  simpa using h1

/-- The sink loop preserves the invariant over any topologically valid
suffix. -/
theorem sinkAll_inv {store : Store} {invs : List VarId} {inT : List Nat} :
    ∀ (sorted seen : List Nat) (st st' : SinkSt),
    validTopoAux store seen sorted = true →
    lamCovered store inT sorted = true →
    noUnitParents store sorted = true →
    (∀ p ∈ seen, (st.t2v.lookup p).isSome = true) →
    (∀ x ∈ inT, (st.t2v.lookup x).isSome = true) →
    SinkInv store invs st →
    sinkAll store st sorted = some st' →
    SinkInv store invs st'
  | [], _, st, st', _, _, _, _, _, hinv, hall => by
      obtain rfl : st = st' := by simpa [sinkAll] using hall
      exact hinv
  | h :: rest, seen, st, st', htopo, hlam, hnu, hseen, hinT, hinv, hall => by
      obtain ⟨nd, hnd, hpar_seen, htopo'⟩ := validTopo_head htopo
      obtain ⟨hparU, hnu'⟩ := noUnit_head hnd hnu
      obtain ⟨hlamh, hlam'⟩ := lam_head hnd hlam
      simp only [sinkAll, Option.bind_eq_bind] at hall
      cases hstep : sinkStep store st h with
      | none => rw [hstep] at hall; cases hall
      | some st1 =>
          rw [hstep] at hall
          simp only [Option.some_bind] at hall
          obtain ⟨hinv1, hh1, hmono⟩ := sinkStep_inv hnd hstep
            (fun p hp => hseen p (hpar_seen p hp)) hparU
            (fun hrec => hinT h (hlamh hrec)) hinv
          exact sinkAll_inv rest (h :: seen) st1 st' htopo' hlam' hnu'
            (fun p hp => by
              rcases List.mem_cons.1 hp with rfl | hp
              · exact hh1
              · exact hmono p (hseen p hp))
            (fun x hx => hmono x (hinT x hx)) hinv1 hall

/-- **C2.**  In the Graph returned by `tracers_to_jaxpr` for any valid
topological order of the tracer arena — with all lambda-bound tracers among
the input tracers and no `unit`-recipe tracer used as an equation input —
every variable referenced as an equation input is bound earlier: as a
constant variable, a free/environment variable, an explicit input variable,
or an output variable of an earlier equation. -/
theorem C2_extraction_well_scoped (store : Store) (inT sorted : List Nat)
    (outT : Nat) (j : Jaxpr) (cv ev : List Val)
    (htopo : validTopo store sorted = true)
    (hlam : lamCovered store inT sorted = true)
    (hnu : noUnitParents store sorted = true)
    (hres : tracers_to_jaxpr store inT sorted outT = some (j, cv, ev)) :
    wellScoped j = true := by
  simp only [tracers_to_jaxpr, Option.bind_eq_bind] at hres
  cases hall : sinkAll store (sinkVars sinkInit inT).1 sorted with
  | none => rw [hall] at hres; cases hres
  | some st1 =>
      rw [hall] at hres
      simp only [Option.some_bind] at hres
      have hinit : SinkInv store (sinkVars sinkInit inT).2 (sinkVars sinkInit inT).1 := by
        obtain ⟨f1, f2, f3, f4, _, _⟩ := sinkVars_fields inT sinkInit
        refine ⟨?_, ?_, ?_⟩
        · intro x v hl
          refine Or.inr ?_
          rcases sinkVars_entry_vals inT sinkInit x v hl with habs | hv
          · simp [sinkInit, List.lookup] at habs
          · simp only [boundList, List.mem_append]
            tauto
        · rw [f1, f2, f3]
          simp [sinkInit, scopedEqns]
        · intro k outs hk
          rw [f4] at hk
          simp [sinkInit, List.lookup] at hk
      have hfinal : SinkInv store (sinkVars sinkInit inT).2 st1 :=
        sinkAll_inv sorted [] (sinkVars sinkInit inT).1 st1 htopo hlam hnu
          (fun p hp => by cases hp)
          (sinkVars_assigns_all inT sinkInit) hinit hall
      have hjf : j = ⟨(sinkVar st1 outT).1.consts.map Prod.fst,
          (sinkVar st1 outT).1.env.map Prod.fst, (sinkVars sinkInit inT).2,
          (sinkVar st1 outT).2, (sinkVar st1 outT).1.eqns⟩ := by
        have := Option.some.inj hres
        exact (congrArg Prod.fst this).symm
      obtain ⟨g1, g2, g3, _, _, _⟩ := sinkVar_fields st1 outT
      rw [hjf]
      simp only [wellScoped, g1, g2, g3]
      exact hfinal.scopedE

/-- Witness store for C2: a lambda-bound input tracer and one equation
tracer squaring it. -/
def c2Store : Store :=
  [⟨(PV.unknown AbstractVal.shaped, unitVal), Recipe.lamB⟩,
   ⟨(PV.unknown AbstractVal.shaped, unitVal),
     Recipe.eqnR ⟨[0, 0], Prim.op 0, false, 0, 0⟩⟩]

/-- Witness for C2 on a concrete two-tracer arena. -/
theorem C2_witness :
    wellScoped ⟨[], [], [1], 2, [⟨[1, 1], [2], Prim.op 0, false, false, 0⟩]⟩ = true :=
  C2_extraction_well_scoped c2Store [0] [0, 1] 1
    ⟨[], [], [1], 2, [⟨[1, 1], [2], Prim.op 0, false, false, 0⟩]⟩ [] []
    rfl rfl rfl rfl

/-! ## Destructuring dedup (C5) -/

/-- The destructure flags of the trace discipline: equations recorded by
`process_primitive` and `JaxprTrace.pack` never set `destructure`, while the
shared equation of `JaxprTracer.unpack` recipes always does. -/
def destrFlagsOK (store : Store) (sorted : List Nat) : Bool :=
  sorted.all (fun h =>
    match store[h]? with
    | some nd =>
        match nd.recipe with
        | Recipe.eqnR e => !e.destructure
        | Recipe.destr _ e _ => e.destructure
        | _ => true
    | none => false)

theorem freshVars_spec : ∀ (n : Nat) (st : SinkSt),
    (freshVars st n).1.next = st.next + n ∧
    (freshVars st n).2.length = n ∧
    ∀ v ∈ (freshVars st n).2, st.next ≤ v ∧ v < st.next + n
  | 0, st => ⟨rfl, rfl, by intro v hv; cases hv⟩
  | n + 1, st => by
      obtain ⟨h1, h2, h3⟩ := freshVars_spec n { st with next := st.next + 1 }
      have h1' : (freshVars { st with next := st.next + 1 } n).1.next
          = st.next + 1 + n := h1
      have h3' : ∀ v ∈ (freshVars { st with next := st.next + 1 } n).2,
          st.next + 1 ≤ v ∧ v < st.next + 1 + n := h3
      refine ⟨?_, ?_, ?_⟩
      · show (freshVars { st with next := st.next + 1 } n).1.next = st.next + (n + 1)
        rw [h1', Nat.add_assoc, Nat.add_comm 1 n]
      · show (st.next :: (freshVars { st with next := st.next + 1 } n).2).length = n + 1
        simp [h2]
      · intro v hv
        have hv' : v ∈ st.next :: (freshVars { st with next := st.next + 1 } n).2 := hv
        rcases List.mem_cons.1 hv' with rfl | hv2
        · exact ⟨Nat.le_refl _, Nat.lt_add_of_pos_right (Nat.succ_pos n)⟩
        · obtain ⟨ha, hb⟩ := h3' v hv2
          refine ⟨Nat.le_of_succ_le ha, ?_⟩
          rw [Nat.add_assoc, Nat.add_comm 1 n] at hb
          exact hb

theorem lookup_none_not_memkey {β : Type _} : ∀ {l : List (Nat × β)} {k : Nat},
    l.lookup k = none → ∀ e ∈ l, e.1 ≠ k
  | [], k, _, e, he => by cases he
  | x :: l, k, hl, e, he => by
      simp only [List.lookup] at hl
      cases hbe : k == x.1
      · rw [hbe] at hl
        rcases List.mem_cons.1 he with rfl | he
        · intro hek; rw [hek] at hbe; simp at hbe
        · exact lookup_none_not_memkey hl e he
      · rw [hbe] at hl; cases hl

theorem lookup_append_full {β : Type _} : ∀ {l1 l2 : List (Nat × β)} {k : Nat},
    (l1 ++ l2).lookup k = if (l1.lookup k).isSome then l1.lookup k else l2.lookup k
  | [], l2, k => by simp [List.lookup]
  | x :: l1, l2, k => by
      simp only [List.cons_append, List.lookup]
      cases hbe : k == x.1
      · simpa using @lookup_append_full β l1 l2 k
      · simp

theorem lookup_some_mem {β : Type _} : ∀ {l : List (Nat × β)} {k : Nat} {v : β},
    l.lookup k = some v → (k, v) ∈ l
  | [], k, v, h => by cases h
  | x :: l, k, v, h => by
      simp only [List.lookup] at h
      cases hbe : k == x.1
      · rw [hbe] at h
        exact List.mem_cons_of_mem x (lookup_some_mem h)
      · rw [hbe] at h
        obtain rfl : k = x.1 := by simpa using hbe
        obtain rfl : x.2 = v := Option.some.inj h
        exact List.mem_cons_self x l

/-- The C5 invariant for the sink loop.  `seen` lists the handles processed
so far. -/
structure DedupInv (store : Store) (seen : List Nat) (st : SinkSt) : Prop where
  corr : (st.eqns.filter (fun q => q.destructure)).map (fun q => q.outvars)
      = st.dvars.map Prod.snd
  disj : List.Pairwise (fun a b => ∀ x ∈ a.2, ∀ y ∈ b.2, x ≠ y) st.dvars
  vlt : ∀ e ∈ st.dvars, ∀ v ∈ e.2, v < st.next
  src : ∀ e ∈ st.dvars, ∃ h' nd' i' er, h' ∈ seen ∧ store[h']? = some nd' ∧
      nd'.recipe = Recipe.destr i' er e.1 ∧ e.2.length = er.noutvars
  keyP : ∀ h' ∈ seen, ∀ nd' i' er k, store[h']? = some nd' →
      nd'.recipe = Recipe.destr i' er k → (st.dvars.lookup k).isSome = true

theorem sinkVar_next_le (st : SinkSt) (h : Nat) : st.next ≤ (sinkVar st h).1.next := by
  unfold sinkVar
  cases hl : st.t2v.lookup h with
  | some v => simp only [hl]; exact Nat.le_refl _
  | none => simp only [hl]; exact Nat.le_succ _

theorem sinkVars_next_le : ∀ (hs : List Nat) (st : SinkSt),
    st.next ≤ (sinkVars st hs).1.next
  | [], st => Nat.le_refl _
  | h :: hs, st => by
      simp only [sinkVars]
      exact Nat.le_trans (sinkVar_next_le st h) (sinkVars_next_le hs (sinkVar st h).1)

theorem destrFlags_head {store : Store} {h : Nat} {rest : List Nat}
    (hf : destrFlagsOK store (h :: rest) = true) :
    ∃ nd, store[h]? = some nd ∧
      (∀ e, nd.recipe = Recipe.eqnR e → e.destructure = false) ∧
      (∀ i e k, nd.recipe = Recipe.destr i e k → e.destructure = true) ∧
      destrFlagsOK store rest = true := by
  simp only [destrFlagsOK, List.all_cons, Bool.and_eq_true] at hf
  obtain ⟨h1, h2⟩ := hf
  cases hnd : store[h]? with
  | none => rw [hnd] at h1; cases h1
  | some nd =>
      rw [hnd] at h1
      refine ⟨nd, rfl, ?_, ?_, by simpa [destrFlagsOK] using h2⟩
      · intro e he
        simp only [he] at h1
        simpa using h1
      · intro i e k he
        simp only [he] at h1
        simpa using h1

/-- Weakening for the C5 invariant when the step leaves the destructuring
equations, the memo table and (up to growth) the gensym counter alone. -/
theorem dedupInv_extend {store : Store} {seen seen' : List Nat} {st st' : SinkSt}
    (hs : ∀ x ∈ seen, x ∈ seen')
    (hfm : (st'.eqns.filter (fun q => q.destructure)).map (fun q => q.outvars)
        = (st.eqns.filter (fun q => q.destructure)).map (fun q => q.outvars))
    (hd : st'.dvars = st.dvars)
    (hle : st.next ≤ st'.next)
    (hnew : ∀ h' ∈ seen', h' ∉ seen → ∀ nd' i' er k, store[h']? = some nd' →
        nd'.recipe = Recipe.destr i' er k → (st'.dvars.lookup k).isSome = true)
    (hinv : DedupInv store seen st) :
    DedupInv store seen' st' := by
  refine ⟨?_, ?_, ?_, ?_, ?_⟩
  · rw [hfm, hd]; exact hinv.corr
  · rw [hd]; exact hinv.disj
  · intro d hd' v hv
    rw [hd] at hd'
    exact Nat.lt_of_lt_of_le (hinv.vlt d hd' v hv) hle
  · intro d hd'
    rw [hd] at hd'
    obtain ⟨h', nd', i', er, hm, a, b, c⟩ := hinv.src d hd'
    exact ⟨h', nd', i', er, hs h' hm, a, b, c⟩
  · intro h' hm nd' i' er k a b
    by_cases hin : h' ∈ seen
    · rw [hd]; exact hinv.keyP h' hin nd' i' er k a b
    · exact hnew h' hm hin nd' i' er k a b

/-- The C5 invariant only depends on the set of seen handles. -/
theorem dedupInv_seen_iff {store : Store} {seen seen' : List Nat} {st : SinkSt}
    (hs : ∀ x, x ∈ seen ↔ x ∈ seen')
    (hinv : DedupInv store seen st) : DedupInv store seen' st := by
  refine ⟨hinv.corr, hinv.disj, hinv.vlt, ?_, ?_⟩
  · intro d hd
    obtain ⟨h', nd', i', er, hm, a, b, c⟩ := hinv.src d hd
    exact ⟨h', nd', i', er, (hs h').1 hm, a, b, c⟩
  · intro h' hm
    exact hinv.keyP h' ((hs h').2 hm)

/-- One sink-loop iteration preserves the C5 invariant: the destructuring
equation list and the `destructuring_vars` memo stay in lock step, fresh
destructuring variables stay disjoint from all previously allocated ones,
and every seen destructuring key is memoized. -/
theorem dedup_step {store : Store} {seen : List Nat} {st st' : SinkSt} {h : Nat}
    {nd : TNode} (hnd : store[h]? = some nd)
    (hstep : sinkStep store st h = some st')
    (hfe : ∀ e, nd.recipe = Recipe.eqnR e → e.destructure = false)
    (hfd : ∀ i e k, nd.recipe = Recipe.destr i e k → e.destructure = true)
    (hinv : DedupInv store seen st) :
    DedupInv store (h :: seen) st' := by
  have hsub : ∀ x ∈ seen, x ∈ h :: seen := fun x hx => List.mem_cons_of_mem h hx
  simp only [sinkStep, hnd, Option.bind_eq_bind, Option.some_bind] at hstep
  cases hrec : nd.recipe with
  | eqnR e =>
      simp only [hrec, eqn_tracer_to_var] at hstep
      obtain rfl := Option.some.inj hstep
      have hA := sinkVar_fields st h
      have hB := sinkVars_fields e.invars (sinkVar st h).1
      refine dedupInv_extend hsub ?_ ?_ ?_ ?_ hinv
      · have hde : e.destructure = false := hfe e hrec
        simp only [List.filter_append, List.map_append, hB.1, hA.1, hde]
        simp
      · simp only [hB.2.2.2.1, hA.2.2.2.1]
      · exact Nat.le_trans (sinkVar_next_le st h)
          (sinkVars_next_le e.invars (sinkVar st h).1)
      · intro h' hm hnin nd' i' er k a b
        rcases List.mem_cons.1 hm with rfl | hm'
        · rw [hnd] at a
          obtain rfl := Option.some.inj a
          rw [hrec] at b
          cases b
        · exact absurd hm' hnin
  | lamB =>
      simp only [hrec] at hstep
      obtain rfl := Option.some.inj hstep
      refine dedupInv_extend hsub rfl rfl (Nat.le_refl _) ?_ hinv
      intro h' hm hnin nd' i' er k a b
      rcases List.mem_cons.1 hm with rfl | hm'
      · rw [hnd] at a
        obtain rfl := Option.some.inj a
        rw [hrec] at b
        cases b
      · exact absurd hm' hnin
  | freeV v =>
      simp only [hrec] at hstep
      obtain rfl := Option.some.inj hstep
      have hA := sinkVar_fields st h
      refine dedupInv_extend hsub ?_ ?_ (sinkVar_next_le st h) ?_ hinv
      · simp only [hA.1]
      · simp only [hA.2.2.2.1]
      · intro h' hm hnin nd' i' er k a b
        rcases List.mem_cons.1 hm with rfl | hm'
        · rw [hnd] at a
          obtain rfl := Option.some.inj a
          rw [hrec] at b
          cases b
        · exact absurd hm' hnin
  | constV v =>
      simp only [hrec] at hstep
      obtain rfl := Option.some.inj hstep
      have hA := sinkVar_fields st h
      refine dedupInv_extend hsub ?_ ?_ (sinkVar_next_le st h) ?_ hinv
      · simp only [hA.1]
      · simp only [hA.2.2.2.1]
      · intro h' hm hnin nd' i' er k a b
        rcases List.mem_cons.1 hm with rfl | hm'
        · rw [hnd] at a
          obtain rfl := Option.some.inj a
          rw [hrec] at b
          cases b
        · exact absurd hm' hnin
  | unitR =>
      simp only [hrec] at hstep
      obtain rfl := Option.some.inj hstep
      refine dedupInv_extend hsub ?_ ?_ ?_ ?_ hinv
      · rfl
      · rfl
      · exact Nat.le_refl _
      · intro h' hm hnin nd' i' er k a b
        rcases List.mem_cons.1 hm with rfl | hm'
        · rw [hnd] at a
          obtain rfl := Option.some.inj a
          rw [hrec] at b
          cases b
        · exact absurd hm' hnin
  | destr i e key =>
      simp only [hrec] at hstep
      have hde : e.destructure = true := hfd i e key hrec
      cases hkey : st.dvars.lookup key with
      | some outs =>
          simp only [hkey] at hstep
          cases hgi : outs[i]? with
          | none => rw [hgi] at hstep; cases hstep
          | some v =>
              rw [hgi] at hstep
              obtain rfl := Option.some.inj hstep
              refine dedupInv_extend hsub ?_ ?_ ?_ ?_ hinv
              · rfl
              · rfl
              · exact Nat.le_refl _
              · intro h' hm hnin nd' i' er k a b
                rcases List.mem_cons.1 hm with rfl | hm'
                · rw [hnd] at a
                  obtain rfl := Option.some.inj a
                  rw [hrec] at b
                  injection b with b1 b2 b3
                  subst b3
                  show (st.dvars.lookup key).isSome = true
                  rw [hkey]
                  rfl
                · exact absurd hm' hnin
      | none =>
          simp only [hkey] at hstep
          have hff := freshVars_fields e.noutvars st
          have hfs := freshVars_spec e.noutvars st
          have hB := sinkVars_fields e.invars (freshVars st e.noutvars).1
          have hle2 : st.next + e.noutvars ≤
              (sinkVars (freshVars st e.noutvars).1 e.invars).1.next := by
            have hmon := sinkVars_next_le e.invars (freshVars st e.noutvars).1
            rw [hfs.1] at hmon
            exact hmon
          simp only [eqn_tracer_to_var] at hstep
          cases hgi : (freshVars st e.noutvars).2[i]? with
          | none => rw [hgi] at hstep; cases hstep
          | some v =>
              rw [hgi] at hstep
              obtain rfl := Option.some.inj hstep
              refine ⟨?_, ?_, ?_, ?_, ?_⟩
              · show (((sinkVars (freshVars st e.noutvars).1 e.invars).1.eqns ++
                    [(⟨(sinkVars (freshVars st e.noutvars).1 e.invars).2,
                      (freshVars st e.noutvars).2, e.primitive, false,
                      e.destructure, e.params⟩ : JaxprEqn)]).filter
                        (fun q => q.destructure)).map (fun q => q.outvars)
                  = ((sinkVars (freshVars st e.noutvars).1 e.invars).1.dvars ++
                      [(key, (freshVars st e.noutvars).2)]).map Prod.snd
                simp only [List.filter_append, List.map_append, hB.1, hff.2.1,
                  hB.2.2.2.1, hff.2.2.2.2, hinv.corr, hde]
                simp
              · show List.Pairwise _ ((sinkVars (freshVars st e.noutvars).1
                    e.invars).1.dvars ++ [(key, (freshVars st e.noutvars).2)])
                rw [hB.2.2.2.1, hff.2.2.2.2]
                refine List.pairwise_append.2 ⟨hinv.disj, by simp, ?_⟩
                intro a ha b hb x hx y hy
                obtain rfl : b = (key, (freshVars st e.noutvars).2) := by
                  simpa using hb
                have hx' := hinv.vlt a ha x hx
                have hy' := (hfs.2.2 y hy).1
                exact Nat.ne_of_lt (Nat.lt_of_lt_of_le hx' hy')
              · intro d hd' w hw
                have hd2 : d ∈ st.dvars ++ [(key, (freshVars st e.noutvars).2)] := by
                  rw [← hff.2.2.2.2, ← hB.2.2.2.1]
                  exact hd'
                rcases List.mem_append.1 hd2 with hold | hnew
                · exact Nat.lt_of_lt_of_le (hinv.vlt d hold w hw)
                    (Nat.le_trans (Nat.le_add_right _ _) hle2)
                · obtain rfl : d = (key, (freshVars st e.noutvars).2) := by
                    simpa using hnew
                  exact Nat.lt_of_lt_of_le ((hfs.2.2 w hw).2) hle2
              · intro d hd'
                have hd2 : d ∈ st.dvars ++ [(key, (freshVars st e.noutvars).2)] := by
                  rw [← hff.2.2.2.2, ← hB.2.2.2.1]
                  exact hd'
                rcases List.mem_append.1 hd2 with hold | hnew
                · obtain ⟨h', nd', i', er, hm, a, b, c⟩ := hinv.src d hold
                  exact ⟨h', nd', i', er, List.mem_cons_of_mem h hm, a, b, c⟩
                · obtain rfl : d = (key, (freshVars st e.noutvars).2) := by
                    simpa using hnew
                  exact ⟨h, nd, i, e, List.mem_cons_self h seen, hnd, hrec, hfs.2.1⟩
              · intro h' hm nd' i' er k a b
                show (((sinkVars (freshVars st e.noutvars).1 e.invars).1.dvars ++
                    [(key, (freshVars st e.noutvars).2)]).lookup k).isSome = true
                rw [hB.2.2.2.1, hff.2.2.2.2, lookup_append_full]
                rcases List.mem_cons.1 hm with rfl | hm'
                · rw [hnd] at a
                  obtain rfl := Option.some.inj a
                  rw [hrec] at b
                  injection b with b1 b2 b3
                  subst b3
                  rw [hkey]
                  simp [List.lookup]
                · have hsome := hinv.keyP h' hm' nd' i' er k a b
                  rw [if_pos hsome]
                  exact hsome

/-- The full sink loop preserves the C5 invariant, accumulating the
processed handles. -/
theorem dedup_all {store : Store} : ∀ (sorted seen : List Nat) (st st' : SinkSt),
    destrFlagsOK store sorted = true →
    DedupInv store seen st →
    sinkAll store st sorted = some st' →
    DedupInv store (seen ++ sorted) st'
  | [], seen, st, st', _, hinv, hall => by
      obtain rfl : st = st' := by simpa [sinkAll] using hall
      simpa using hinv
  | h :: rest, seen, st, st', hflags, hinv, hall => by
      obtain ⟨nd, hnd, hfe, hfd, hflags'⟩ := destrFlags_head hflags
      simp only [sinkAll, Option.bind_eq_bind] at hall
      cases hstep : sinkStep store st h with
      | none => rw [hstep] at hall; cases hall
      | some st1 =>
          rw [hstep] at hall
          simp only [Option.some_bind] at hall
          have hinv1 := dedup_step hnd hstep hfe hfd hinv
          have hrest := dedup_all rest (h :: seen) st1 st' hflags' hinv1 hall
          refine dedupInv_seen_iff (fun x => ?_) hrest
          simp only [List.mem_append, List.mem_cons]
          tauto

/-- Counting destructuring equations with a given output-variable list is
counting that list among the destructuring equations' outputs. -/
theorem countP_destr_count (eqns : List JaxprEqn) (outs : List VarId) :
    eqns.countP (fun q => q.destructure && q.outvars == outs)
      = ((eqns.filter (fun q => q.destructure)).map (fun q => q.outvars)).count outs := by
  induction eqns with
  | nil => rfl
  | cons q rest ih =>
      by_cases hq : q.destructure = true
      · by_cases ho : q.outvars = outs
        · simp [List.countP_cons, List.filter_cons, List.count_cons, hq, ho, ih]
        · simp [List.countP_cons, List.filter_cons, List.count_cons, hq, ho,
            Ne.symm ho, ih]
      · simp [List.countP_cons, List.filter_cons, hq, ih]

/-- A nonempty variable list appearing in a pairwise element-disjoint memo
table appears exactly once among the table entries. -/
theorem count_one_of_disj : ∀ {l : List (Nat × List VarId)} {k : Nat}
    {outs : List VarId},
    (k, outs) ∈ l → outs ≠ [] →
    List.Pairwise (fun a b => ∀ x ∈ a.2, ∀ y ∈ b.2, x ≠ y) l →
    (l.map Prod.snd).count outs = 1
  | [], k, outs, hm, _, _ => absurd hm (List.not_mem_nil _)
  | a :: l, k, outs, hm, hne, hp => by
      obtain ⟨hhead, htail⟩ := List.pairwise_cons.1 hp
      rcases List.mem_cons.1 hm with heq | hm'
      · obtain rfl := heq
        have htail0 : outs ∉ l.map Prod.snd := by
          intro habs
          obtain ⟨b, hb, hbeq⟩ := List.mem_map.1 habs
          obtain ⟨x, hx⟩ := List.exists_mem_of_ne_nil outs hne
          exact hhead b hb x hx x (by rw [hbeq]; exact hx) rfl
        simp [List.count_cons, List.count_eq_zero.2 htail0]
      · have hne2 : a.2 ≠ outs := by
          intro habs
          obtain ⟨x, hx⟩ := List.exists_mem_of_ne_nil outs hne
          exact hhead (k, outs) hm' x (by rw [habs]; exact hx) x hx rfl
        rw [List.map_cons, List.count_cons]
        rw [count_one_of_disj hm' hne htail]
        simp [hne2, Ne.symm hne2]

/-- **C5.**  Destructuring dedup: whenever the processed tracer list
contains a destructuring tracer for a multi-output primitive result — all
sibling tracers sharing the same key carry the same recipe equation, and the
recorded destructure flags follow the trace discipline — the extracted Graph
contains exactly one destructuring equation for that result, with all
`noutvars` output variables declared, no matter how many of the sibling
output tracers appear in the processed list. -/
theorem C5_destructuring_dedup (store : Store) (inT sorted : List Nat)
    (outT h i key : Nat) (nd : TNode) (e : EqnRecipe)
    (j : Jaxpr) (cv ev : List Val)
    (hflags : destrFlagsOK store sorted = true)
    (hh : h ∈ sorted)
    (hnd : store[h]? = some nd)
    (hrec : nd.recipe = Recipe.destr i e key)
    (hpos : 1 ≤ e.noutvars)
    (hkey : ∀ h' ∈ sorted, ∀ nd' i' e', store[h']? = some nd' →
        nd'.recipe = Recipe.destr i' e' key → e' = e)
    (hres : tracers_to_jaxpr store inT sorted outT = some (j, cv, ev)) :
    ∃ outs : List VarId, outs.length = e.noutvars ∧
      j.eqns.countP (fun q => q.destructure && q.outvars == outs) = 1 := by
  simp only [tracers_to_jaxpr, Option.bind_eq_bind] at hres
  cases hall : sinkAll store (sinkVars sinkInit inT).1 sorted with
  | none => rw [hall] at hres; cases hres
  | some st1 =>
      rw [hall] at hres
      simp only [Option.some_bind] at hres
      have hinit : DedupInv store [] (sinkVars sinkInit inT).1 := by
        obtain ⟨f1, f2, f3, f4, _, _⟩ := sinkVars_fields inT sinkInit
        refine ⟨?_, ?_, ?_, ?_, ?_⟩
        · rw [f1, f4]; rfl
        · rw [f4]; exact List.Pairwise.nil
        · intro d hd
          rw [f4] at hd
          cases hd
        · intro d hd
          rw [f4] at hd
          cases hd
        · intro h' hm
          cases hm
      have hfin : DedupInv store ([] ++ sorted) st1 :=
        dedup_all sorted [] (sinkVars sinkInit inT).1 st1 hflags hinit hall
      have hfin' : DedupInv store sorted st1 :=
        dedupInv_seen_iff (fun x => by simp) hfin
      have hje : j.eqns = st1.eqns := by
        obtain ⟨g1, _, _, _, _, _⟩ := sinkVar_fields st1 outT
        have hpair := Option.some.inj hres
        have hjf : j = ⟨(sinkVar st1 outT).1.consts.map Prod.fst,
            (sinkVar st1 outT).1.env.map Prod.fst, (sinkVars sinkInit inT).2,
            (sinkVar st1 outT).2, (sinkVar st1 outT).1.eqns⟩ :=
          (congrArg Prod.fst hpair).symm
        rw [hjf]
        exact g1
      have hsome := hfin'.keyP h hh nd i e key hnd hrec
      obtain ⟨outs, houts⟩ := Option.isSome_iff_exists.1 hsome
      have hmem : (key, outs) ∈ st1.dvars := lookup_some_mem houts
      obtain ⟨h', nd', i', er, hm', a, b, c⟩ := hfin'.src (key, outs) hmem
      obtain rfl : e = er := (hkey h' hm' nd' i' er a b).symm
      have hlen : outs.length = e.noutvars := c
      have hne : outs ≠ [] := by
        intro habs
        rw [habs] at hlen
        simp only [List.length_nil] at hlen
        omega
      refine ⟨outs, hlen, ?_⟩
      rw [hje, countP_destr_count, hfin'.corr]
      exact count_one_of_disj hmem hne hfin'.disj

/-- Witness recipe equation for C5: a two-output primitive applied to the
lambda-bound tracer. -/
def c5E : EqnRecipe := ⟨[0], Prim.op 1, true, 2, 0⟩

/-- Witness destructuring tracer for C5: the first of the two sibling
outputs; only this one is reachable (M = 1 < N = 2). -/
def c5Node : TNode := ⟨(PV.unknown AbstractVal.shaped, unitVal), Recipe.destr 0 c5E 7⟩

/-- Witness arena for C5: a lambda-bound input and one used destructuring
output of a two-output primitive. -/
def c5Store : Store :=
  [⟨(PV.unknown AbstractVal.shaped, unitVal), Recipe.lamB⟩, c5Node]

/-- Witness for C5: the extracted Graph declares both output variables and
contains exactly one destructuring equation although only one of the two
sibling tracers is used. -/
theorem C5_witness :
    ∃ outs : List VarId, outs.length = 2 ∧
      (Jaxpr.eqns ⟨[], [], [1], 2,
          [⟨[1], [2, 3], Prim.op 1, false, true, 0⟩]⟩).countP
        (fun q => q.destructure && q.outvars == outs) = 1 :=
  C5_destructuring_dedup c5Store [0] [0, 1] 1 1 0 7 c5Node c5E
    ⟨[], [], [1], 2, [⟨[1], [2, 3], Prim.op 1, false, true, 0⟩]⟩ [] []
    rfl (by decide) rfl rfl (by decide)
    (by
      intro h' hh' nd' i' e' hnd' hrec'
      rcases List.mem_cons.1 hh' with rfl | hh'
      · obtain rfl := Option.some.inj hnd'
        cases hrec'
      · rcases List.mem_cons.1 hh' with rfl | hh'
        · obtain rfl := Option.some.inj hnd'
          injection hrec' with b1 b2 b3
          exact b2.symm
        · cases hh')
    rfl

/-! ## Graph evaluation and the partial-evaluation split (C1)

`partial_eval_jaxpr` (source lines 575-595) re-traces the graph through
`trace_to_jaxpr`, which lives in `linear_util.py` / `core.py` — both absent
from src.  The split pass and the graph evaluator are therefore modelled from
the spec (§5 and §1); the closure-conversion step reuses the real embedded
`closure_convert_jaxpr`, `pack_eqn` and `unpack_eqn` from src. -/

/-- An evaluation environment: variable bindings, most recent first. -/
abbrev Env := List (VarId × Val)

/-- Modelled from the spec: reading a variable during graph execution. -/
def readVar (env : Env) (v : VarId) : Option Val := env.lookup v

/-- Modelled from the spec: reading an equation's input variables. -/
def readVars (env : Env) : List VarId → Option (List Val)
  | [] => some []
  | v :: vs => do
      let x ← readVar env v
      let xs ← readVars env vs
      some (x :: xs)

/-- Modelled from the spec: binding output variables to computed values. -/
def bindOuts : Env → List VarId → List Val → Option Env
  | env, [], [] => some env
  | env, v :: vs, x :: xs => bindOuts ((v, x) :: env) vs xs
  | _, _ :: _, [] => none
  | _, [], _ :: _ => none

/-- Modelled from the spec (§1, §2): the output values of one equation given
its input values — destructuring unpacks a tuple into the declared outputs,
`pack` collects its inputs into a tuple, `identity` forwards its single
input, and catalog primitives defer to the catalog implementation. -/
def evalEqnVals (cat : PrimCatalog) (q : JaxprEqn) (args : List Val) :
    Option (List Val) :=
  if q.restructure then none
  else if q.destructure then
    match args with
    | [Val.tuple xs] => if q.outvars.length = xs.length then some xs else none
    | _ => none
  else
    match q.outvars with
    | [_] =>
        match q.primitive, args with
        | Prim.identity, [x] => some [x]
        | Prim.pack, xs => some [Val.tuple xs]
        | Prim.op c, xs => (cat.impl c q.params xs).map (fun r => [r])
        | _, _ => none
    | _ => none

/-- Modelled from the spec: executing one equation in an environment. -/
def evalEqn (cat : PrimCatalog) (env : Env) (q : JaxprEqn) : Option Env := do
  let args ← readVars env q.invars
  let outs ← evalEqnVals cat q args
  bindOuts env q.outvars outs

/-- Modelled from the spec: executing an equation list in order. -/
def evalEqns (cat : PrimCatalog) : Env → List JaxprEqn → Option Env
  | env, [] => some env
  | env, q :: rest => do
      let env1 ← evalEqn cat env q
      evalEqns cat env1 rest

/-- Modelled from the spec: `core.eval_jaxpr` — bind the constant, free and
explicit input variables (with the distinguished `unitvar` bound to the unit
value), execute the equations, and read the output reference. -/
def evalJaxpr (cat : PrimCatalog) (j : Jaxpr)
    (consts freevals invals : List Val) : Option Val := do
  let e1 ← bindOuts [(unitvar, unitVal)] j.constvars consts
  let e2 ← bindOuts e1 j.freevars freevals
  let e3 ← bindOuts e2 j.invars invals
  let envf ← evalEqns cat e3 j.eqns
  readVar envf j.outvar

theorem bindOuts_lookup : ∀ (vsl : List VarId) (xsl : List Val) (env env' : Env),
    bindOuts env vsl xsl = some env' →
    ∀ (v : Nat) (x : Val), env'.lookup v = some x →
      (∃ k : Nat, vsl[k]? = some v ∧ xsl[k]? = some x) ∨
        (v ∉ vsl ∧ env.lookup v = some x)
  | [], [], env, env', hb, v, x, hl => by
      obtain rfl := Option.some.inj hb
      exact Or.inr ⟨List.not_mem_nil v, hl⟩
  | v0 :: vsl, x0 :: xsl, env, env', hb, v, x, hl => by
      rcases bindOuts_lookup vsl xsl ((v0, x0) :: env) env' hb v x hl with
        ⟨k, hk1, hk2⟩ | ⟨hnm, hold⟩
      · exact Or.inl ⟨k + 1, by simpa using hk1, by simpa using hk2⟩
      · simp only [List.lookup] at hold
        cases hbe : v == v0 with
        | true =>
            rw [hbe] at hold
            obtain rfl : v = v0 := by simpa using hbe
            obtain rfl : x0 = x := Option.some.inj hold
            exact Or.inl ⟨0, by simp, by simp⟩
        | false =>
            rw [hbe] at hold
            refine Or.inr ⟨?_, hold⟩
            intro habs
            rcases List.mem_cons.1 habs with rfl | habs
            · simp at hbe
            · exact hnm habs
  | _ :: _, [], env, env', hb, v, x, hl => by cases hb
  | [], _ :: _, env, env', hb, v, x, hl => by cases hb

theorem bindOuts_pres_val : ∀ (vsl : List VarId) (xsl : List Val) (env env' : Env),
    bindOuts env vsl xsl = some env' →
    ∀ (v : Nat) (x : Val), v ∉ vsl → env.lookup v = some x → env'.lookup v = some x
  | [], [], env, env', hb, v, x, _, hl => by
      obtain rfl := Option.some.inj hb
      exact hl
  | v0 :: vsl, x0 :: xsl, env, env', hb, v, x, hnm, hl => by
      refine bindOuts_pres_val vsl xsl ((v0, x0) :: env) env' hb v x
        (fun habs => hnm (List.mem_cons_of_mem v0 habs)) ?_
      have hne : v ≠ v0 := fun habs => hnm (habs ▸ List.mem_cons_self v0 vsl)
      have hbe : (v == v0) = false := by simpa using hne
      simp [List.lookup, hbe, hl]
  | _ :: _, [], env, env', hb, v, x, _, hl => by cases hb
  | [], _ :: _, env, env', hb, v, x, _, hl => by cases hb

theorem bindOuts_pres : ∀ (vsl : List VarId) (xsl : List Val) (env env' : Env),
    bindOuts env vsl xsl = some env' →
    ∀ (v : Nat), (env.lookup v).isSome = true → (env'.lookup v).isSome = true
  | [], [], env, env', hb, v, hl => by
      obtain rfl := Option.some.inj hb
      exact hl
  | v0 :: vsl, x0 :: xsl, env, env', hb, v, hl => by
      refine bindOuts_pres vsl xsl ((v0, x0) :: env) env' hb v ?_
      cases hbe : v == v0
      · simpa [List.lookup, hbe] using hl
      · simp [List.lookup, hbe]
  | _ :: _, [], env, env', hb, v, hl => by cases hb
  | [], _ :: _, env, env', hb, v, hl => by cases hb

theorem bindOuts_binds : ∀ (vsl : List VarId) (xsl : List Val) (env env' : Env),
    bindOuts env vsl xsl = some env' →
    ∀ v ∈ vsl, (env'.lookup v).isSome = true
  | [], [], env, env', hb, v, hv => by cases hv
  | v0 :: vsl, x0 :: xsl, env, env', hb, v, hv => by
      rcases List.mem_cons.1 hv with rfl | hv
      · refine bindOuts_pres vsl xsl ((v, x0) :: env) env' hb v ?_
        simp [List.lookup]
      · exact bindOuts_binds vsl xsl ((v0, x0) :: env) env' hb v hv
  | _ :: _, [], env, env', hb, v, hv => by cases hb
  | [], _ :: _, env, env', hb, v, hv => by cases hb

theorem bindOuts_total : ∀ (vsl : List VarId) (xsl : List Val) (env : Env),
    vsl.length = xsl.length → ∃ env', bindOuts env vsl xsl = some env'
  | [], [], env, _ => ⟨env, rfl⟩
  | v0 :: vsl, x0 :: xsl, env, hlen =>
      bindOuts_total vsl xsl ((v0, x0) :: env) (by simpa using hlen)
  | _ :: _, [], _, hlen => by cases hlen
  | [], _ :: _, _, hlen => by cases hlen

theorem bindOuts_lookup_nodup : ∀ (vsl : List VarId) (xsl : List Val)
    (env env' : Env), vsl.Nodup → bindOuts env vsl xsl = some env' →
    ∀ (k : Nat) (w : VarId), vsl[k]? = some w → env'.lookup w = xsl[k]?
  | [], [], env, env', _, hb, k, w, hk => by cases k <;> cases hk
  | v0 :: vsl, x0 :: xsl, env, env', hnd, hb, k, w, hk => by
      obtain ⟨hnm, hnd'⟩ := List.nodup_cons.1 hnd
      cases k with
      | zero =>
          have hvw : v0 = w := by simpa using hk
          have hres : env'.lookup v0 = some x0 :=
            bindOuts_pres_val vsl xsl ((v0, x0) :: env) env' hb v0 x0 hnm
              (by simp [List.lookup])
          rw [← hvw]
          simpa using hres
      | succ k =>
          have hk' : vsl[k]? = some w := by simpa using hk
          have := bindOuts_lookup_nodup vsl xsl ((v0, x0) :: env) env' hnd' hb k w hk'
          simpa using this
  | _ :: _, [], env, env', _, hb, k, w, hk => by cases hb
  | [], _ :: _, env, env', _, hb, k, w, hk => by cases hb

theorem readVars_length : ∀ (vsl : List VarId) (env : Env) (xs : List Val),
    readVars env vsl = some xs → xs.length = vsl.length
  | [], env, xs, hr => by
      obtain rfl := Option.some.inj hr
      rfl
  | v :: vsl, env, xs, hr => by
      simp only [readVars, readVar, Option.bind_eq_bind] at hr
      cases hl : env.lookup v with
      | none => rw [hl] at hr; cases hr
      | some x =>
          rw [hl] at hr
          simp only [Option.some_bind] at hr
          cases hrs : readVars env vsl with
          | none => rw [hrs] at hr; cases hr
          | some ys =>
              rw [hrs] at hr
              simp only [Option.some_bind] at hr
              obtain rfl := Option.some.inj hr
              simp [readVars_length vsl env ys hrs]

theorem readVars_getElem : ∀ (vsl : List VarId) (env : Env) (xs : List Val),
    readVars env vsl = some xs →
    ∀ (k : Nat) (v : VarId), vsl[k]? = some v → env.lookup v = xs[k]?
  | [], env, xs, hr, k, v, hk => by cases k <;> cases hk
  | v0 :: vsl, env, xs, hr, k, v, hk => by
      simp only [readVars, readVar, Option.bind_eq_bind] at hr
      cases hl : env.lookup v0 with
      | none => rw [hl] at hr; cases hr
      | some x =>
          rw [hl] at hr
          simp only [Option.some_bind] at hr
          cases hrs : readVars env vsl with
          | none => rw [hrs] at hr; cases hr
          | some ys =>
              rw [hrs] at hr
              simp only [Option.some_bind] at hr
              obtain rfl := Option.some.inj hr
              cases k with
              | zero =>
                  obtain rfl : v0 = v := by simpa using hk
                  simpa using hl
              | succ k =>
                  have hk' : vsl[k]? = some v := by simpa using hk
                  have := readVars_getElem vsl env ys hrs k v hk'
                  simpa using this

theorem readVars_agree : ∀ (vsl : List VarId) (env env' : Env) (xs : List Val),
    readVars env' vsl = some xs →
    (∀ v ∈ vsl, ∃ x, env.lookup v = some x ∧ env'.lookup v = some x) →
    readVars env vsl = some xs
  | [], env, env', xs, hr, _ => hr
  | v0 :: vsl, env, env', xs, hr, hag => by
      simp only [readVars, readVar, Option.bind_eq_bind] at hr ⊢
      obtain ⟨x, hx1, hx2⟩ := hag v0 (List.mem_cons_self v0 vsl)
      rw [hx2] at hr
      simp only [Option.some_bind] at hr
      cases hrs : readVars env' vsl with
      | none => rw [hrs] at hr; cases hr
      | some ys =>
          rw [hrs] at hr
          simp only [Option.some_bind] at hr
          rw [hx1]
          simp only [Option.some_bind]
          rw [readVars_agree vsl env env' ys hrs
            (fun v hv => hag v (List.mem_cons_of_mem v0 hv))]
          simp only [Option.some_bind]
          exact hr

/-- The maximum of a list of naturals (0 for the empty list). -/
def maxL : List Nat → Nat
  | [] => 0
  | x :: xs => max x (maxL xs)

theorem maxL_ge : ∀ {xs : List Nat} {x : Nat}, x ∈ xs → x ≤ maxL xs
  | [], x, hx => absurd hx (List.not_mem_nil x)
  | y :: xs, x, hx => by
      rcases List.mem_cons.1 hx with rfl | hx
      · exact Nat.le_max_left x (maxL xs)
      · exact Nat.le_trans (maxL_ge hx) (Nat.le_max_right y (maxL xs))

/-- A bound above every variable mentioned anywhere in a graph. -/
def maxVarJ (g : Jaxpr) : Nat :=
  max (maxL (g.constvars ++ g.freevars ++ g.invars ++ [g.outvar]))
      (maxL (g.eqns.map (fun q => maxL (q.invars ++ q.outvars))))

theorem maxVarJ_invar {g : Jaxpr} {v : VarId} (hv : v ∈ g.invars) :
    v ≤ maxVarJ g :=
  Nat.le_trans (maxL_ge (by simp [hv])) (Nat.le_max_left _ _)

theorem maxVarJ_outvar (g : Jaxpr) : g.outvar ≤ maxVarJ g :=
  Nat.le_trans (maxL_ge (by simp)) (Nat.le_max_left _ _)

theorem maxVarJ_eqn_invar {g : Jaxpr} {q : JaxprEqn} {v : VarId}
    (hq : q ∈ g.eqns) (hv : v ∈ q.invars) : v ≤ maxVarJ g := by
  have h1 : v ≤ maxL (q.invars ++ q.outvars) :=
    maxL_ge (List.mem_append.2 (Or.inl hv))
  have h2 : maxL (q.invars ++ q.outvars) ≤
      maxL (g.eqns.map (fun q => maxL (q.invars ++ q.outvars))) :=
    maxL_ge (List.mem_map.2 ⟨q, hq, rfl⟩)
  exact Nat.le_trans (Nat.le_trans h1 h2) (Nat.le_max_right _ _)

theorem maxVarJ_eqn_outvar {g : Jaxpr} {q : JaxprEqn} {v : VarId}
    (hq : q ∈ g.eqns) (hv : v ∈ q.outvars) : v ≤ maxVarJ g := by
  have h1 : v ≤ maxL (q.invars ++ q.outvars) :=
    maxL_ge (List.mem_append.2 (Or.inr hv))
  have h2 : maxL (q.invars ++ q.outvars) ≤
      maxL (g.eqns.map (fun q => maxL (q.invars ++ q.outvars))) :=
    maxL_ge (List.mem_map.2 ⟨q, hq, rfl⟩)
  exact Nat.le_trans (Nat.le_trans h1 h2) (Nat.le_max_right _ _)

/-- Modelled from the spec: selecting the entries whose `first_components`
mark is `True` (the known positions). -/
def selectK {α : Type _} : List Bool → List α → List α
  | b :: bs, x :: xs => if b then x :: selectK bs xs else selectK bs xs
  | _, _ => []

/-- Modelled from the spec: selecting the entries whose mark is `False`
(the unknown positions). -/
def selectU {α : Type _} : List Bool → List α → List α
  | b :: bs, x :: xs => if b then selectU bs xs else x :: selectU bs xs
  | _, _ => []

theorem selectK_sublist {α : Type _} : ∀ (fc : List Bool) (l : List α),
    (selectK fc l).Sublist l
  | [], l => by simp [selectK]
  | b :: bs, [] => by simp [selectK]
  | b :: bs, x :: xs => by
      cases b with
      | true => simpa [selectK] using List.Sublist.cons₂ x (selectK_sublist bs xs)
      | false => simpa [selectK] using List.Sublist.cons x (selectK_sublist bs xs)

theorem selectU_sublist {α : Type _} : ∀ (fc : List Bool) (l : List α),
    (selectU fc l).Sublist l
  | [], l => by simp [selectU]
  | b :: bs, [] => by simp [selectU]
  | b :: bs, x :: xs => by
      cases b with
      | true => simpa [selectU] using List.Sublist.cons x (selectU_sublist bs xs)
      | false => simpa [selectU] using List.Sublist.cons₂ x (selectU_sublist bs xs)

theorem selectK_length {α β : Type _} : ∀ (fc : List Bool) (l1 : List α)
    (l2 : List β), l1.length = l2.length →
    (selectK fc l1).length = (selectK fc l2).length
  | [], _, _, _ => rfl
  | _ :: _, [], [], _ => rfl
  | b :: bs, x :: xs, y :: ys, hlen => by
      cases b <;> simp [selectK, selectK_length bs xs ys (by simpa using hlen)]
  | _ :: _, [], _ :: _, hlen => by cases hlen
  | _ :: _, _ :: _, [], hlen => by cases hlen

theorem selectU_length {α β : Type _} : ∀ (fc : List Bool) (l1 : List α)
    (l2 : List β), l1.length = l2.length →
    (selectU fc l1).length = (selectU fc l2).length
  | [], _, _, _ => rfl
  | _ :: _, [], [], _ => rfl
  | b :: bs, x :: xs, y :: ys, hlen => by
      cases b <;> simp [selectU, selectU_length bs xs ys (by simpa using hlen)]
  | _ :: _, [], _ :: _, hlen => by cases hlen
  | _ :: _, _ :: _, [], hlen => by cases hlen

/-- A known-selected variable and its value sit at a common position of the
original lists. -/
theorem selectK_pairs {α β : Type _} : ∀ (fc : List Bool) (l1 : List α)
    (l2 : List β), l1.length = l2.length →
    ∀ (k : Nat) (v : α), (selectK fc l1)[k]? = some v →
    ∃ m : Nat, l1[m]? = some v ∧ (selectK fc l2)[k]? = l2[m]?
  | [], l1, l2, _, k, v, hk => by simp [selectK] at hk
  | _ :: _, [], [], _, k, v, hk => by simp [selectK] at hk
  | b :: bs, x :: xs, y :: ys, hlen, k, v, hk => by
      cases b with
      | true =>
          simp only [selectK, if_true] at hk ⊢
          cases k with
          | zero =>
              obtain rfl : x = v := by simpa using hk
              exact ⟨0, by simp, by simp⟩
          | succ k =>
              obtain ⟨m, hm1, hm2⟩ := selectK_pairs bs xs ys
                (by simpa using hlen) k v (by simpa using hk)
              exact ⟨m + 1, by simpa using hm1, by simpa using hm2⟩
      | false =>
          simp only [selectK, if_false] at hk ⊢
          obtain ⟨m, hm1, hm2⟩ := selectK_pairs bs xs ys
            (by simpa using hlen) k v hk
          exact ⟨m + 1, by simpa using hm1, by simpa using hm2⟩
  | _ :: _, [], _ :: _, hlen, _, _, _ => by cases hlen
  | _ :: _, _ :: _, [], hlen, _, _, _ => by cases hlen

theorem selectU_pairs {α β : Type _} : ∀ (fc : List Bool) (l1 : List α)
    (l2 : List β), l1.length = l2.length →
    ∀ (k : Nat) (v : α), (selectU fc l1)[k]? = some v →
    ∃ m : Nat, l1[m]? = some v ∧ (selectU fc l2)[k]? = l2[m]?
  | [], l1, l2, _, k, v, hk => by simp [selectU] at hk
  | _ :: _, [], [], _, k, v, hk => by simp [selectU] at hk
  | b :: bs, x :: xs, y :: ys, hlen, k, v, hk => by
      cases b with
      | false =>
          simp only [selectU, if_false] at hk ⊢
          cases k with
          | zero =>
              obtain rfl : x = v := by simpa using hk
              exact ⟨0, by simp, by simp⟩
          | succ k =>
              obtain ⟨m, hm1, hm2⟩ := selectU_pairs bs xs ys
                (by simpa using hlen) k v (by simpa using hk)
              exact ⟨m + 1, by simpa using hm1, by simpa using hm2⟩
      | true =>
          simp only [selectU, if_true] at hk ⊢
          obtain ⟨m, hm1, hm2⟩ := selectU_pairs bs xs ys
            (by simpa using hlen) k v hk
          exact ⟨m + 1, by simpa using hm1, by simpa using hm2⟩
  | _ :: _, [], _ :: _, hlen, _, _, _ => by cases hlen
  | _ :: _, _ :: _, [], hlen, _, _, _ => by cases hlen

/-- Every position is selected by exactly one of the two marks. -/
theorem selectKU_cover {α : Type _} : ∀ (fc : List Bool) (l : List α),
    fc.length = l.length → ∀ x ∈ l, x ∈ selectK fc l ∨ x ∈ selectU fc l
  | [], [], _, x, hx => by cases hx
  | b :: bs, y :: ys, hlen, x, hx => by
      rcases List.mem_cons.1 hx with rfl | hx
      · cases b with
        | true => exact Or.inl (by simp [selectK])
        | false => exact Or.inr (by simp [selectU])
      · rcases selectKU_cover bs ys (by simpa using hlen) x hx with hk | hu
        · cases b with
          | true => exact Or.inl (by simp [selectK, hk])
          | false => exact Or.inl (by simp [selectK, hk])
        · cases b with
          | true => exact Or.inr (by simp [selectU, hu])
          | false => exact Or.inr (by simp [selectU, hu])
  | [], _ :: _, hlen, _, _ => by cases hlen
  | _ :: _, [], hlen, _, _ => by cases hlen

/-- Modelled from the spec (§5): classify each equation of the re-traced body
as known (all inputs known — evaluated eagerly into `Graph₁`) or unknown
(recorded into `Graph₂`), threading the set of known variables. -/
def splitEqns (kset : List VarId) :
    List JaxprEqn → List VarId × List JaxprEqn × List JaxprEqn
  | [] => (kset, [], [])
  | q :: rest =>
      if q.invars.all (fun v => kset.contains v) then
        let r := splitEqns (kset ++ q.outvars) rest
        (r.1, q :: r.2.1, r.2.2)
      else
        let r := splitEqns kset rest
        (r.1, r.2.1, q :: r.2.2)

theorem splitEqns_mem : ∀ (eqns : List JaxprEqn) (kset : List VarId),
    (∀ q ∈ (splitEqns kset eqns).2.1, q ∈ eqns) ∧
    (∀ q ∈ (splitEqns kset eqns).2.2, q ∈ eqns) ∧
    (∀ q ∈ eqns, q ∈ (splitEqns kset eqns).2.1 ∨ q ∈ (splitEqns kset eqns).2.2)
  | [], kset => ⟨fun q hq => absurd hq (List.not_mem_nil q),
      fun q hq => absurd hq (List.not_mem_nil q),
      fun q hq => absurd hq (List.not_mem_nil q)⟩
  | q0 :: rest, kset => by
      by_cases ht : q0.invars.all (fun v => kset.contains v) = true
      · obtain ⟨ih1, ih2, ih3⟩ := splitEqns_mem rest (kset ++ q0.outvars)
        refine ⟨?_, ?_, ?_⟩
        · intro q hq
          simp only [splitEqns, if_pos ht] at hq
          rcases List.mem_cons.1 hq with rfl | hq
          · exact List.mem_cons_self q rest
          · exact List.mem_cons_of_mem q0 (ih1 q hq)
        · intro q hq
          simp only [splitEqns, if_pos ht] at hq
          exact List.mem_cons_of_mem q0 (ih2 q hq)
        · intro q hq
          simp only [splitEqns, if_pos ht]
          rcases List.mem_cons.1 hq with rfl | hq
          · exact Or.inl (List.mem_cons_self q _)
          · rcases ih3 q hq with h1 | h2
            · exact Or.inl (List.mem_cons_of_mem q0 h1)
            · exact Or.inr h2
      · obtain ⟨ih1, ih2, ih3⟩ := splitEqns_mem rest kset
        refine ⟨?_, ?_, ?_⟩
        · intro q hq
          simp only [splitEqns, if_neg ht] at hq
          exact List.mem_cons_of_mem q0 (ih1 q hq)
        · intro q hq
          simp only [splitEqns, if_neg ht] at hq
          rcases List.mem_cons.1 hq with rfl | hq
          · exact List.mem_cons_self q rest
          · exact List.mem_cons_of_mem q0 (ih2 q hq)
        · intro q hq
          simp only [splitEqns, if_neg ht]
          rcases List.mem_cons.1 hq with rfl | hq
          · exact Or.inr (List.mem_cons_self q _)
          · rcases ih3 q hq with h1 | h2
            · exact Or.inl h1
            · exact Or.inr (List.mem_cons_of_mem q0 h2)

/-- Whether a variable is referenced as an input anywhere in an equation
list. -/
def usedIn (eqns : List JaxprEqn) (v : VarId) : Bool :=
  eqns.any (fun q => q.invars.contains v)

/-- Modelled from the spec (§5): the residual variables — the known values
the unknown computation needs. -/
def residualVars (kset : List VarId) (eqns2 : List JaxprEqn) : List VarId :=
  kset.filter (fun v => usedIn eqns2 v)

/-- A scoped equation list stays scoped over any binder list containing all
the actually referenced binders. -/
theorem scopedEqns_used : ∀ (eqns : List JaxprEqn) (bound bound' : List VarId),
    scopedEqns bound eqns = true →
    (∀ v ∈ bound, usedIn eqns v = true → v ∈ bound') →
    scopedEqns bound' eqns = true
  | [], _, _, _, _ => rfl
  | q :: rest, bound, bound', hsc, hb => by
      simp only [scopedEqns, Bool.and_eq_true, List.all_eq_true] at hsc ⊢
      obtain ⟨h1, h2⟩ := hsc
      refine ⟨?_, ?_⟩
      · intro v hv
        have hvb : v ∈ bound := by simpa using h1 v hv
        have hused : usedIn (q :: rest) v = true := by
          simp only [usedIn, List.any_cons, Bool.or_eq_true]
          exact Or.inl (by simpa using hv)
        simpa using hb v hvb hused
      · refine scopedEqns_used rest (bound ++ q.outvars) (bound' ++ q.outvars) h2 ?_
        intro v hv hused
        rcases List.mem_append.1 hv with hv | hv
        · refine List.mem_append.2 (Or.inl (hb v hv ?_))
          simp only [usedIn, List.any_cons, Bool.or_eq_true]
          exact Or.inr (by simpa [usedIn] using hused)
        · exact List.mem_append.2 (Or.inr hv)

theorem outsOf_mem : ∀ {eqns : List JaxprEqn} {v : VarId},
    v ∈ outsOf eqns → ∃ q ∈ eqns, v ∈ q.outvars
  | [], v, hv => by cases hv
  | q :: rest, v, hv => by
      have hv' : v ∈ q.outvars ++ outsOf rest := hv
      rcases List.mem_append.1 hv' with h1 | h2
      · exact ⟨q, List.mem_cons_self q rest, h1⟩
      · obtain ⟨q', hq', hvq'⟩ := outsOf_mem h2
        exact ⟨q', List.mem_cons_of_mem q hq', hvq'⟩

theorem outsOf_mem_of {eqns : List JaxprEqn} {q : JaxprEqn} {v : VarId}
    (hq : q ∈ eqns) (hv : v ∈ q.outvars) : v ∈ outsOf eqns := by
  induction eqns with
  | nil => cases hq
  | cons q0 rest ih =>
      show v ∈ q0.outvars ++ outsOf rest
      rcases List.mem_cons.1 hq with rfl | hq
      · exact List.mem_append.2 (Or.inl hv)
      · exact List.mem_append.2 (Or.inr (ih hq))

theorem evalEqnVals_length (cat : PrimCatalog) (q : JaxprEqn) (xs vs : List Val)
    (h : evalEqnVals cat q xs = some vs) : vs.length = q.outvars.length := by
  unfold evalEqnVals at h
  split at h
  · cases h
  · split at h
    · split at h
      · split at h
        · rename_i hlen
          obtain rfl := Option.some.inj h
          exact hlen.symm
        · cases h
      · cases h
    · split at h
      · rename_i hd heqo
        split at h
        · obtain rfl := Option.some.inj h
          simp [heqo]
        · obtain rfl := Option.some.inj h
          simp [heqo]
        · obtain ⟨r, _, rfl⟩ := Option.map_eq_some'.1 h
          simp [heqo]
        · cases h
      · cases h

theorem readVars_mono : ∀ (vsl : List VarId) (env env' : Env) (xs : List Val),
    readVars env vsl = some xs →
    (∀ (v : Nat) (x : Val), env.lookup v = some x → env'.lookup v = some x) →
    readVars env' vsl = some xs
  | [], env, env', xs, hr, _ => hr
  | v0 :: vsl, env, env', xs, hr, hpres => by
      simp only [readVars, readVar, Option.bind_eq_bind] at hr ⊢
      cases hl : env.lookup v0 with
      | none => rw [hl] at hr; cases hr
      | some x =>
          rw [hl] at hr
          simp only [Option.some_bind] at hr
          cases hrs : readVars env vsl with
          | none => rw [hrs] at hr; cases hr
          | some ys =>
              rw [hrs] at hr
              simp only [Option.some_bind] at hr
              rw [hpres v0 x hl]
              simp only [Option.some_bind]
              rw [readVars_mono vsl env env' ys hrs hpres]
              simp only [Option.some_bind]
              exact hr

/-- Execution facts of a successful run over a single-assignment equation
list: bindings only accumulate, the final environment binds exactly the
initial domain plus all equation outputs, and every equation's inputs,
output values and output bindings are recoverable from the final
environment. -/
theorem evalEqns_facts (cat : PrimCatalog) : ∀ (eqns : List JaxprEqn)
    (dom : List VarId) (envG envG' : Env),
    evalEqns cat envG eqns = some envG' →
    (dom ++ outsOf eqns).Nodup →
    (∀ v : Nat, (envG.lookup v).isSome = true ↔ v ∈ dom) →
    (∀ (v : Nat) (x : Val), envG.lookup v = some x → envG'.lookup v = some x) ∧
    (∀ v : Nat, (envG'.lookup v).isSome = true ↔ v ∈ dom ++ outsOf eqns) ∧
    (∀ q ∈ eqns, ∃ xs vs, readVars envG' q.invars = some xs ∧
        evalEqnVals cat q xs = some vs ∧
        (∀ (k : Nat) (w : VarId), q.outvars[k]? = some w → envG'.lookup w = vs[k]?))
  | [], dom, envG, envG', hrun, hnd, hexact => by
      obtain rfl : envG = envG' := by simpa [evalEqns] using hrun
      refine ⟨fun v x hx => hx, ?_, fun q hq => absurd hq (List.not_mem_nil q)⟩
      intro v
      simpa [outsOf] using hexact v
  | q :: rest, dom, envG, envG', hrun, hnd, hexact => by
      simp only [evalEqns, Option.bind_eq_bind] at hrun
      cases hstep : evalEqn cat envG q with
      | none => rw [hstep] at hrun; cases hrun
      | some envG1 =>
          rw [hstep] at hrun
          simp only [Option.some_bind] at hrun
          simp only [evalEqn, Option.bind_eq_bind] at hstep
          cases hargs : readVars envG q.invars with
          | none => rw [hargs] at hstep; cases hstep
          | some xs =>
              rw [hargs] at hstep
              simp only [Option.some_bind] at hstep
              cases hvals : evalEqnVals cat q xs with
              | none => rw [hvals] at hstep; cases hstep
              | some vs =>
                  rw [hvals] at hstep
                  simp only [Option.some_bind] at hstep
                  have hocons : outsOf (q :: rest) = q.outvars ++ outsOf rest := rfl
                  have hnd1 : ((dom ++ q.outvars) ++ outsOf rest).Nodup := by
                    rw [hocons] at hnd
                    simpa [List.append_assoc] using hnd
                  have hdisj : ∀ v ∈ q.outvars, v ∉ dom := by
                    intro v hv hvdom
                    rw [hocons] at hnd
                    have := (List.nodup_append.1 hnd).2.2
                    exact this hvdom (List.mem_append.2 (Or.inl hv))
                  have houtnd : q.outvars.Nodup := by
                    rw [hocons] at hnd
                    have h1 := (List.nodup_append.1 hnd).2.1
                    exact (List.nodup_append.1 h1).1
                  have hexact1 : ∀ v : Nat,
                      (envG1.lookup v).isSome = true ↔ v ∈ dom ++ q.outvars := by
                    intro v
                    constructor
                    · intro hs
                      obtain ⟨x, hx⟩ := Option.isSome_iff_exists.1 hs
                      rcases bindOuts_lookup q.outvars vs envG envG1 hstep v x hx with
                        ⟨k, hk1, _⟩ | ⟨_, hold⟩
                      · exact List.mem_append.2 (Or.inr (getElem?_mem_list hk1))
                      · exact List.mem_append.2
                          (Or.inl ((hexact v).1 (by simp [hold])))
                    · intro hv
                      rcases List.mem_append.1 hv with hv | hv
                      · exact bindOuts_pres q.outvars vs envG envG1 hstep v
                          ((hexact v).2 hv)
                      · exact bindOuts_binds q.outvars vs envG envG1 hstep v hv
                  obtain ⟨pres2, exact2, facts2⟩ :=
                    evalEqns_facts cat rest (dom ++ q.outvars) envG1 envG' hrun
                      hnd1 hexact1
                  have presq : ∀ (v : Nat) (x : Val), envG.lookup v = some x →
                      envG1.lookup v = some x := by
                    intro v x hx
                    refine bindOuts_pres_val q.outvars vs envG envG1 hstep v x ?_ hx
                    intro hvq
                    exact hdisj v hvq ((hexact v).1 (by simp [hx]))
                  have presAll : ∀ (v : Nat) (x : Val), envG.lookup v = some x →
                      envG'.lookup v = some x :=
                    fun v x hx => pres2 v x (presq v x hx)
                  refine ⟨presAll, ?_, ?_⟩
                  · intro v
                    rw [exact2 v]
                    simp [hocons, List.mem_append]
                  · intro q' hq'
                    rcases List.mem_cons.1 hq' with rfl | hq'
                    · refine ⟨xs, vs, readVars_mono q'.invars envG envG' xs hargs
                        presAll, hvals, ?_⟩
                      intro k w hk
                      have hv1 : envG1.lookup w = vs[k]? :=
                        bindOuts_lookup_nodup q'.outvars vs envG envG1 houtnd
                          hstep k w hk
                      cases hvk : vs[k]? with
                      | none =>
                          have hlenv : vs.length ≤ k := by
                            by_contra hlt
                            rw [List.getElem?_eq_getElem (Nat.lt_of_not_le hlt)]
                              at hvk
                            cases hvk
                          have hlenq : q'.outvars.length ≤ k := by
                            rw [← evalEqnVals_length cat q' xs vs hvals]
                            exact hlenv
                          rw [List.getElem?_eq_none hlenq] at hk
                          cases hk
                      | some y =>
                          rw [hvk] at hv1
                          exact pres2 w y hv1
                    · exact facts2 q' hq'

/-- Re-execution simulation: an equation list whose equations were all
executed by a reference run can be replayed in any environment that covers
its scope and agrees with the reference environment below a variable bound
`B`; the replay succeeds and stays in agreement. -/
theorem eqns_sim (cat : PrimCatalog) (B : Nat) : ∀ (E2 : List JaxprEqn)
    (dom : List VarId) (env2 envG' : Env),
    (∀ v ∈ dom, (env2.lookup v).isSome = true) →
    (∀ (v : Nat) (x : Val), v < B → env2.lookup v = some x →
        envG'.lookup v = some x) →
    (∀ q ∈ E2, (∀ v ∈ q.invars, v < B) ∧ (∀ v ∈ q.outvars, v < B)) →
    (∀ q ∈ E2, ∃ xs vs, readVars envG' q.invars = some xs ∧
        evalEqnVals cat q xs = some vs ∧
        (∀ (k : Nat) (w : VarId), q.outvars[k]? = some w →
          envG'.lookup w = vs[k]?)) →
    scopedEqns dom E2 = true →
    ∃ env2', evalEqns cat env2 E2 = some env2' ∧
      (∀ v ∈ dom ++ outsOf E2, (env2'.lookup v).isSome = true) ∧
      (∀ (v : Nat) (x : Val), v < B → env2'.lookup v = some x →
        envG'.lookup v = some x)
  | [], dom, env2, envG', hdom, hsub, _, _, _ =>
      ⟨env2, rfl, by simpa [outsOf] using hdom, hsub⟩
  | q :: rest, dom, env2, envG', hdom, hsub, hB, hexe, hsc => by
      obtain ⟨xs, vs, hxs, hvs, houts⟩ := hexe q (List.mem_cons_self q rest)
      simp only [scopedEqns, Bool.and_eq_true, List.all_eq_true] at hsc
      obtain ⟨hscin, hscrest⟩ := hsc
      have hagree : ∀ v ∈ q.invars,
          ∃ x, env2.lookup v = some x ∧ envG'.lookup v = some x := by
        intro v hv
        have hvd : v ∈ dom := by simpa using hscin v hv
        obtain ⟨x, hx⟩ := Option.isSome_iff_exists.1 (hdom v hvd)
        exact ⟨x, hx, hsub v x ((hB q (List.mem_cons_self q rest)).1 v hv) hx⟩
      have hargs2 : readVars env2 q.invars = some xs :=
        readVars_agree q.invars env2 envG' xs hxs hagree
      have hlenvs : vs.length = q.outvars.length :=
        evalEqnVals_length cat q xs vs hvs
      obtain ⟨env2m, hbind⟩ := bindOuts_total q.outvars vs env2 hlenvs.symm
      have hstep : evalEqn cat env2 q = some env2m := by
        simp only [evalEqn, Option.bind_eq_bind, hargs2, Option.some_bind, hvs,
          hbind]
      have hdom' : ∀ v ∈ dom ++ q.outvars, (env2m.lookup v).isSome = true := by
        intro v hv
        rcases List.mem_append.1 hv with hv | hv
        · exact bindOuts_pres q.outvars vs env2 env2m hbind v (hdom v hv)
        · exact bindOuts_binds q.outvars vs env2 env2m hbind v hv
      have hsub' : ∀ (v : Nat) (x : Val), v < B → env2m.lookup v = some x →
          envG'.lookup v = some x := by
        intro v x hvB hlx
        rcases bindOuts_lookup q.outvars vs env2 env2m hbind v x hlx with
          ⟨k, hk1, hk2⟩ | ⟨_, hold⟩
        · have hres := houts k v hk1
          rw [hk2] at hres
          exact hres
        · exact hsub v x hvB hold
      obtain ⟨env2', hrun, hcov, hfin⟩ := eqns_sim cat B rest (dom ++ q.outvars)
        env2m envG' hdom' hsub'
        (fun q' hq' => hB q' (List.mem_cons_of_mem q hq'))
        (fun q' hq' => hexe q' (List.mem_cons_of_mem q hq')) hscrest
      refine ⟨env2', ?_, ?_, hfin⟩
      · simp only [evalEqns, Option.bind_eq_bind, hstep, Option.some_bind]
        exact hrun
      · intro v hv
        refine hcov v ?_
        have hoc : outsOf (q :: rest) = q.outvars ++ outsOf rest := rfl
        rw [hoc] at hv
        simp only [List.mem_append] at hv ⊢
        tauto

/-- Classification facts of the split over a successfully executed
single-assignment equation list: the final known set extends the initial one
by exactly the known equations' outputs, the known equations are scoped over
the known set, and the unknown equations are scoped over the initial domain
plus the final known set. -/
theorem splitEqns_facts (cat : PrimCatalog) : ∀ (eqns : List JaxprEqn)
    (kset dom : List VarId) (envG envG' : Env),
    evalEqns cat envG eqns = some envG' →
    (dom ++ outsOf eqns).Nodup →
    (∀ v : Nat, (envG.lookup v).isSome = true ↔ v ∈ dom) →
    (∀ v ∈ kset, v ∈ dom) →
    (∀ v ∈ (splitEqns kset eqns).1,
        v ∈ kset ∨ v ∈ outsOf (splitEqns kset eqns).2.1) ∧
    (∀ v ∈ kset, v ∈ (splitEqns kset eqns).1) ∧
    (∀ v ∈ (splitEqns kset eqns).1, v ∈ dom ∨ v ∈ outsOf eqns) ∧
    scopedEqns kset (splitEqns kset eqns).2.1 = true ∧
    scopedEqns (dom ++ (splitEqns kset eqns).1) (splitEqns kset eqns).2.2 = true ∧
    (∀ v ∈ outsOf (splitEqns kset eqns).2.1, v ∈ (splitEqns kset eqns).1)
  | [], kset, dom, envG, envG', _, _, _, hks =>
      ⟨fun v hv => Or.inl hv, fun v hv => hv, fun v hv => Or.inl (hks v hv),
        rfl, rfl, fun v hv => absurd hv (List.not_mem_nil v)⟩
  | q :: rest, kset, dom, envG, envG', hrun, hnd, hexact, hks => by
      simp only [evalEqns, Option.bind_eq_bind] at hrun
      cases hstep : evalEqn cat envG q with
      | none => rw [hstep] at hrun; cases hrun
      | some envG1 =>
          rw [hstep] at hrun
          simp only [Option.some_bind] at hrun
          simp only [evalEqn, Option.bind_eq_bind] at hstep
          cases hargs : readVars envG q.invars with
          | none => rw [hargs] at hstep; cases hstep
          | some xs =>
              rw [hargs] at hstep
              simp only [Option.some_bind] at hstep
              cases hvals : evalEqnVals cat q xs with
              | none => rw [hvals] at hstep; cases hstep
              | some vs =>
                  rw [hvals] at hstep
                  simp only [Option.some_bind] at hstep
                  have hocons : outsOf (q :: rest) = q.outvars ++ outsOf rest := rfl
                  have hnd1 : ((dom ++ q.outvars) ++ outsOf rest).Nodup := by
                    rw [hocons] at hnd
                    simpa [List.append_assoc] using hnd
                  have hexact1 : ∀ v : Nat,
                      (envG1.lookup v).isSome = true ↔ v ∈ dom ++ q.outvars := by
                    intro v
                    constructor
                    · intro hs
                      obtain ⟨x, hx⟩ := Option.isSome_iff_exists.1 hs
                      rcases bindOuts_lookup q.outvars vs envG envG1 hstep v x hx
                        with ⟨k, hk1, _⟩ | ⟨_, hold⟩
                      · exact List.mem_append.2 (Or.inr (getElem?_mem_list hk1))
                      · exact List.mem_append.2
                          (Or.inl ((hexact v).1 (by simp [hold])))
                    · intro hv
                      rcases List.mem_append.1 hv with hv | hv
                      · exact bindOuts_pres q.outvars vs envG envG1 hstep v
                          ((hexact v).2 hv)
                      · exact bindOuts_binds q.outvars vs envG envG1 hstep v hv
                  by_cases ht : q.invars.all (fun v => kset.contains v) = true
                  · obtain ⟨iha, ihb, ihc, ihd, ihe, ihf⟩ :=
                      splitEqns_facts cat rest (kset ++ q.outvars)
                        (dom ++ q.outvars) envG1 envG' hrun hnd1 hexact1
                        (by
                          intro v hv
                          rcases List.mem_append.1 hv with hv | hv
                          · exact List.mem_append.2 (Or.inl (hks v hv))
                          · exact List.mem_append.2 (Or.inr hv))
                    refine ⟨?_, ?_, ?_, ?_, ?_, ?_⟩
                    · intro v hv
                      simp only [splitEqns, if_pos ht] at hv ⊢
                      rcases iha v hv with hv1 | hv2
                      · rcases List.mem_append.1 hv1 with hv1 | hv1
                        · exact Or.inl hv1
                        · refine Or.inr ?_
                          show v ∈ q.outvars ++
                            outsOf (splitEqns (kset ++ q.outvars) rest).2.1
                          exact List.mem_append.2 (Or.inl hv1)
                      · refine Or.inr ?_
                        show v ∈ q.outvars ++
                          outsOf (splitEqns (kset ++ q.outvars) rest).2.1
                        exact List.mem_append.2 (Or.inr hv2)
                    · intro v hv
                      simp only [splitEqns, if_pos ht]
                      exact ihb v (List.mem_append.2 (Or.inl hv))
                    · intro v hv
                      simp only [splitEqns, if_pos ht] at hv
                      rcases ihc v hv with hv1 | hv2
                      · rcases List.mem_append.1 hv1 with hv1 | hv1
                        · exact Or.inl hv1
                        · exact Or.inr (by
                            rw [hocons]
                            exact List.mem_append.2 (Or.inl hv1))
                      · exact Or.inr (by
                          rw [hocons]
                          exact List.mem_append.2 (Or.inr hv2))
                    · simp only [splitEqns, if_pos ht]
                      show scopedEqns kset
                        (q :: (splitEqns (kset ++ q.outvars) rest).2.1) = true
                      simp only [scopedEqns, Bool.and_eq_true]
                      exact ⟨ht, ihd⟩
                    · simp only [splitEqns, if_pos ht]
                      refine scopedEqns_mono (fun v hv => ?_) _ ihe
                      rcases List.mem_append.1 hv with hv | hv
                      · rcases List.mem_append.1 hv with hv | hv
                        · exact List.mem_append.2 (Or.inl hv)
                        · exact List.mem_append.2
                            (Or.inr (ihb v (List.mem_append.2 (Or.inr hv))))
                      · exact List.mem_append.2 (Or.inr hv)
                    · intro v hv
                      simp only [splitEqns, if_pos ht] at hv ⊢
                      have hv' : v ∈ q.outvars ++
                          outsOf (splitEqns (kset ++ q.outvars) rest).2.1 := hv
                      rcases List.mem_append.1 hv' with hv1 | hv2
                      · exact ihb v (List.mem_append.2 (Or.inr hv1))
                      · exact ihf v hv2
                  · obtain ⟨iha, ihb, ihc, ihd, ihe, ihf⟩ :=
                      splitEqns_facts cat rest kset (dom ++ q.outvars) envG1
                        envG' hrun hnd1 hexact1
                        (fun v hv => List.mem_append.2 (Or.inl (hks v hv)))
                    refine ⟨?_, ?_, ?_, ?_, ?_, ?_⟩
                    · intro v hv
                      simp only [splitEqns, if_neg ht] at hv ⊢
                      exact iha v hv
                    · intro v hv
                      simp only [splitEqns, if_neg ht]
                      exact ihb v hv
                    · intro v hv
                      simp only [splitEqns, if_neg ht] at hv
                      rcases ihc v hv with hv1 | hv2
                      · rcases List.mem_append.1 hv1 with hv1 | hv1
                        · exact Or.inl hv1
                        · exact Or.inr (by
                            rw [hocons]
                            exact List.mem_append.2 (Or.inl hv1))
                      · exact Or.inr (by
                          rw [hocons]
                          exact List.mem_append.2 (Or.inr hv2))
                    · simp only [splitEqns, if_neg ht]
                      exact ihd
                    · simp only [splitEqns, if_neg ht]
                      show scopedEqns (dom ++ (splitEqns kset rest).1)
                        (q :: (splitEqns kset rest).2.2) = true
                      simp only [scopedEqns, Bool.and_eq_true]
                      refine ⟨?_, ?_⟩
                      · simp only [List.all_eq_true]
                        intro v hv
                        have hvd : v ∈ dom := by
                          refine (hexact v).1 ?_
                          have := readVars_getElem q.invars envG xs hargs
                          obtain ⟨k, hk⟩ := List.getElem?_of_mem hv
                          have hlk := this k v hk
                          cases hxk : xs[k]? with
                          | none =>
                              rw [hxk] at hlk
                              have hkx : xs.length ≤ k := by
                                by_contra hlt
                                rw [List.getElem?_eq_getElem
                                  (Nat.lt_of_not_le hlt)] at hxk
                                cases hxk
                              have := readVars_length q.invars envG xs hargs
                              rw [List.getElem?_eq_none (by omega)] at hk
                              cases hk
                          | some y =>
                              rw [hxk] at hlk
                              simp [hlk]
                        simpa using List.mem_append.2 (Or.inl hvd)
                      · refine scopedEqns_mono (fun v hv => ?_) _ ihe
                        rcases List.mem_append.1 hv with hv | hv
                        · rcases List.mem_append.1 hv with hv | hv
                          · exact List.mem_append.2
                              (Or.inl (List.mem_append.2 (Or.inl hv)))
                          · exact List.mem_append.2 (Or.inr hv)
                        · exact List.mem_append.2
                            (Or.inl (List.mem_append.2 (Or.inr hv)))
                    · intro v hv
                      simp only [splitEqns, if_neg ht] at hv ⊢
                      exact ihf v hv

theorem readVars_both : ∀ (l : List VarId) (env env' : Env),
    (∀ v ∈ l, ∃ x, env.lookup v = some x ∧ env'.lookup v = some x) →
    ∃ xs, readVars env l = some xs ∧ readVars env' l = some xs
  | [], _, _, _ => ⟨[], rfl, rfl⟩
  | v :: l, env, env', hag => by
      obtain ⟨x, hx1, hx2⟩ := hag v (List.mem_cons_self v l)
      obtain ⟨xs, h1, h2⟩ := readVars_both l env env'
        (fun w hw => hag w (List.mem_cons_of_mem v hw))
      refine ⟨x :: xs, ?_, ?_⟩
      · simp [readVars, readVar, Option.bind_eq_bind, hx1, h1]
      · simp [readVars, readVar, Option.bind_eq_bind, hx2, h2]

theorem evalEqns_append (cat : PrimCatalog) : ∀ (l1 l2 : List JaxprEqn)
    (env : Env), evalEqns cat env (l1 ++ l2)
      = (evalEqns cat env l1).bind (fun e => evalEqns cat e l2)
  | [], l2, env => by simp [evalEqns]
  | q :: l1, l2, env => by
      simp only [List.cons_append, evalEqns, Option.bind_eq_bind]
      cases hstep : evalEqn cat env q with
      | none => simp
      | some env1 =>
          simp only [Option.some_bind]
          exact evalEqns_append cat l1 l2 env1

theorem lookup_unit_base : ∀ (v : Nat) (x : Val),
    List.lookup v [(unitvar, unitVal)] = some x → v = unitvar ∧ x = unitVal := by
  intro v x hl
  simp only [List.lookup] at hl
  cases hbe : v == unitvar
  · rw [hbe] at hl; cases hl
  · rw [hbe] at hl
    exact ⟨by simpa using hbe, (Option.some.inj hl).symm⟩

/-- Modelled from the spec (§5): the partial-evaluation split.  Classify the
equations by the known/unknown partition of the inputs; `Graph₁` takes the
known inputs, runs the known equations and returns a pair of the known
output slot (the graph output if known, unit otherwise) and the packed
residual tuple; `Graph₂` captures the residuals as constant variables, takes
the unknown inputs, runs the unknown equations, and is closure-converted
with the real `closure_convert_jaxpr` so the residual tuple becomes its
leading explicit input. -/
def peval_split (g : Jaxpr) (fc : List Bool) : Jaxpr × Jaxpr × Bool :=
  let kIn := selectK fc g.invars
  let uIn := selectU fc g.invars
  let s := splitEqns kIn g.eqns
  let outKnown := s.1.contains g.outvar
  let res := residualVars s.1 s.2.2
  let outSlot := if outKnown then g.outvar else unitvar
  let g1 : Jaxpr := ⟨[], [], kIn, maxVarJ g + 2,
    s.2.1 ++ [pack_eqn res (maxVarJ g + 1),
      pack_eqn [outSlot, maxVarJ g + 1] (maxVarJ g + 2)]⟩
  let g2 : Jaxpr := ⟨res, [], uIn,
    if outKnown then unitvar else g.outvar, s.2.2⟩
  (g1, closure_convert_jaxpr g2 (maxVarJ g + 1), outKnown)

/-- Modelled from the spec: the composed execution of the split pair —
run `Graph₁` on the known inputs, destructure its paired output, and either
return the known output directly or feed the residual tuple together with
the unknown inputs to the closure-converted `Graph₂`. -/
def composedEval (cat : PrimCatalog) (g : Jaxpr) (fc : List Bool)
    (kvs uvs : List Val) : Option Val :=
  let p := peval_split g fc
  (evalJaxpr cat p.1 [] [] kvs).bind (fun r1 =>
    match r1 with
    | Val.tuple [oc, rt] =>
        if p.2.2 then some oc else evalJaxpr cat p.2.1 [] [] (rt :: uvs)
    | _ => none)

/-- **C1.**  Split composability: for every closed single-assignment graph,
every boolean known/unknown partition of its inputs, and every full input
list on which the graph executes, running `Graph₁` of the split on the known
inputs and, when the output is not fully known, feeding its residual tuple
together with the unknown inputs into the closure-converted `Graph₂`, yields
exactly the result of executing the graph directly on the full input list. -/
theorem C1_split_composability (cat : PrimCatalog) (g : Jaxpr) (fc : List Bool)
    (vals : List Val) (out : Val)
    (hcv : g.constvars = []) (hfv : g.freevars = [])
    (hwf : (unitvar :: (g.invars ++ outsOf g.eqns)).Nodup)
    (hlen : fc.length = g.invars.length)
    (hvlen : vals.length = g.invars.length)
    (hG : evalJaxpr cat g [] [] vals = some out) :
    composedEval cat g fc (selectK fc vals) (selectU fc vals) = some out := by
  simp only [evalJaxpr, hcv, hfv, bindOuts, Option.bind_eq_bind,
    Option.some_bind] at hG
  cases hbind0 : bindOuts [(unitvar, unitVal)] g.invars vals with
  | none => rw [hbind0] at hG; cases hG
  | some env0 =>
  rw [hbind0] at hG
  simp only [Option.some_bind] at hG
  cases hrunG : evalEqns cat env0 g.eqns with
  | none => rw [hrunG] at hG; cases hG
  | some envGf =>
  rw [hrunG] at hG
  simp only [Option.some_bind] at hG
  have hGl : envGf.lookup g.outvar = some out := hG
  have hndG : ((unitvar :: g.invars) ++ outsOf g.eqns).Nodup := by
    simpa using hwf
  have hinvNodup : g.invars.Nodup := by
    have h1 := (List.nodup_cons.1 hwf).2
    exact (List.nodup_append.1 h1).1
  have hunitNotIn : unitvar ∉ g.invars := by
    have h1 := (List.nodup_cons.1 hwf).1
    intro habs
    exact h1 (List.mem_append.2 (Or.inl habs))
  have hbase0 : env0.lookup unitvar = some unitVal :=
    bindOuts_pres_val g.invars vals [(unitvar, unitVal)] env0 hbind0
      unitvar unitVal hunitNotIn (by simp [List.lookup])
  have hexact0 : ∀ v : Nat,
      (env0.lookup v).isSome = true ↔ v ∈ unitvar :: g.invars := by
    intro v
    constructor
    · intro hs
      obtain ⟨x, hx⟩ := Option.isSome_iff_exists.1 hs
      rcases bindOuts_lookup g.invars vals _ env0 hbind0 v x hx with
        ⟨k, hk1, _⟩ | ⟨_, hold⟩
      · exact List.mem_cons_of_mem _ (getElem?_mem_list hk1)
      · obtain ⟨rfl, _⟩ := lookup_unit_base v x hold
        exact List.mem_cons_self _ _
    · intro hv
      rcases List.mem_cons.1 hv with rfl | hv
      · simp [hbase0]
      · exact bindOuts_binds g.invars vals _ env0 hbind0 v hv
  have henv0val : ∀ (m : Nat) (v : VarId), g.invars[m]? = some v →
      env0.lookup v = vals[m]? :=
    fun m v hm =>
      bindOuts_lookup_nodup g.invars vals _ env0 hinvNodup hbind0 m v hm
  obtain ⟨presG, exactG, hexeAll⟩ :=
    evalEqns_facts cat g.eqns (unitvar :: g.invars) env0 envGf hrunG hndG
      hexact0
  have hksub : ∀ v ∈ selectK fc g.invars, v ∈ unitvar :: g.invars :=
    fun v hv =>
      List.mem_cons_of_mem _ ((selectK_sublist fc g.invars).subset hv)
  obtain ⟨iha, ihb, ihc, ihd, ihe, ihf⟩ :=
    splitEqns_facts cat g.eqns (selectK fc g.invars) (unitvar :: g.invars)
      env0 envGf hrunG hndG hexact0 hksub
  have hksetB : ∀ v ∈ (splitEqns (selectK fc g.invars) g.eqns).1,
      v < maxVarJ g + 1 := by
    intro v hv
    rcases ihc v hv with hvd | hvo
    · rcases List.mem_cons.1 hvd with rfl | hvi
      · exact Nat.succ_pos _
      · exact Nat.lt_succ_of_le (maxVarJ_invar hvi)
    · obtain ⟨q, hq, hvq⟩ := outsOf_mem hvo
      exact Nat.lt_succ_of_le (maxVarJ_eqn_outvar hq hvq)
  have hE1mem := (splitEqns_mem g.eqns (selectK fc g.invars)).1
  have hE2mem := (splitEqns_mem g.eqns (selectK fc g.invars)).2.1
  have hEcover := (splitEqns_mem g.eqns (selectK fc g.invars)).2.2
  have heqnB : ∀ q ∈ g.eqns, (∀ v ∈ q.invars, v < maxVarJ g + 1) ∧
      (∀ v ∈ q.outvars, v < maxVarJ g + 1) :=
    fun q hq =>
      ⟨fun v hv => Nat.lt_succ_of_le (maxVarJ_eqn_invar hq hv),
       fun v hv => Nat.lt_succ_of_le (maxVarJ_eqn_outvar hq hv)⟩
  have hkvslen : (selectK fc g.invars).length = (selectK fc vals).length :=
    selectK_length fc g.invars vals hvlen.symm
  obtain ⟨env01, hbind01⟩ := bindOuts_total (selectK fc g.invars)
    (selectK fc vals) [(unitvar, unitVal)] hkvslen
  have hdom01 : ∀ v ∈ unitvar :: selectK fc g.invars,
      (env01.lookup v).isSome = true := by
    intro v hv
    rcases List.mem_cons.1 hv with rfl | hv
    · exact bindOuts_pres _ _ _ env01 hbind01 unitvar (by simp [List.lookup])
    · exact bindOuts_binds _ _ _ env01 hbind01 v hv
  have hsub01 : ∀ (v : Nat) (x : Val), v < maxVarJ g + 1 →
      env01.lookup v = some x → envGf.lookup v = some x := by
    intro v x _ hx
    rcases bindOuts_lookup _ _ _ env01 hbind01 v x hx with
      ⟨k, hk1, hk2⟩ | ⟨_, hold⟩
    · obtain ⟨m, hm1, hm2⟩ := selectK_pairs fc g.invars vals hvlen.symm k v hk1
      rw [hk2] at hm2
      have henv := henv0val m v hm1
      rw [← hm2] at henv
      exact presG v x henv
    · obtain ⟨rfl, rfl⟩ := lookup_unit_base v x hold
      exact presG _ _ hbase0
  obtain ⟨env1f, hrun1, hcov1, hsub1⟩ := eqns_sim cat (maxVarJ g + 1)
    ((splitEqns (selectK fc g.invars) g.eqns).2.1)
    (unitvar :: selectK fc g.invars) env01 envGf hdom01 hsub01
    (fun q hq => heqnB q (hE1mem q hq))
    (fun q hq => hexeAll q (hE1mem q hq))
    (scopedEqns_mono (fun v hv => List.mem_cons_of_mem _ hv) _ ihd)
  have hkset'agree : ∀ v ∈ (splitEqns (selectK fc g.invars) g.eqns).1,
      ∃ x, env1f.lookup v = some x ∧ envGf.lookup v = some x := by
    intro v hv
    have hvS : (env1f.lookup v).isSome = true := by
      refine hcov1 v ?_
      rcases iha v hv with hk | ho
      · exact List.mem_append.2 (Or.inl (List.mem_cons_of_mem _ hk))
      · exact List.mem_append.2 (Or.inr ho)
    obtain ⟨x, hx⟩ := Option.isSome_iff_exists.1 hvS
    exact ⟨x, hx, hsub1 v x (hksetB v hv) hx⟩
  obtain ⟨rss, hread1, hreadG⟩ := readVars_both
    (residualVars (splitEqns (selectK fc g.invars) g.eqns).1
      (splitEqns (selectK fc g.invars) g.eqns).2.2) env1f envGf
    (fun v hv => hkset'agree v (List.mem_filter.1 hv).1)
  have hstepA : evalEqn cat env1f
      (pack_eqn (residualVars (splitEqns (selectK fc g.invars) g.eqns).1
        (splitEqns (selectK fc g.invars) g.eqns).2.2) (maxVarJ g + 1))
      = some ((maxVarJ g + 1, Val.tuple rss) :: env1f) := by
    simp only [evalEqn, pack_eqn, Option.bind_eq_bind, hread1,
      Option.some_bind]
    simp [evalEqnVals, bindOuts]
  have hrvlookup : ((maxVarJ g + 1, Val.tuple rss) :: env1f).lookup
      (maxVarJ g + 1) = some (Val.tuple rss) := by
    simp [List.lookup]
  cases houtk : (splitEqns (selectK fc g.invars) g.eqns).1.contains g.outvar
    with
  | true =>
      have houtmem : g.outvar ∈ (splitEqns (selectK fc g.invars) g.eqns).1 := by
        have hcontains := houtk
        simpa [List.contains, List.elem_iff] using hcontains
      obtain ⟨oc, hoc1, hoc2⟩ := hkset'agree g.outvar houtmem
      have hocout : oc = out := by
        rw [hGl] at hoc2
        exact (Option.some.inj hoc2).symm
      have hslotl : ((maxVarJ g + 1, Val.tuple rss) :: env1f).lookup g.outvar
          = some oc := by
        have hne : (g.outvar == maxVarJ g + 1) = false := by
          simp only [beq_eq_false_iff_ne]
          exact Nat.ne_of_lt (Nat.lt_succ_of_le (maxVarJ_outvar g))
        simp [List.lookup, hne, hoc1]
      have hstepB : evalEqn cat ((maxVarJ g + 1, Val.tuple rss) :: env1f)
          (pack_eqn [g.outvar, maxVarJ g + 1] (maxVarJ g + 2))
          = some ((maxVarJ g + 2, Val.tuple [oc, Val.tuple rss]) ::
              (maxVarJ g + 1, Val.tuple rss) :: env1f) := by
        simp only [evalEqn, pack_eqn, Option.bind_eq_bind, readVars, readVar,
          hslotl, hrvlookup, Option.some_bind]
        simp [evalEqnVals, bindOuts]
      have hg1eval : evalJaxpr cat
          (⟨[], [], selectK fc g.invars, maxVarJ g + 2,
            (splitEqns (selectK fc g.invars) g.eqns).2.1 ++
              [pack_eqn (residualVars
                  (splitEqns (selectK fc g.invars) g.eqns).1
                  (splitEqns (selectK fc g.invars) g.eqns).2.2)
                (maxVarJ g + 1),
               pack_eqn [g.outvar, maxVarJ g + 1] (maxVarJ g + 2)]⟩ : Jaxpr)
          [] [] (selectK fc vals)
          = some (Val.tuple [oc, Val.tuple rss]) := by
        simp only [evalJaxpr, bindOuts, Option.bind_eq_bind, Option.some_bind]
        rw [hbind01]
        simp only [Option.some_bind]
        rw [evalEqns_append]
        rw [hrun1]
        simp only [Option.bind_eq_bind, Option.some_bind]
        simp only [evalEqns, Option.bind_eq_bind]
        rw [hstepA]
        simp only [Option.some_bind]
        rw [hstepB]
        simp only [Option.some_bind]
        simp [readVar, List.lookup]
      simp only [composedEval, peval_split, if_pos houtk]
      rw [hg1eval]
      simp [hocout]
  | false =>
      have houtnot : g.outvar ∉ (splitEqns (selectK fc g.invars) g.eqns).1 := by
        intro habs
        have : (splitEqns (selectK fc g.invars) g.eqns).1.contains g.outvar
            = true := by
          simpa [List.contains, List.elem_iff] using habs
        rw [houtk] at this
        cases this
      have hslotl : ((maxVarJ g + 1, Val.tuple rss) :: env1f).lookup unitvar
          = some unitVal := by
        have hne : (unitvar == maxVarJ g + 1) = false := by
          simp only [beq_eq_false_iff_ne]
          exact Nat.ne_of_lt (Nat.succ_pos _)
        have hul : env1f.lookup unitvar = some unitVal := by
          have hs := hdom01 unitvar (List.mem_cons_self _ _)
          have hsf : (env1f.lookup unitvar).isSome = true := by
            refine hcov1 unitvar ?_
            exact List.mem_append.2 (Or.inl (List.mem_cons_self _ _))
          obtain ⟨x, hx⟩ := Option.isSome_iff_exists.1 hsf
          have := hsub1 unitvar x (Nat.succ_pos _) hx
          rw [presG unitvar unitVal hbase0] at this
          rw [hx]
          rw [Option.some.inj this]
        simp [List.lookup, hne, hul]
      have hstepB : evalEqn cat ((maxVarJ g + 1, Val.tuple rss) :: env1f)
          (pack_eqn [unitvar, maxVarJ g + 1] (maxVarJ g + 2))
          = some ((maxVarJ g + 2, Val.tuple [unitVal, Val.tuple rss]) ::
              (maxVarJ g + 1, Val.tuple rss) :: env1f) := by
        simp only [evalEqn, pack_eqn, Option.bind_eq_bind, readVars, readVar,
          hslotl, hrvlookup, Option.some_bind]
        simp [evalEqnVals, bindOuts]
      have hg1eval : evalJaxpr cat
          (⟨[], [], selectK fc g.invars, maxVarJ g + 2,
            (splitEqns (selectK fc g.invars) g.eqns).2.1 ++
              [pack_eqn (residualVars
                  (splitEqns (selectK fc g.invars) g.eqns).1
                  (splitEqns (selectK fc g.invars) g.eqns).2.2)
                (maxVarJ g + 1),
               pack_eqn [unitvar, maxVarJ g + 1] (maxVarJ g + 2)]⟩ : Jaxpr)
          [] [] (selectK fc vals)
          = some (Val.tuple [unitVal, Val.tuple rss]) := by
        simp only [evalJaxpr, bindOuts, Option.bind_eq_bind, Option.some_bind]
        rw [hbind01]
        simp only [Option.some_bind]
        rw [evalEqns_append]
        rw [hrun1]
        simp only [Option.bind_eq_bind, Option.some_bind]
        simp only [evalEqns, Option.bind_eq_bind]
        rw [hstepA]
        simp only [Option.some_bind]
        rw [hstepB]
        simp only [Option.some_bind]
        simp [readVar, List.lookup]
      -- Graph₂ evaluation
      have huvlen : (selectU fc g.invars).length = (selectU fc vals).length :=
        selectU_length fc g.invars vals hvlen.symm
      obtain ⟨env2u, hbind2u⟩ := bindOuts_total (selectU fc g.invars)
        (selectU fc vals)
        ((maxVarJ g + 1, Val.tuple rss) :: [(unitvar, unitVal)]) huvlen
      have hcvNotU : maxVarJ g + 1 ∉ selectU fc g.invars := by
        intro habs
        have hle := maxVarJ_invar ((selectU_sublist fc g.invars).subset habs)
        exact absurd hle (Nat.not_succ_le_self _)
      have hcvlook : env2u.lookup (maxVarJ g + 1) = some (Val.tuple rss) :=
        bindOuts_pres_val _ _ _ env2u hbind2u (maxVarJ g + 1) (Val.tuple rss)
          hcvNotU (by simp [List.lookup])
      have hlenres : rss.length = (residualVars
          (splitEqns (selectK fc g.invars) g.eqns).1
          (splitEqns (selectK fc g.invars) g.eqns).2.2).length :=
        readVars_length _ envGf rss hreadG
      obtain ⟨env21, hbind21⟩ := bindOuts_total
        (residualVars (splitEqns (selectK fc g.invars) g.eqns).1
          (splitEqns (selectK fc g.invars) g.eqns).2.2) rss env2u hlenres.symm
      have hstepU : evalEqn cat env2u
          (unpack_eqn (maxVarJ g + 1)
            (residualVars (splitEqns (selectK fc g.invars) g.eqns).1
              (splitEqns (selectK fc g.invars) g.eqns).2.2))
          = some env21 := by
        simp only [evalEqn, unpack_eqn, Option.bind_eq_bind, readVars, readVar,
          hcvlook, Option.some_bind]
        simp [evalEqnVals, hlenres.symm, hbind21]
      have hunit2u : env2u.lookup unitvar = some unitVal := by
        refine bindOuts_pres_val _ _ _ env2u hbind2u unitvar unitVal ?_ ?_
        · intro habs
          exact hunitNotIn ((selectU_sublist fc g.invars).subset habs)
        · have hne : (unitvar == maxVarJ g + 1) = false := by
            simp only [beq_eq_false_iff_ne]
            exact Nat.ne_of_lt (Nat.succ_pos _)
          simp [List.lookup, hne]
      have hdom2 : ∀ v ∈ unitvar :: (selectU fc g.invars ++
          residualVars (splitEqns (selectK fc g.invars) g.eqns).1
            (splitEqns (selectK fc g.invars) g.eqns).2.2),
          (env21.lookup v).isSome = true := by
        intro v hv
        rcases List.mem_cons.1 hv with rfl | hv
        · exact bindOuts_pres _ _ _ env21 hbind21 unitvar (by simp [hunit2u])
        · rcases List.mem_append.1 hv with hv | hv
          · exact bindOuts_pres _ _ _ env21 hbind21 v
              (bindOuts_binds _ _ _ env2u hbind2u v hv)
          · exact bindOuts_binds _ _ _ env21 hbind21 v hv
      have hsub2 : ∀ (v : Nat) (x : Val), v < maxVarJ g + 1 →
          env21.lookup v = some x → envGf.lookup v = some x := by
        intro v x hvB hx
        rcases bindOuts_lookup _ _ _ env21 hbind21 v x hx with
          ⟨k, hk1, hk2⟩ | ⟨_, hold⟩
        · have hres := readVars_getElem _ envGf rss hreadG k v hk1
          rw [hk2] at hres
          exact hres
        · rcases bindOuts_lookup _ _ _ env2u hbind2u v x hold with
            ⟨k, hk1, hk2⟩ | ⟨_, hold2⟩
          · obtain ⟨m, hm1, hm2⟩ := selectU_pairs fc g.invars vals hvlen.symm
              k v hk1
            rw [hk2] at hm2
            have henv := henv0val m v hm1
            rw [← hm2] at henv
            exact presG v x henv
          · simp only [List.lookup] at hold2
            cases hbe : v == maxVarJ g + 1
            · rw [hbe] at hold2
              obtain ⟨rfl, rfl⟩ := lookup_unit_base v x hold2
              exact presG _ _ hbase0
            · have : v = maxVarJ g + 1 := by simpa using hbe
              omega
      have hsc2 : scopedEqns (unitvar :: (selectU fc g.invars ++
          residualVars (splitEqns (selectK fc g.invars) g.eqns).1
            (splitEqns (selectK fc g.invars) g.eqns).2.2))
          (splitEqns (selectK fc g.invars) g.eqns).2.2 = true := by
        refine scopedEqns_used _ ((unitvar :: g.invars) ++
          (splitEqns (selectK fc g.invars) g.eqns).1) _ ihe ?_
        intro v hv hused
        rcases List.mem_append.1 hv with hv | hv
        · rcases List.mem_cons.1 hv with rfl | hv
          · exact List.mem_cons_self _ _
          · rcases selectKU_cover fc g.invars hlen v hv with hk | hu
            · refine List.mem_cons_of_mem _ (List.mem_append.2 (Or.inr ?_))
              exact List.mem_filter.2 ⟨ihb v hk, hused⟩
            · exact List.mem_cons_of_mem _ (List.mem_append.2 (Or.inl hu))
        · refine List.mem_cons_of_mem _ (List.mem_append.2 (Or.inr ?_))
          exact List.mem_filter.2 ⟨hv, hused⟩
      obtain ⟨env2f, hrun2, hcov2, hsub2f⟩ := eqns_sim cat (maxVarJ g + 1)
        ((splitEqns (selectK fc g.invars) g.eqns).2.2)
        (unitvar :: (selectU fc g.invars ++
          residualVars (splitEqns (selectK fc g.invars) g.eqns).1
            (splitEqns (selectK fc g.invars) g.eqns).2.2)) env21 envGf
        hdom2 hsub2
        (fun q hq => heqnB q (hE2mem q hq))
        (fun q hq => hexeAll q (hE2mem q hq)) hsc2
      have houtmem2 : g.outvar ∈ (unitvar :: (selectU fc g.invars ++
          residualVars (splitEqns (selectK fc g.invars) g.eqns).1
            (splitEqns (selectK fc g.invars) g.eqns).2.2)) ++
          outsOf (splitEqns (selectK fc g.invars) g.eqns).2.2 := by
        have hsome : (envGf.lookup g.outvar).isSome = true := by
          simp [hGl]
        have hmem := (exactG g.outvar).1 hsome
        rcases List.mem_append.1 hmem with hv | hv
        · rcases List.mem_cons.1 hv with heq | hv
          · rw [heq]
            exact List.mem_append.2 (Or.inl (List.mem_cons_self _ _))
          · rcases selectKU_cover fc g.invars hlen g.outvar hv with hk | hu
            · exact absurd (ihb g.outvar hk) houtnot
            · exact List.mem_append.2 (Or.inl (List.mem_cons_of_mem _
                (List.mem_append.2 (Or.inl hu))))
        · obtain ⟨q, hq, hvq⟩ := outsOf_mem hv
          rcases hEcover q hq with h1 | h2
          · exact absurd (ihf g.outvar (outsOf_mem_of h1 hvq)) houtnot
          · exact List.mem_append.2 (Or.inr (outsOf_mem_of h2 hvq))
      obtain ⟨y, hy⟩ := Option.isSome_iff_exists.1 (hcov2 g.outvar houtmem2)
      have hyout : y = out := by
        have := hsub2f g.outvar y
          (Nat.lt_succ_of_le (maxVarJ_outvar g)) hy
        rw [hGl] at this
        exact (Option.some.inj this).symm
      have hg2eval : evalJaxpr cat
          (closure_convert_jaxpr
            (⟨residualVars (splitEqns (selectK fc g.invars) g.eqns).1
                (splitEqns (selectK fc g.invars) g.eqns).2.2, [],
              selectU fc g.invars, g.outvar,
              (splitEqns (selectK fc g.invars) g.eqns).2.2⟩ : Jaxpr)
            (maxVarJ g + 1)) [] [] (Val.tuple rss :: selectU fc vals)
          = some out := by
        simp only [evalJaxpr, closure_convert_jaxpr, bindOuts,
          Option.bind_eq_bind, Option.some_bind]
        rw [hbind2u]
        simp only [Option.some_bind]
        simp only [evalEqns, Option.bind_eq_bind]
        rw [hstepU]
        simp only [Option.some_bind]
        rw [hrun2]
        simp only [Option.some_bind]
        simp only [readVar, hy, hyout]
      have hnotc : ¬ ((splitEqns (selectK fc g.invars) g.eqns).1.contains
          g.outvar = true) := by
        rw [houtk]
        exact Bool.false_ne_true
      simp only [composedEval, peval_split, if_neg hnotc]
      rw [hg1eval]
      simp only [Option.some_bind]
      exact hg2eval

/-- Witness catalog for C1: one catalog primitive that packs its argument
values into a tuple. -/
def c1Cat : PrimCatalog :=
  ⟨fun _ _ args => some (Val.tuple args), fun _ _ _ => some AbstractVal.shaped⟩

/-- Witness graph for C1: a closed graph with two inputs (the first marked
known, the second unknown) and one catalog equation consuming both. -/
def c1G : Jaxpr :=
  ⟨[], [], [1, 2], 3, [⟨[1, 2], [3], Prim.op 0, false, false, 0⟩]⟩

/-- Witness for C1 at a concrete graph, partition and input values. -/
theorem C1_witness :
    composedEval c1Cat c1G [true, false]
      (selectK [true, false] [Val.base 5 0, Val.base 7 0])
      (selectU [true, false] [Val.base 5 0, Val.base 7 0])
      = some (Val.tuple [Val.base 5 0, Val.base 7 0]) :=
  C1_split_composability c1Cat c1G [true, false]
    [Val.base 5 0, Val.base 7 0] (Val.tuple [Val.base 5 0, Val.base 7 0])
    rfl rfl (by decide) rfl rfl rfl

end JaxPE
